import Mathlib

/-!
Verification of the core directed-graph engine of `refcycle`
(`refcycle/i_directed_graph.py` and `refcycle/object_graph.py`).

Vertices are tracked by identity key only (`id_map(vertex) = id(vertex)`),
and identity keys are stable and unique per distinct vertex, so vertices are
embedded directly as their identity keys (`Nat`).  Edge ids are `Nat` as in
the source.  The identity-keyed containers (`ElementTransformSet`,
`KeyTransformDict`, not part of the analysed sources) are modelled from the
spec's container contract: insertion-ordered, first-occurrence-retaining
set, and an insertion-ordered mapping whose lookup of a missing key is a
failure (Python `KeyError`, embedded as `Option.none`).  The `while` loops
of the source are embedded as fuel-indexed recursions; the fuel arguments
are shown to be large enough that the loops always run to completion on the
states the source can reach.
-/

namespace Refcycle

/-- Insertion-ordered mapping lookup (`KeyTransformDict.__getitem__` with the
identity transform): first binding of the key, `none` when absent. -/
def alook {α : Type} : List (Nat × α) → Nat → Option α
  | [], _ => none
  | p :: ps, k => if p.1 = k then some p.2 else alook ps k

/-- Insertion-ordered mapping update (`KeyTransformDict.__setitem__`):
overwrite in place when the key is present, append otherwise. -/
def aset {α : Type} : List (Nat × α) → Nat → α → List (Nat × α)
  | [], k, v => [(k, v)]
  | p :: ps, k, v => if p.1 = k then (k, v) :: ps else p :: aset ps k v

/-- In-place modification of the value stored under an existing key
(the Python pattern `d[k].append(x)` on a key known to be present). -/
def aupd {α : Type} : List (Nat × α) → Nat → (α → α) → List (Nat × α)
  | [], _, _ => []
  | p :: ps, k, f => if p.1 = k then (p.1, f p.2) :: ps else p :: aupd ps k f

/-- Insertion-ordered set insertion (`ElementTransformSet.add` with the
identity transform): a duplicate is ignored, the original is retained. -/
def addSet (s : List Nat) (v : Nat) : List Nat :=
  if v ∈ s then s else s ++ [v]

/-- The contents of an `ElementTransformSet` populated from `objects` in
order: the first occurrences, in insertion order. -/
def initVerts (objects : List Nat) : List Nat :=
  objects.foldl addSet []

/-- The `out_edges` / `in_edges` dictionaries right after the
initialisation loop `for obj in objects: d[obj] = []`. -/
def initMap (objects : List Nat) : List (Nat × List Nat) :=
  objects.foldl (fun m o => aset m o []) []

/-- The persistent attributes of an `ObjectGraph` (`_vertices`,
`_out_edges`, `_in_edges`, `_head`, `_tail`). -/
structure ObjectGraph : Type where
  vertices : List Nat
  out_edges : List (Nat × List Nat)
  in_edges : List (Nat × List Nat)
  head : List (Nat × Nat)
  tail : List (Nat × Nat)
  deriving DecidableEq, Repr

/-- Out-edge list of a vertex, defaulting to `[]` (used only to state
properties; the operations themselves use the failing lookup). -/
def outListD (g : ObjectGraph) (v : Nat) : List Nat :=
  (alook g.out_edges v).getD []

/-- In-edge list of a vertex, defaulting to `[]`. -/
def inListD (g : ObjectGraph) (v : Nat) : List Nat :=
  (alook g.in_edges v).getD []

/-- Head (target) of an edge, defaulting to `0` (used only in statements). -/
def headD (g : ObjectGraph) (e : Nat) : Nat :=
  (alook g.head e).getD 0

/-- Tail (source) of an edge, defaulting to `0` (used only in statements). -/
def tailD (g : ObjectGraph) (e : Nat) : Nat :=
  (alook g.tail e).getD 0

/-- All edge ids of the graph in the order enumerated by the source's
`_edges` property: per vertex in vertex order, per out-edge list in order. -/
def allOut (g : ObjectGraph) : List Nat :=
  (g.vertices.map (outListD g)).flatten

/-- All edge ids as enumerated through the in-edge lists. -/
def allIn (g : ObjectGraph) : List Nat :=
  (g.vertices.map (inListD g)).flatten

/-- Well-formedness of a graph value: the data-model invariants of spec §3.
All conjuncts are bounded quantifications over the stored lists, so `WF` is
decidable on concrete graphs. -/
def WF (g : ObjectGraph) : Prop :=
  g.vertices.Nodup ∧
  g.out_edges.map Prod.fst = g.vertices ∧
  g.in_edges.map Prod.fst = g.vertices ∧
  (∀ p ∈ g.out_edges, ∀ e ∈ p.2, alook g.tail e = some p.1) ∧
  (∀ p ∈ g.out_edges, ∀ e ∈ p.2,
    (alook g.head e).isSome = true ∧ (alook g.head e).getD 0 ∈ g.vertices) ∧
  (∀ p ∈ g.in_edges, ∀ e ∈ p.2,
    (alook g.tail e).isSome = true ∧ (alook g.tail e).getD 0 ∈ g.vertices) ∧
  (allOut g).Nodup

instance decidableWF (g : ObjectGraph) : Decidable (WF g) := by
  unfold WF
  infer_instance

/-- Modelled from the spec: `children(v)` is not among the analysed source
files (only its callers are); spec §4.2 specifies it as the ordered
sequence of vertices reachable via one outgoing edge from `v`, i.e. the
heads of `v`'s out-edges in order.  A missing vertex or edge makes the
underlying mapping lookups fail. -/
def children? (g : ObjectGraph) (v : Nat) : Option (List Nat) := do
  let es ← alook g.out_edges v
  es.mapM (alook g.head)

/-- Modelled from the spec: `parents(v)`, symmetric to `children(v)` —
the tails of `v`'s in-edges in order (spec §4.2). -/
def parents? (g : ObjectGraph) (v : Nat) : Option (List Nat) := do
  let es ← alook g.in_edges v
  es.mapM (alook g.tail)

/-- One `children` (resp. `parents`) step. -/
def Adj (nbr : Nat → Option (List Nat)) (u v : Nat) : Prop :=
  ∃ cs, nbr u = some cs ∧ v ∈ cs

/-- Reachability via zero or more neighbour steps. -/
def Reaches (nbr : Nat → Option (List Nat)) : Nat → Nat → Prop :=
  Relation.ReflTransGen (Adj nbr)

/-! ### `complete_subgraph_on_vertices` (`object_graph.py`) -/

/-- The four containers populated by the edge scan of
`complete_subgraph_on_vertices` (and of `_from_objects`). -/
structure SubAcc : Type where
  out_edges : List (Nat × List Nat)
  in_edges : List (Nat × List Nat)
  head : List (Nat × Nat)
  tail : List (Nat × Nat)
  deriving DecidableEq, Repr

/-- Body of the inner loop `for edge in self._out_edges[referrer]` of
`complete_subgraph_on_vertices`: look up the head in the parent graph, skip
the edge when the head is not among the new vertices, otherwise record
tail/head and append the edge to the out/in lists.  The `aupd` keys are
present because every member of `vs` was initialised in `initMap`. -/
def scanEdge (g : ObjectGraph) (vs : List Nat) (referrer : Nat)
    (acc : SubAcc) (edge : Nat) : Option SubAcc := do
  let referent ← alook g.head edge
  if referent ∈ vs then
    pure { out_edges := aupd acc.out_edges referrer (fun l => l ++ [edge]),
           in_edges := aupd acc.in_edges referent (fun l => l ++ [edge]),
           head := aset acc.head edge referent,
           tail := aset acc.tail edge referrer }
  else
    pure acc

/-- Body of the outer loop `for referrer in vertices`: the parent lookup
`self._out_edges[referrer]` fails (Python `KeyError`) when `referrer` is
not a vertex of the parent graph. -/
def scanVertex (g : ObjectGraph) (vs : List Nat) (acc : SubAcc)
    (referrer : Nat) : Option SubAcc := do
  let es ← alook g.out_edges referrer
  es.foldlM (scanEdge g vs referrer) acc

/-- `ObjectGraph.complete_subgraph_on_vertices`, including the final
`ObjectGraph._raw` call. -/
def complete_subgraph_on_vertices (g : ObjectGraph) (objects : List Nat) :
    Option ObjectGraph := do
  let vs := initVerts objects
  let acc ← vs.foldlM (scanVertex g vs)
    ⟨initMap objects, initMap objects, [], []⟩
  pure { vertices := vs, out_edges := acc.out_edges,
         in_edges := acc.in_edges, head := acc.head, tail := acc.tail }

/-! ### `ObjectGraph._from_objects` -/

/-- Body of the inner loop `for referent in gc.get_referents(referrer)` of
`_from_objects`: referents outside the vertex set are skipped before the
edge counter is advanced; otherwise a fresh edge id is assigned and
recorded.  The state is `(next edge id, containers)`. -/
def buildEdge (vs : List Nat) (referrer : Nat) (st : Nat × SubAcc)
    (referent : Nat) : Nat × SubAcc :=
  if referent ∈ vs then
    (st.1 + 1,
     { out_edges := aupd st.2.out_edges referrer (fun l => l ++ [st.1]),
       in_edges := aupd st.2.in_edges referent (fun l => l ++ [st.1]),
       head := aset st.2.head st.1 referent,
       tail := aset st.2.tail st.1 referrer })
  else st

/-- `ObjectGraph._from_objects`, with the neighbour-expansion callback
(`gc.get_referents` in the source, an external collaborator per spec §1)
abstracted as `expand`. -/
def from_objects (expand : Nat → List Nat) (objects : List Nat) :
    ObjectGraph :=
  let vs := initVerts objects
  let st := vs.foldl
    (fun st referrer => (expand referrer).foldl (buildEdge vs referrer) st)
    (0, ⟨initMap objects, initMap objects, [], []⟩)
  { vertices := vs, out_edges := st.2.out_edges, in_edges := st.2.in_edges,
    head := st.2.head, tail := st.2.tail }

/-! ### `descendants` / `ancestors` (`i_directed_graph.py`) -/

/-- The `while to_visit:` loop shared by `descendants` and `ancestors`,
parameterised by the neighbour function (`children` resp. `parents`).
The head of `toVisit` is the top of the Python list (its last element);
pushing the unvisited neighbours one by one at the end of the Python list
is prepending their reversal here.  The loop is fuel-indexed; at the fuels
used below it is proved to terminate before exhaustion whenever the start
vertex is a vertex of a well-formed graph. -/
def dfsLoop (nbr : Nat → Option (List Nat)) :
    Nat → List Nat → List Nat → List Nat → Option (List Nat)
  | fuel, visited, stack, toVisit =>
    match toVisit with
    | [] => some stack
    | v :: rest =>
      match fuel with
      | 0 => none
      | fuel' + 1 =>
        let visited' := v :: visited
        match nbr v with
        | none => none
        | some cs =>
          dfsLoop nbr fuel' visited' (stack ++ [v])
            ((cs.filter (fun w => !(decide (w ∈ visited')))).reverse ++ rest)

/-- Number of neighbours recorded for `v` (zero when the lookup fails). -/
def nbrLen (nbr : Nat → Option (List Nat)) (v : Nat) : Nat :=
  ((nbr v).getD []).length

/-- Fuel sufficient for `dfsLoop` started on one vertex of `vs`. -/
def dfsFuel (nbr : Nat → Option (List Nat)) (vs : List Nat) : Nat :=
  1 + (vs.map (fun v => 1 + nbrLen nbr v)).sum

/-- The list `stack` accumulated by `descendants` (the visit list handed to
`complete_subgraph_on_vertices`). -/
def descendantsList (g : ObjectGraph) (start : Nat) : Option (List Nat) :=
  dfsLoop (children? g) (dfsFuel (children? g) g.vertices) [] [] [start]

/-- `IDirectedGraph.descendants`. -/
def descendants (g : ObjectGraph) (start : Nat) : Option ObjectGraph := do
  let st ← descendantsList g start
  complete_subgraph_on_vertices g st

/-- The visit list accumulated by `ancestors`. -/
def ancestorsList (g : ObjectGraph) (start : Nat) : Option (List Nat) :=
  dfsLoop (parents? g) (dfsFuel (parents? g) g.vertices) [] [] [start]

/-- `IDirectedGraph.ancestors`. -/
def ancestors (g : ObjectGraph) (start : Nat) : Option ObjectGraph := do
  let st ← ancestorsList g start
  complete_subgraph_on_vertices g st

/-! ### Basic lemmas on the container model -/

theorem alook_aset_self {α : Type} (m : List (Nat × α)) (k : Nat) (v : α) :
    alook (aset m k v) k = some v := by
  induction m with
  | nil => simp [aset, alook]
  | cons p ps ih =>
    by_cases h : p.1 = k
    · simp [aset, h, alook]
    · simp [aset, h, alook, ih]

theorem alook_aset_ne {α : Type} (m : List (Nat × α)) {k k' : Nat} (v : α)
    (h : k' ≠ k) : alook (aset m k v) k' = alook m k' := by
  induction m with
  | nil => simp [aset, alook, Ne.symm h]
  | cons p ps ih =>
    by_cases hp : p.1 = k
    · simp [aset, alook, hp, Ne.symm h]
    · by_cases hp' : p.1 = k'
      · rw [aset, if_neg hp]
        simp [alook, hp']
      · simp [aset, alook, hp, hp', ih]

theorem keys_aset {α : Type} (m : List (Nat × α)) (k : Nat) (v : α) :
    (aset m k v).map Prod.fst = addSet (m.map Prod.fst) k := by
  induction m with
  | nil => simp [aset, addSet]
  | cons p ps ih =>
    by_cases h : p.1 = k
    · simp [aset, h, addSet]
    · by_cases hk : k ∈ ps.map Prod.fst
      · rw [aset, if_neg h, List.map_cons, List.map_cons, ih, addSet, addSet,
          if_pos hk, if_pos (by simp [hk])]
      · rw [aset, if_neg h, List.map_cons, List.map_cons, ih, addSet, addSet,
          if_neg hk, if_neg (by simp [hk, Ne.symm h]), List.cons_append]

theorem keys_aupd {α : Type} (m : List (Nat × α)) (k : Nat) (f : α → α) :
    (aupd m k f).map Prod.fst = m.map Prod.fst := by
  induction m with
  | nil => simp [aupd]
  | cons p ps ih =>
    by_cases h : p.1 = k
    · simp [aupd, h]
    · simp [aupd, h, ih]

theorem alook_aupd_self {α : Type} (m : List (Nat × α)) (k : Nat) (f : α → α) :
    alook (aupd m k f) k = (alook m k).map f := by
  induction m with
  | nil => simp [aupd, alook]
  | cons p ps ih =>
    by_cases h : p.1 = k
    · simp [aupd, alook, h]
    · simp [aupd, alook, h, ih]

theorem alook_aupd_ne {α : Type} (m : List (Nat × α)) {k k' : Nat}
    (f : α → α) (h : k' ≠ k) : alook (aupd m k f) k' = alook m k' := by
  induction m with
  | nil => simp [aupd]
  | cons p ps ih =>
    by_cases hp : p.1 = k
    · simp [aupd, alook, hp, Ne.symm h]
    · simp [aupd, alook, hp, ih]

theorem alook_isSome_iff {α : Type} (m : List (Nat × α)) (k : Nat) :
    (alook m k).isSome = true ↔ k ∈ m.map Prod.fst := by
  induction m with
  | nil => simp [alook]
  | cons p ps ih =>
    by_cases h : p.1 = k
    · simp [alook, h]
    · simp [alook, h, ih, Ne.symm h]

theorem alook_eq_none_iff {α : Type} (m : List (Nat × α)) (k : Nat) :
    alook m k = none ↔ ¬ k ∈ m.map Prod.fst := by
  rw [← alook_isSome_iff]
  cases alook m k <;> simp

theorem alook_append_of_none {α : Type} {m : List (Nat × α)}
    (m' : List (Nat × α)) {k : Nat} (h : alook m k = none) :
    alook (m ++ m') k = alook m' k := by
  induction m with
  | nil => simp
  | cons p ps ih =>
    by_cases hp : p.1 = k
    · simp [alook, hp] at h
    · simp [alook, hp] at h ⊢
      exact ih h

theorem alook_append_of_some {α : Type} {m : List (Nat × α)}
    (m' : List (Nat × α)) {k : Nat} {v : α} (h : alook m k = some v) :
    alook (m ++ m') k = some v := by
  induction m with
  | nil => simp [alook] at h
  | cons p ps ih =>
    by_cases hp : p.1 = k
    · simp [alook, hp] at h ⊢
      exact h
    · simp [alook, hp] at h ⊢
      exact ih h

theorem aset_fresh {α : Type} (m : List (Nat × α)) {k : Nat} (v : α)
    (h : ¬ k ∈ m.map Prod.fst) : aset m k v = m ++ [(k, v)] := by
  induction m with
  | nil => simp [aset]
  | cons p ps ih =>
    simp only [List.map_cons, List.mem_cons] at h
    push_neg at h
    simp [aset, Ne.symm h.1, ih h.2]

theorem mem_addSet {s : List Nat} {v w : Nat} :
    w ∈ addSet s v ↔ w ∈ s ∨ w = v := by
  by_cases h : v ∈ s
  · constructor
    · intro hw
      simp [addSet, h] at hw
      exact Or.inl hw
    · intro hw
      rcases hw with hw | hw
      · simp [addSet, h, hw]
      · subst hw
        simp [addSet, h]
  · simp [addSet, h]

theorem nodup_addSet {s : List Nat} (v : Nat) (h : s.Nodup) :
    (addSet s v).Nodup := by
  by_cases hv : v ∈ s
  · simpa [addSet, hv] using h
  · rw [addSet, if_neg hv, List.nodup_append]
    refine ⟨h, List.nodup_singleton v, ?_⟩
    intro a ha hav
    rw [List.mem_singleton] at hav
    exact hv (hav ▸ ha)

theorem foldl_addSet_mem (l : List Nat) (acc : List Nat) (v : Nat) :
    v ∈ l.foldl addSet acc ↔ v ∈ acc ∨ v ∈ l := by
  induction l generalizing acc with
  | nil => simp
  | cons x t ih =>
    rw [List.foldl_cons, ih]
    rw [mem_addSet]
    constructor
    · rintro ((h | h) | h)
      · exact Or.inl h
      · exact Or.inr (by simp [h])
      · exact Or.inr (by simp [h])
    · rintro (h | h)
      · exact Or.inl (Or.inl h)
      · rcases List.mem_cons.mp h with h | h
        · exact Or.inl (Or.inr h)
        · exact Or.inr h

theorem foldl_addSet_nodup (l : List Nat) (acc : List Nat) (h : acc.Nodup) :
    (l.foldl addSet acc).Nodup := by
  induction l generalizing acc with
  | nil => simpa
  | cons x t ih => exact ih _ (nodup_addSet x h)

theorem initVerts_mem (l : List Nat) (v : Nat) :
    v ∈ initVerts l ↔ v ∈ l := by
  rw [initVerts, foldl_addSet_mem]
  simp

theorem initVerts_nodup (l : List Nat) : (initVerts l).Nodup :=
  foldl_addSet_nodup l [] List.nodup_nil

theorem foldl_addSet_of_nodup (l : List Nat) (acc : List Nat)
    (h : l.Nodup) (hd : ∀ x ∈ l, ¬ x ∈ acc) :
    l.foldl addSet acc = acc ++ l := by
  induction l generalizing acc with
  | nil => simp
  | cons x t ih =>
    rw [List.foldl_cons]
    have hx : ¬ x ∈ acc := hd x (by simp)
    rw [addSet, if_neg hx]
    rw [ih (acc ++ [x]) h.of_cons]
    · simp
    · intro y hy
      simp only [List.mem_append, List.mem_singleton]
      push_neg
      refine ⟨hd y (by simp [hy]), ?_⟩
      intro hxy
      subst hxy
      exact (List.nodup_cons.mp h).1 hy

theorem initVerts_of_nodup (l : List Nat) (h : l.Nodup) : initVerts l = l := by
  rw [initVerts, foldl_addSet_of_nodup l [] h (by simp)]
  simp

theorem keys_foldl_aset_nil (l : List Nat) (acc : List (Nat × List Nat)) :
    (l.foldl (fun m o => aset m o []) acc).map Prod.fst =
      l.foldl addSet (acc.map Prod.fst) := by
  induction l generalizing acc with
  | nil => simp
  | cons x t ih =>
    rw [List.foldl_cons, List.foldl_cons, ih, keys_aset]

theorem keys_initMap (l : List Nat) :
    (initMap l).map Prod.fst = initVerts l := by
  rw [initMap, initVerts, keys_foldl_aset_nil]
  rfl

theorem alook_foldl_aset_nil {l : List Nat} (acc : List (Nat × List Nat))
    (v : Nat) :
    alook (l.foldl (fun m o => aset m o []) acc) v =
      if v ∈ l then some [] else alook acc v := by
  induction l generalizing acc with
  | nil => simp
  | cons x t ih =>
    rw [List.foldl_cons, ih]
    by_cases hv : v ∈ t
    · simp [hv]
    · by_cases hx : v = x
      · subst hx
        simp [hv, alook_aset_self]
      · simp [hv, hx, alook_aset_ne _ _ hx]

theorem alook_initMap (l : List Nat) (v : Nat) :
    alook (initMap l) v = if v ∈ l then some [] else none := by
  rw [initMap, alook_foldl_aset_nil]
  simp [alook]

theorem alook_mem {α : Type} {m : List (Nat × α)} {k : Nat} {x : α}
    (h : alook m k = some x) : (k, x) ∈ m := by
  induction m with
  | nil => simp [alook] at h
  | cons p ps ih =>
    by_cases hp : p.1 = k
    · simp [alook, hp] at h
      have hpx : p = (k, x) := by
        cases p
        simp_all
      rw [hpx]
      exact List.mem_cons_self _ _
    · simp [alook, hp] at h
      exact List.mem_cons_of_mem _ (ih h)

/-! ### Consequences of well-formedness -/

theorem wf_out_some {g : ObjectGraph} (h : WF g) {v : Nat}
    (hv : v ∈ g.vertices) : alook g.out_edges v = some (outListD g v) := by
  have hk : v ∈ g.out_edges.map Prod.fst := by rw [h.2.1]; exact hv
  have := (alook_isSome_iff g.out_edges v).mpr hk
  rcases Option.isSome_iff_exists.mp this with ⟨es, hes⟩
  rw [outListD, hes]
  rfl

theorem wf_in_some {g : ObjectGraph} (h : WF g) {v : Nat}
    (hv : v ∈ g.vertices) : alook g.in_edges v = some (inListD g v) := by
  have hk : v ∈ g.in_edges.map Prod.fst := by rw [h.2.2.1]; exact hv
  have := (alook_isSome_iff g.in_edges v).mpr hk
  rcases Option.isSome_iff_exists.mp this with ⟨es, hes⟩
  rw [inListD, hes]
  rfl

theorem wf_head_of_out {g : ObjectGraph} (h : WF g) {v e : Nat}
    (hv : v ∈ g.vertices) (he : e ∈ outListD g v) :
    (alook g.head e).isSome = true ∧ headD g e ∈ g.vertices := by
  have hmem : (v, outListD g v) ∈ g.out_edges := alook_mem (wf_out_some h hv)
  exact ⟨(h.2.2.2.2.1 _ hmem e he).1, (h.2.2.2.2.1 _ hmem e he).2⟩

theorem wf_tail_of_out {g : ObjectGraph} (h : WF g) {v e : Nat}
    (hv : v ∈ g.vertices) (he : e ∈ outListD g v) :
    alook g.tail e = some v := by
  have hmem : (v, outListD g v) ∈ g.out_edges := alook_mem (wf_out_some h hv)
  exact h.2.2.2.1 _ hmem e he

theorem wf_tail_of_in {g : ObjectGraph} (h : WF g) {v e : Nat}
    (hv : v ∈ g.vertices) (he : e ∈ inListD g v) :
    (alook g.tail e).isSome = true ∧ tailD g e ∈ g.vertices := by
  have hmem : (v, inListD g v) ∈ g.in_edges := alook_mem (wf_in_some h hv)
  exact ⟨(h.2.2.2.2.2.1 _ hmem e he).1, (h.2.2.2.2.2.1 _ hmem e he).2⟩

theorem wf_outList_nodup {g : ObjectGraph} (h : WF g) {v : Nat}
    (hv : v ∈ g.vertices) : (outListD g v).Nodup := by
  have := (List.nodup_flatten.mp h.2.2.2.2.2.2).1
  exact this _ (List.mem_map_of_mem (outListD g) hv)

theorem wf_out_disjoint {g : ObjectGraph} (h : WF g) {v w : Nat}
    (hv : v ∈ g.vertices) (hw : w ∈ g.vertices) (hne : v ≠ w) {e : Nat}
    (hev : e ∈ outListD g v) (hew : e ∈ outListD g w) : False := by
  have hpw := (List.nodup_flatten.mp h.2.2.2.2.2.2).2
  rw [List.pairwise_map] at hpw
  have hsym : Symmetric (fun a b : Nat =>
      (outListD g a).Disjoint (outListD g b)) := by
    intro a b hab
    exact List.Disjoint.symm hab
  exact (hpw.forall hsym hv hw hne) hev hew

/-! ### The pure edge scan and its characterisation -/

/-- Decision `referent in vertices` for an edge of the parent graph:
whether the edge's head exists and lies in `vs`. -/
def keepB (g : ObjectGraph) (vs : List Nat) (e : Nat) : Bool :=
  match alook g.head e with
  | some r => decide (r ∈ vs)
  | none => false

/-- The out-edges of `v` kept by `complete_subgraph_on_vertices` for the
vertex set `vs`: the original list, filtered, in the original order. -/
def keepList (g : ObjectGraph) (vs : List Nat) (v : Nat) : List Nat :=
  (outListD g v).filter (keepB g vs)

/-- All kept edges in scan order, for the processed referrers `P`. -/
def keptP (g : ObjectGraph) (vs P : List Nat) : List Nat :=
  (P.map (keepList g vs)).flatten

/-- `scanEdge` without the failure case (equal to it whenever the head
lookup succeeds). -/
def scanEdgeP (g : ObjectGraph) (vs : List Nat) (referrer : Nat)
    (acc : SubAcc) (edge : Nat) : SubAcc :=
  if keepB g vs edge then
    { out_edges := aupd acc.out_edges referrer (fun l => l ++ [edge]),
      in_edges := aupd acc.in_edges (headD g edge) (fun l => l ++ [edge]),
      head := aset acc.head edge (headD g edge),
      tail := aset acc.tail edge referrer }
  else acc

/-- `scanVertex` without the failure cases. -/
def scanVertexP (g : ObjectGraph) (vs : List Nat) (acc : SubAcc)
    (referrer : Nat) : SubAcc :=
  (outListD g referrer).foldl (scanEdgeP g vs referrer) acc

theorem scanEdge_eq_pure {g : ObjectGraph} {vs : List Nat} {referrer : Nat}
    {e : Nat} (hs : (alook g.head e).isSome = true) (acc : SubAcc) :
    scanEdge g vs referrer acc e = some (scanEdgeP g vs referrer acc e) := by
  rcases Option.isSome_iff_exists.mp hs with ⟨r, hr⟩
  by_cases hmem : r ∈ vs
  · simp [scanEdge, scanEdgeP, keepB, headD, hr, hmem]
  · simp [scanEdge, scanEdgeP, keepB, headD, hr, hmem]

theorem foldlM_eq_foldl {α β : Type} (fM : α → β → Option α) (f : α → β → α)
    (l : List β) (H : ∀ a, ∀ x ∈ l, fM a x = some (f a x)) :
    ∀ a, l.foldlM fM a = some (l.foldl f a) := by
  induction l with
  | nil => intro a; rfl
  | cons x t ih =>
    intro a
    rw [List.foldlM_cons, H a x (by simp), List.foldl_cons]
    exact ih (fun a y hy => H a y (List.mem_cons_of_mem _ hy)) (f a x)

theorem foldlM_none {α β : Type} (fM : α → β → Option α) {l : List β}
    {x : β} (hx : x ∈ l) (hfail : ∀ a, fM a x = none) :
    ∀ a, l.foldlM fM a = none := by
  induction l with
  | nil => simp at hx
  | cons y t ih =>
    intro a
    rcases List.mem_cons.mp hx with hxy | hxt
    · subst hxy
      rw [List.foldlM_cons, hfail a]
      rfl
    · rw [List.foldlM_cons]
      cases hfy : fM a y with
      | none => rfl
      | some a' => exact ih hxt a'

theorem scanVertex_eq_pure {g : ObjectGraph} {vs : List Nat} {v : Nat}
    (h : WF g) (hv : v ∈ g.vertices) (acc : SubAcc) :
    scanVertex g vs acc v = some (scanVertexP g vs acc v) := by
  rw [scanVertex, wf_out_some h hv]
  exact foldlM_eq_foldl _ _ _
    (fun a e he => scanEdge_eq_pure (wf_head_of_out h hv he).1 a) acc

theorem scanVertex_fails {g : ObjectGraph} {vs : List Nat} {v : Nat}
    (h : WF g) (hv : ¬ v ∈ g.vertices) (acc : SubAcc) :
    scanVertex g vs acc v = none := by
  have : alook g.out_edges v = none := by
    rw [alook_eq_none_iff, h.2.1]
    exact hv
  rw [scanVertex, this]
  rfl

theorem keepB_head_mem {g : ObjectGraph} {vs : List Nat} {e : Nat}
    (h : keepB g vs e = true) : headD g e ∈ vs := by
  unfold keepB at h
  cases hl : alook g.head e with
  | none => rw [hl] at h; simp at h
  | some r =>
    rw [hl] at h
    simp at h
    rw [headD, hl]
    exact h

/-- Processing an edge list `es` of the referrer `r` through the kept-edge
scan: out-list of `r` extended by the kept edges in order, in-lists extended
by the kept edges grouped by head, head/tail maps extended by fresh
bindings in scan order. -/
theorem foldl_scanEdgeP_char (g : ObjectGraph) (vs : List Nat) (r : Nat)
    (es : List Nat) :
    ∀ acc : SubAcc,
    es.Nodup →
    (∀ e ∈ es, keepB g vs e = true → ¬ e ∈ acc.head.map Prod.fst) →
    (∀ e ∈ es, keepB g vs e = true → ¬ e ∈ acc.tail.map Prod.fst) →
    ((es.foldl (scanEdgeP g vs r) acc).out_edges.map Prod.fst =
        acc.out_edges.map Prod.fst ∧
     (es.foldl (scanEdgeP g vs r) acc).in_edges.map Prod.fst =
        acc.in_edges.map Prod.fst ∧
     (∀ v, alook (es.foldl (scanEdgeP g vs r) acc).out_edges v =
        if v = r then
          (alook acc.out_edges v).map (fun l => l ++ es.filter (keepB g vs))
        else alook acc.out_edges v) ∧
     (∀ w, alook (es.foldl (scanEdgeP g vs r) acc).in_edges w =
        if w ∈ vs then
          (alook acc.in_edges w).map (fun l =>
            l ++ es.filter (fun e => keepB g vs e && (headD g e == w)))
        else alook acc.in_edges w) ∧
     (es.foldl (scanEdgeP g vs r) acc).head =
        acc.head ++ (es.filter (keepB g vs)).map (fun e => (e, headD g e)) ∧
     (es.foldl (scanEdgeP g vs r) acc).tail =
        acc.tail ++ (es.filter (keepB g vs)).map (fun e => (e, r))) := by
  induction es with
  | nil =>
    intro acc _ _ _
    refine ⟨rfl, rfl, ?_, ?_, by simp, by simp⟩
    · intro v
      by_cases hv : v = r <;> simp [hv]
    · intro w
      by_cases hw : w ∈ vs <;> simp [hw]
  | cons e t ih =>
    intro acc hnd hfh hft
    by_cases hk : keepB g vs e = true
    · set acc1 : SubAcc :=
        { out_edges := aupd acc.out_edges r (fun l => l ++ [e]),
          in_edges := aupd acc.in_edges (headD g e) (fun l => l ++ [e]),
          head := aset acc.head e (headD g e),
          tail := aset acc.tail e r } with hacc1
      have hstep : scanEdgeP g vs r acc e = acc1 := by
        rw [scanEdgeP, if_pos hk]
      have hfrh : ¬ e ∈ acc.head.map Prod.fst := hfh e (by simp) hk
      have hfrt : ¬ e ∈ acc.tail.map Prod.fst := hft e (by simp) hk
      have h1head : acc1.head = acc.head ++ [(e, headD g e)] :=
        aset_fresh acc.head _ hfrh
      have h1tail : acc1.tail = acc.tail ++ [(e, r)] :=
        aset_fresh acc.tail _ hfrt
      have hne : ¬ e ∈ t := (List.nodup_cons.mp hnd).1
      have ihh := ih acc1 (List.nodup_cons.mp hnd).2
        (by
          intro e' he' hk'
          rw [h1head, List.map_append]
          simp only [List.mem_append, List.map_cons, List.map_nil,
            List.mem_singleton]
          push_neg
          refine ⟨hfh e' (by simp [he']) hk', ?_⟩
          intro hee
          exact hne (hee ▸ he'))
        (by
          intro e' he' hk'
          rw [h1tail, List.map_append]
          simp only [List.mem_append, List.map_cons, List.map_nil,
            List.mem_singleton]
          push_neg
          refine ⟨hft e' (by simp [he']) hk', ?_⟩
          intro hee
          exact hne (hee ▸ he'))
      rw [List.foldl_cons, hstep]
      obtain ⟨ik1, ik2, iout, iin, ihd, itl⟩ := ihh
      have hkeys1 : acc1.out_edges.map Prod.fst = acc.out_edges.map Prod.fst := by
        rw [hacc1]
        exact keys_aupd _ _ _
      have hkeys2 : acc1.in_edges.map Prod.fst = acc.in_edges.map Prod.fst := by
        rw [hacc1]
        exact keys_aupd _ _ _
      have hfiltc : (e :: t).filter (keepB g vs) = e :: t.filter (keepB g vs) := by
        simp [List.filter_cons, hk]
      refine ⟨by rw [ik1, hkeys1], by rw [ik2, hkeys2], ?_, ?_, ?_, ?_⟩
      · intro v
        rw [iout v]
        by_cases hv : v = r
        · subst hv
          rw [if_pos rfl, if_pos rfl, hfiltc]
          have : alook acc1.out_edges v = (alook acc.out_edges v).map
              (fun l => l ++ [e]) := by
            rw [hacc1]
            exact alook_aupd_self _ _ _
          rw [this, Option.map_map]
          cases alook acc.out_edges v <;> simp
        · rw [if_neg hv, if_neg hv, hacc1]
          exact alook_aupd_ne _ _ hv
      · intro w
        rw [iin w]
        by_cases hw : w ∈ vs
        · rw [if_pos hw, if_pos hw]
          by_cases hwh : w = headD g e
          · have : alook acc1.in_edges w = (alook acc.in_edges w).map
                (fun l => l ++ [e]) := by
              rw [hacc1, hwh]
              exact alook_aupd_self _ _ _
            rw [this, Option.map_map]
            have hfc : (e :: t).filter
                (fun e' => keepB g vs e' && (headD g e' == w)) =
                e :: t.filter (fun e' => keepB g vs e' && (headD g e' == w)) := by
              simp [List.filter_cons, hk, hwh]
            rw [hfc]
            cases alook acc.in_edges w <;> simp
          · have : alook acc1.in_edges w = alook acc.in_edges w := by
              rw [hacc1]
              exact alook_aupd_ne _ _ hwh
            rw [this]
            have hfc : (e :: t).filter
                (fun e' => keepB g vs e' && (headD g e' == w)) =
                t.filter (fun e' => keepB g vs e' && (headD g e' == w)) := by
              have : (headD g e == w) = false := by
                simp
                intro hh
                exact hwh hh.symm
              simp [List.filter_cons, hk, this]
            rw [hfc]
        · rw [if_neg hw, if_neg hw]
          have hwh : w ≠ headD g e := by
            intro hww
            exact hw (hww ▸ keepB_head_mem hk)
          rw [hacc1]
          exact alook_aupd_ne _ _ hwh
      · rw [ihd, h1head, hfiltc]
        simp
      · rw [itl, h1tail, hfiltc]
        simp
    · have hstep : scanEdgeP g vs r acc e = acc := by
        rw [scanEdgeP, if_neg hk]
      have hkB : keepB g vs e = false := by
        simpa using hk
      have hfiltc : (e :: t).filter (keepB g vs) = t.filter (keepB g vs) := by
        simp [List.filter_cons, hkB]
      have hfiltw : ∀ w, (e :: t).filter
          (fun e' => keepB g vs e' && (headD g e' == w)) =
          t.filter (fun e' => keepB g vs e' && (headD g e' == w)) := by
        intro w
        simp [List.filter_cons, hkB]
      rw [List.foldl_cons, hstep]
      obtain ⟨ik1, ik2, iout, iin, ihd, itl⟩ := ih acc (List.nodup_cons.mp hnd).2
        (fun e' he' hk' => hfh e' (by simp [he']) hk')
        (fun e' he' hk' => hft e' (by simp [he']) hk')
      refine ⟨ik1, ik2, ?_, ?_, by rw [ihd, hfiltc], by rw [itl, hfiltc]⟩
      · intro v
        rw [iout v, hfiltc]
      · intro w
        rw [iin w, hfiltw w]

theorem filter_filter_and (p q : Nat → Bool) (l : List Nat) :
    (l.filter p).filter q = l.filter (fun x => p x && q x) := by
  induction l with
  | nil => rfl
  | cons x t ih =>
    by_cases hp : p x = true
    · by_cases hq : q x = true
      · simp [List.filter_cons, hp, hq, ih]
      · have hq' : q x = false := by simpa using hq
        simp [List.filter_cons, hp, hq', ih]
    · have hp' : p x = false := by simpa using hp
      simp [List.filter_cons, hp', ih]

theorem keys_map_pair {β : Type} (l : List Nat) (f : Nat → β) :
    (l.map (fun e => (e, f e))).map Prod.fst = l := by
  induction l with
  | nil => rfl
  | cons x t ih => simp [ih]

theorem alook_map_pair {β : Type} (l : List Nat) (f : Nat → β) (k : Nat) :
    alook (l.map (fun e => (e, f e))) k =
      if k ∈ l then some (f k) else none := by
  induction l with
  | nil => simp [alook]
  | cons x t ih =>
    by_cases hx : x = k
    · simp [alook, hx]
    · simp [alook, hx, ih, Ne.symm hx]

theorem mem_keptP {g : ObjectGraph} {vs P : List Nat} {e : Nat} :
    e ∈ keptP g vs P ↔ ∃ v ∈ P, e ∈ keepList g vs v := by
  rw [keptP]
  simp [List.mem_flatten]

theorem keptP_append (g : ObjectGraph) (vs P Q : List Nat) :
    keptP g vs (P ++ Q) = keptP g vs P ++ keptP g vs Q := by
  simp [keptP]

theorem keptP_singleton (g : ObjectGraph) (vs : List Nat) (u : Nat) :
    keptP g vs [u] = keepList g vs u := by
  simp [keptP]

theorem keys_tailPairs (g : ObjectGraph) (vs P : List Nat) :
    ((P.map (fun v => (keepList g vs v).map (fun e => (e, v)))).flatten).map
      Prod.fst = keptP g vs P := by
  rw [List.map_flatten, List.map_map, keptP]
  congr 1
  apply List.map_congr_left
  intro v _
  simp only [Function.comp_apply]
  exact keys_map_pair _ (fun _ => v)

/-- A member of the kept edges of processed referrers `P` cannot be an
out-edge of a fresh referrer `u` (pairwise disjointness of out-edge lists
of a well-formed graph). -/
theorem kept_fresh {g : ObjectGraph} {vs P : List Nat} {u e : Nat}
    (hWF : WF g) (hvs : ∀ v ∈ vs, v ∈ g.vertices)
    (hPsub : ∀ v ∈ P, v ∈ vs) (hu : u ∈ vs) (huP : ¬ u ∈ P)
    (he : e ∈ outListD g u) (hk : e ∈ keptP g vs P) : False := by
  rcases mem_keptP.mp hk with ⟨v, hvP, hev⟩
  have hev' : e ∈ outListD g v := List.mem_of_mem_filter hev
  have hne : u ≠ v := fun hue => huP (hue ▸ hvP)
  exact wf_out_disjoint hWF (hvs u hu) (hvs v (hPsub v hvP)) hne he hev'

/-- State of the scan accumulator after processing the pairwise-distinct
referrers `P ⊆ vs`, all vertices of the parent graph, starting from the
initialised containers. -/
theorem foldl_scanVertexP_char (g : ObjectGraph) (vs : List Nat)
    (hWF : WF g) (hvs : ∀ v ∈ vs, v ∈ g.vertices) (acc0 : SubAcc)
    (h0out : ∀ v, alook acc0.out_edges v =
      if v ∈ vs then some [] else none)
    (h0in : ∀ v, alook acc0.in_edges v =
      if v ∈ vs then some [] else none)
    (h0outk : acc0.out_edges.map Prod.fst = vs)
    (h0ink : acc0.in_edges.map Prod.fst = vs)
    (h0head : acc0.head = [])
    (h0tail : acc0.tail = []) :
    ∀ P : List Nat, P.Nodup → (∀ v ∈ P, v ∈ vs) →
    ((P.foldl (scanVertexP g vs) acc0).out_edges.map Prod.fst = vs ∧
     (P.foldl (scanVertexP g vs) acc0).in_edges.map Prod.fst = vs ∧
     (∀ v, alook (P.foldl (scanVertexP g vs) acc0).out_edges v =
        if v ∈ P then some (keepList g vs v)
        else if v ∈ vs then some [] else none) ∧
     (∀ w, alook (P.foldl (scanVertexP g vs) acc0).in_edges w =
        if w ∈ vs then
          some ((keptP g vs P).filter (fun e => headD g e == w))
        else none) ∧
     (P.foldl (scanVertexP g vs) acc0).head =
        (keptP g vs P).map (fun e => (e, headD g e)) ∧
     (P.foldl (scanVertexP g vs) acc0).tail =
        (P.map (fun v => (keepList g vs v).map (fun e => (e, v)))).flatten) := by
  intro P
  induction P using List.reverseRecOn with
  | nil =>
    intro _ _
    refine ⟨h0outk, h0ink, ?_, ?_, by simp [keptP, h0head], by simp [h0tail]⟩
    · intro v
      rw [List.foldl_nil, h0out v]
      simp
    · intro w
      rw [List.foldl_nil, h0in w]
      by_cases hw : w ∈ vs <;> simp [hw, keptP]
  | append_singleton P u ih =>
    intro hnd hPsub
    obtain ⟨hndP, _, hdisj⟩ := List.nodup_append.mp hnd
    have huP : ¬ u ∈ P := fun hu => hdisj hu (by simp)
    have hPsubP : ∀ v ∈ P, v ∈ vs :=
      fun v hv => hPsub v (List.mem_append_left _ hv)
    have hu_vs : u ∈ vs := hPsub u (by simp)
    have hu_gv : u ∈ g.vertices := hvs u hu_vs
    obtain ⟨k1, k2, iout, iin, ihd, itl⟩ := ih hndP hPsubP
    rw [List.foldl_append, List.foldl_cons, List.foldl_nil]
    have hkeysh : (P.foldl (scanVertexP g vs) acc0).head.map Prod.fst =
        keptP g vs P := by
      rw [ihd, keys_map_pair]
    have hkeyst : (P.foldl (scanVertexP g vs) acc0).tail.map Prod.fst =
        keptP g vs P := by
      rw [itl, keys_tailPairs]
    obtain ⟨j1, j2, jout, jin, jhd, jtl⟩ :=
      foldl_scanEdgeP_char g vs u (outListD g u)
        (P.foldl (scanVertexP g vs) acc0)
        (wf_outList_nodup hWF hu_gv)
        (by
          intro e he _ hek
          rw [hkeysh] at hek
          exact kept_fresh hWF hvs hPsubP hu_vs huP he hek)
        (by
          intro e he _ hek
          rw [hkeyst] at hek
          exact kept_fresh hWF hvs hPsubP hu_vs huP he hek)
    have hkeep : (outListD g u).filter (keepB g vs) = keepList g vs u := rfl
    refine ⟨by rw [scanVertexP, j1, k1], by rw [scanVertexP, j2, k2],
      ?_, ?_, ?_, ?_⟩
    · intro v
      rw [scanVertexP]
      rw [jout v]
      by_cases hv : v = u
      · subst hv
        rw [if_pos rfl, iout v, if_neg huP, if_pos hu_vs]
        simp [hkeep]
      · rw [if_neg hv, iout v]
        by_cases hvP : v ∈ P
        · rw [if_pos hvP, if_pos (List.mem_append_left _ hvP)]
        · have hnv : ¬ v ∈ P ++ [u] := by
            simp [hvP, hv]
          rw [if_neg hvP, if_neg hnv]
    · intro w
      rw [scanVertexP, jin w]
      by_cases hw : w ∈ vs
      · rw [if_pos hw, iin w, if_pos hw, if_pos hw]
        rw [keptP_append, keptP_singleton, List.filter_append]
        rw [Option.map_some']
        congr 1
        rw [keepList, filter_filter_and]

      · rw [if_neg hw, iin w, if_neg hw, if_neg hw]
    · rw [scanVertexP, jhd, ihd, hkeep, keptP_append, keptP_singleton,
        List.map_append]
    · rw [scanVertexP, jtl, itl, hkeep]
      simp

/-- Full characterisation of `complete_subgraph_on_vertices` on a
collection of vertices of a well-formed parent graph. -/
theorem csov_char (g : ObjectGraph) (objects : List Nat) (hWF : WF g)
    (hsub : ∀ x ∈ objects, x ∈ g.vertices) :
    ∃ h, complete_subgraph_on_vertices g objects = some h ∧
      h.vertices = initVerts objects ∧
      h.out_edges.map Prod.fst = initVerts objects ∧
      h.in_edges.map Prod.fst = initVerts objects ∧
      (∀ v, alook h.out_edges v =
        if v ∈ initVerts objects then
          some (keepList g (initVerts objects) v)
        else none) ∧
      (∀ w, alook h.in_edges w =
        if w ∈ initVerts objects then
          some ((keptP g (initVerts objects) (initVerts objects)).filter
            (fun e => headD g e == w))
        else none) ∧
      h.head = (keptP g (initVerts objects) (initVerts objects)).map
        (fun e => (e, headD g e)) ∧
      h.tail = ((initVerts objects).map (fun v =>
        (keepList g (initVerts objects) v).map (fun e => (e, v)))).flatten := by
  have hsub' : ∀ v ∈ initVerts objects, v ∈ g.vertices := by
    intro v hv
    exact hsub v ((initVerts_mem objects v).mp hv)
  have hfold : (initVerts objects).foldlM
      (scanVertex g (initVerts objects))
      ⟨initMap objects, initMap objects, [], []⟩ =
      some ((initVerts objects).foldl
        (scanVertexP g (initVerts objects))
        ⟨initMap objects, initMap objects, [], []⟩) :=
    foldlM_eq_foldl _ _ _
      (fun a v hv => scanVertex_eq_pure hWF (hsub' v hv) a) _
  have hmaps : ∀ v, alook (initMap objects) v =
      if v ∈ initVerts objects then some [] else none := by
    intro v
    rw [alook_initMap]
    by_cases hv : v ∈ objects
    · rw [if_pos hv, if_pos ((initVerts_mem objects v).mpr hv)]
    · rw [if_neg hv, if_neg (fun hh => hv ((initVerts_mem objects v).mp hh))]
  obtain ⟨K1, K2, OUT, INN, HD, TL⟩ :=
    foldl_scanVertexP_char g (initVerts objects) hWF hsub'
      ⟨initMap objects, initMap objects, [], []⟩
      hmaps hmaps (keys_initMap objects) (keys_initMap objects) rfl rfl
      (initVerts objects) (initVerts_nodup objects) (fun v hv => hv)
  refine ⟨{ vertices := initVerts objects,
            out_edges := ((initVerts objects).foldl
              (scanVertexP g (initVerts objects))
              ⟨initMap objects, initMap objects, [], []⟩).out_edges,
            in_edges := ((initVerts objects).foldl
              (scanVertexP g (initVerts objects))
              ⟨initMap objects, initMap objects, [], []⟩).in_edges,
            head := ((initVerts objects).foldl
              (scanVertexP g (initVerts objects))
              ⟨initMap objects, initMap objects, [], []⟩).head,
            tail := ((initVerts objects).foldl
              (scanVertexP g (initVerts objects))
              ⟨initMap objects, initMap objects, [], []⟩).tail },
    ?_, rfl, K1, K2, ?_, INN, HD, TL⟩
  · rw [complete_subgraph_on_vertices, hfold]
    rfl
  · intro v
    rw [OUT v]
    by_cases hv : v ∈ initVerts objects
    · rw [if_pos hv, if_pos hv]
    · rw [if_neg hv, if_neg hv, if_neg hv]

/-- With a vertex outside the parent graph among the requested ones, the
scan of `complete_subgraph_on_vertices` fails at that vertex's out-edge
lookup in the parent. -/
theorem csov_fails (g : ObjectGraph) (objects : List Nat) (hWF : WF g)
    {x : Nat} (hx : x ∈ objects) (hxg : ¬ x ∈ g.vertices) :
    complete_subgraph_on_vertices g objects = none := by
  have hxv : x ∈ initVerts objects := (initVerts_mem objects x).mpr hx
  have hfold := foldlM_none (scanVertex g (initVerts objects)) hxv
    (fun a => scanVertex_fails hWF hxg a)
    ⟨initMap objects, initMap objects, [], []⟩
  rw [complete_subgraph_on_vertices, hfold]
  rfl

theorem csov_allOut {g h : ObjectGraph} {vs : List Nat}
    (hv : h.vertices = vs)
    (hout : ∀ v, alook h.out_edges v =
      if v ∈ vs then some (keepList g vs v) else none) :
    allOut h = keptP g vs vs := by
  rw [allOut, hv, keptP]
  congr 1
  apply List.map_congr_left
  intro v hvv
  rw [outListD, hout v, if_pos hvv]
  rfl

theorem keepB_eq_decide {g : ObjectGraph} {vs : List Nat} {e : Nat}
    (hs : (alook g.head e).isSome = true) :
    keepB g vs e = decide (headD g e ∈ vs) := by
  rcases Option.isSome_iff_exists.mp hs with ⟨r, hr⟩
  rw [keepB, headD, hr]
  simp

theorem keepList_nodup {g : ObjectGraph} {vs : List Nat} {v : Nat}
    (hWF : WF g) (hv : v ∈ g.vertices) : (keepList g vs v).Nodup :=
  (wf_outList_nodup hWF hv).filter _

theorem keptP_nodup {g : ObjectGraph} {vs : List Nat} (hWF : WF g)
    (hvs : ∀ v ∈ vs, v ∈ g.vertices) (hnd : vs.Nodup) :
    (keptP g vs vs).Nodup := by
  rw [keptP, List.nodup_flatten]
  constructor
  · intro l hl
    rcases List.mem_map.mp hl with ⟨v, hv, rfl⟩
    exact keepList_nodup hWF (hvs v hv)
  · rw [List.pairwise_map]
    refine (List.Pairwise.imp_of_mem ?_ hnd)
    intro a b ha hb hne
    intro e hea heb
    exact wf_out_disjoint hWF (hvs a ha) (hvs b hb) hne
      (List.mem_of_mem_filter hea) (List.mem_of_mem_filter heb)

theorem mem_keptP_out {g : ObjectGraph} {vs : List Nat} {e : Nat} :
    e ∈ keptP g vs vs →
    ∃ v ∈ vs, e ∈ outListD g v ∧ keepB g vs e = true := by
  intro h
  rcases mem_keptP.mp h with ⟨v, hv, he⟩
  rcases List.mem_filter.mp he with ⟨he1, he2⟩
  exact ⟨v, hv, he1, he2⟩

theorem mem_allOut {g : ObjectGraph} {e : Nat} :
    e ∈ allOut g ↔ ∃ v ∈ g.vertices, e ∈ outListD g v := by
  rw [allOut]
  simp [List.mem_flatten]

theorem alook_tailPairs {g : ObjectGraph} (vs : List Nat) {P : List Nat}
    (hWF : WF g) (hP : ∀ u ∈ P, u ∈ g.vertices) {e v : Nat}
    (hv : v ∈ P) (he : e ∈ keepList g vs v) :
    alook ((P.map (fun u => (keepList g vs u).map (fun e' => (e', u)))).flatten)
      e = some v := by
  induction P with
  | nil => simp at hv
  | cons u t ih =>
    rw [List.map_cons, List.flatten_cons]
    by_cases huv : u = v
    · subst huv
      have hch : alook ((keepList g vs u).map (fun e' => (e', u))) e =
          some u := by
        rw [alook_map_pair, if_pos he]
      exact alook_append_of_some _ hch
    · have hnot : ¬ e ∈ keepList g vs u := by
        intro heu
        exact wf_out_disjoint hWF (hP u (by simp)) (hP v hv) huv
          (List.mem_of_mem_filter heu) (List.mem_of_mem_filter he)
      have hch : alook ((keepList g vs u).map (fun e' => (e', u))) e =
          none := by
        rw [alook_map_pair, if_neg hnot]
      rw [alook_append_of_none _ hch]
      have hvt : v ∈ t := by
        rcases List.mem_cons.mp hv with h | h
        · exact absurd h.symm huv
        · exact h
      exact ih (fun w hw => hP w (List.mem_cons_of_mem _ hw)) hvt

theorem kept_head_eq {g : ObjectGraph} {vs : List Nat}
    (hWF : WF g) (hsub : ∀ v ∈ vs, v ∈ g.vertices) {e v : Nat}
    (hv : v ∈ vs) (he : e ∈ outListD g v) :
    alook g.head e = some (headD g e) := by
  rcases Option.isSome_iff_exists.mp (wf_head_of_out hWF (hsub v hv) he).1
    with ⟨r, hr⟩
  rw [hr, headD, hr]
  rfl

/-! ### Claim-level facts about `complete_subgraph_on_vertices` -/

/-- C3: for every well-formed graph and every vertex collection `S` drawn
from its vertices, `complete_subgraph_on_vertices S` succeeds and returns a
graph whose vertices are exactly those of `S`; each vertex's out-edge list
is the parent's list filtered to edges whose head lies in `S` (same ids,
parent's order); every result edge keeps its original head and tail and has
both endpoints in `S`; and every parent edge with both endpoints in `S` is
present. -/
theorem subgraph_edge_fidelity (g : ObjectGraph) (S : List Nat)
    (hWF : WF g) (hsub : ∀ x ∈ S, x ∈ g.vertices) :
    ∃ h, complete_subgraph_on_vertices g S = some h ∧
      (∀ v, v ∈ h.vertices ↔ v ∈ S) ∧
      (∀ v ∈ h.vertices, outListD h v =
        (outListD g v).filter (fun e => decide (headD g e ∈ S))) ∧
      (∀ e, e ∈ allOut h →
        alook h.head e = alook g.head e ∧
        alook h.tail e = alook g.tail e ∧
        e ∈ allOut g ∧ tailD g e ∈ S ∧ headD g e ∈ S) ∧
      (∀ e, e ∈ allOut g → tailD g e ∈ S → headD g e ∈ S →
        e ∈ allOut h) := by
  obtain ⟨h, heq, hver, hko, hki, hout, hin, hhd, htl⟩ :=
    csov_char g S hWF hsub
  have hsub' : ∀ v ∈ initVerts S, v ∈ g.vertices :=
    fun v hv' => hsub v ((initVerts_mem S v).mp hv')
  have hAO : allOut h = keptP g (initVerts S) (initVerts S) :=
    csov_allOut hver hout
  refine ⟨h, heq, ?_, ?_, ?_, ?_⟩
  · intro v
    rw [hver]
    exact initVerts_mem S v
  · intro v hvh
    rw [hver] at hvh
    rw [outListD, hout v, if_pos hvh]
    show keepList g (initVerts S) v = _
    rw [keepList]
    apply List.filter_congr
    intro e he
    rw [keepB_eq_decide (wf_head_of_out hWF (hsub' v hvh) he).1]
    exact decide_eq_decide.mpr (initVerts_mem S _)
  · intro e he
    rw [hAO] at he
    obtain ⟨v, hvv, heo, hkB⟩ := mem_keptP_out he
    have hghead : alook g.head e = some (headD g e) :=
      kept_head_eq hWF hsub' hvv heo
    have hgtail : alook g.tail e = some v :=
      wf_tail_of_out hWF (hsub' v hvv) heo
    refine ⟨?_, ?_, ?_, ?_, ?_⟩
    · rw [hhd, alook_map_pair, if_pos he, hghead]
    · rw [htl, alook_tailPairs (initVerts S) hWF hsub' hvv
        (List.mem_filter.mpr ⟨heo, hkB⟩), hgtail]
    · exact mem_allOut.mpr ⟨v, hsub' v hvv, heo⟩
    · rw [tailD, hgtail]
      exact (initVerts_mem S v).mp hvv
    · exact (initVerts_mem S _).mp (keepB_head_mem hkB)
  · intro e heg htS hhS
    obtain ⟨v, hvg, hev⟩ := mem_allOut.mp heg
    have hgtail : alook g.tail e = some v := wf_tail_of_out hWF hvg hev
    have htv : tailD g e = v := by rw [tailD, hgtail]; rfl
    have hvS : v ∈ initVerts S := (initVerts_mem S v).mpr (htv ▸ htS)
    have hkB : keepB g (initVerts S) e = true := by
      rw [keepB_eq_decide (wf_head_of_out hWF hvg hev).1]
      exact decide_eq_true ((initVerts_mem S _).mpr hhS)
    rw [hAO]
    exact mem_keptP.mpr ⟨v, hvS, List.mem_filter.mpr ⟨hev, hkB⟩⟩

/-- C8: restricting a well-formed graph to its own full vertex list
reproduces the graph: same vertex list, identical out-edge lists, the same
edge ids, and identical head/tail assignment on every edge. -/
theorem subgraph_identity (g : ObjectGraph) (hWF : WF g) :
    ∃ h, complete_subgraph_on_vertices g g.vertices = some h ∧
      h.vertices = g.vertices ∧
      (∀ v ∈ g.vertices, outListD h v = outListD g v) ∧
      allOut h = allOut g ∧
      (∀ e, e ∈ allOut g →
        alook h.head e = alook g.head e ∧
        alook h.tail e = alook g.tail e) := by
  obtain ⟨h, heq, hver, hko, hki, hout, hin, hhd, htl⟩ :=
    csov_char g g.vertices hWF (fun x hx => hx)
  have hvsid : initVerts g.vertices = g.vertices :=
    initVerts_of_nodup _ hWF.1
  rw [hvsid] at hver hko hki
  simp only [hvsid] at hout hin hhd htl
  have hkeep : ∀ v ∈ g.vertices,
      keepList g g.vertices v = outListD g v := by
    intro v hv
    rw [keepList]
    apply List.filter_eq_self.mpr
    intro e he
    rw [keepB_eq_decide (wf_head_of_out hWF hv he).1]
    exact decide_eq_true (wf_head_of_out hWF hv he).2
  have hAOK : allOut h = keptP g g.vertices g.vertices :=
    csov_allOut hver hout
  have hAO : allOut h = allOut g := by
    rw [hAOK, keptP, allOut]
    congr 1
    exact List.map_congr_left hkeep
  refine ⟨h, heq, hver, ?_, hAO, ?_⟩
  · intro v hv
    rw [outListD, hout v, if_pos hv]
    show keepList g g.vertices v = _
    exact hkeep v hv
  · intro e he
    have heK : e ∈ keptP g g.vertices g.vertices := by
      rw [← hAOK, hAO]
      exact he
    obtain ⟨v, hvv, heo, hkB⟩ := mem_keptP_out heK
    constructor
    · rw [hhd, alook_map_pair, if_pos heK,
        kept_head_eq hWF (fun u hu => hu) hvv heo]
    · rw [htl, alook_tailPairs g.vertices hWF
        (fun u hu => hu) hvv (List.mem_filter.mpr ⟨heo, hkB⟩),
        wf_tail_of_out hWF hvv heo]

/-- C10: the result of `complete_subgraph_on_vertices` on a (possibly
duplicated) collection of parent vertices contains each vertex exactly
once, gives every vertex an out- and in-edge entry, and records each kept
edge exactly once in one out-edge list and once in one in-edge list. -/
theorem subgraph_dedup (g : ObjectGraph) (S : List Nat) (hWF : WF g)
    (hsub : ∀ x ∈ S, x ∈ g.vertices) :
    ∃ h, complete_subgraph_on_vertices g S = some h ∧
      h.vertices.Nodup ∧
      (∀ v, v ∈ h.vertices ↔ v ∈ S) ∧
      h.out_edges.map Prod.fst = h.vertices ∧
      h.in_edges.map Prod.fst = h.vertices ∧
      (allOut h).Nodup ∧
      (allIn h).Nodup ∧
      (∀ e, e ∈ allOut h ↔ e ∈ allIn h) := by
  obtain ⟨h, heq, hver, hko, hki, hout, hin, hhd, htl⟩ :=
    csov_char g S hWF hsub
  have hsub' : ∀ v ∈ initVerts S, v ∈ g.vertices :=
    fun v hv' => hsub v ((initVerts_mem S v).mp hv')
  have hAOK : allOut h = keptP g (initVerts S) (initVerts S) :=
    csov_allOut hver hout
  have hKnd : (keptP g (initVerts S) (initVerts S)).Nodup :=
    keptP_nodup hWF hsub' (initVerts_nodup S)
  have hinl : ∀ w ∈ initVerts S, inListD h w =
      (keptP g (initVerts S) (initVerts S)).filter
        (fun e => headD g e == w) := by
    intro w hw
    rw [inListD, hin w, if_pos hw]
    rfl
  have hmemIn : ∀ e, e ∈ allIn h ↔
      e ∈ keptP g (initVerts S) (initVerts S) := by
    intro e
    rw [allIn, hver]
    constructor
    · intro he
      rcases List.mem_flatten.mp he with ⟨l, hl, hel⟩
      rcases List.mem_map.mp hl with ⟨w, hw, rfl⟩
      rw [hinl w hw] at hel
      exact List.mem_of_mem_filter hel
    · intro he
      obtain ⟨v, hvv, heo, hkB⟩ := mem_keptP_out he
      have hhw : headD g e ∈ initVerts S := keepB_head_mem hkB
      apply List.mem_flatten.mpr
      refine ⟨inListD h (headD g e),
        List.mem_map_of_mem (inListD h) hhw, ?_⟩
      rw [hinl _ hhw]
      exact List.mem_filter.mpr ⟨he, by simp⟩
  refine ⟨h, heq, hver ▸ initVerts_nodup S, ?_, ?_, ?_, ?_, ?_, ?_⟩
  · intro v
    rw [hver]
    exact initVerts_mem S v
  · rw [hko, hver]
  · rw [hki, hver]
  · rw [hAOK]
    exact hKnd
  · rw [allIn, hver, List.nodup_flatten]
    constructor
    · intro l hl
      rcases List.mem_map.mp hl with ⟨w, hw, rfl⟩
      rw [hinl w hw]
      exact hKnd.filter _
    · rw [List.pairwise_map]
      refine List.Pairwise.imp_of_mem ?_ (initVerts_nodup S)
      intro a b ha hb hne e hea heb
      rw [hinl a ha] at hea
      rw [hinl b hb] at heb
      have h1 := (List.mem_filter.mp hea).2
      have h2 := (List.mem_filter.mp heb).2
      simp at h1 h2
      exact hne (h1 ▸ h2)
  · intro e
    rw [hmemIn e, hAOK]

/-- C5 (amended): requesting a subgraph on a collection containing a vertex
absent from the parent graph makes `complete_subgraph_on_vertices` fail
(Python `KeyError` on the parent's out-edge lookup) rather than accept the
vertex as isolated. -/
theorem subgraph_extraneous_fails (g : ObjectGraph) (S : List Nat)
    (hWF : WF g) (hex : ∃ x ∈ S, ¬ x ∈ g.vertices) :
    complete_subgraph_on_vertices g S = none := by
  obtain ⟨x, hx, hxg⟩ := hex
  exact csov_fails g S hWF hx hxg

/-! ### Soundness of the depth-first worklist loop -/

theorem sublist_sum_le {l1 l2 : List Nat} (h : l1.Sublist l2) :
    l1.sum ≤ l2.sum := by
  induction h with
  | slnil => simp
  | cons a h ih =>
    rw [List.sum_cons]
    omega
  | cons₂ a h ih =>
    rw [List.sum_cons, List.sum_cons]
    omega

/-- Potential of the worklist loop: pending frontier entries plus, for each
unvisited vertex, one visit plus its neighbour count. -/
def dfsPhi (nbr : Nat → Option (List Nat)) (V visited toVisit : List Nat) :
    Nat :=
  toVisit.length +
    ((V.filter (fun w => !(decide (w ∈ visited)))).map
      (fun w => 1 + nbrLen nbr w)).sum

theorem sum_unvisited_split (nbr : Nat → Option (List Nat))
    (V : List Nat) (visited : List Nat) (v : Nat)
    (hv : v ∈ V) (hnv : ¬ v ∈ visited) (hnd : V.Nodup) :
    ((V.filter (fun w => !(decide (w ∈ visited)))).map
      (fun w => 1 + nbrLen nbr w)).sum =
    (1 + nbrLen nbr v) +
      ((V.filter (fun w => !(decide (w ∈ v :: visited)))).map
        (fun w => 1 + nbrLen nbr w)).sum := by
  induction V with
  | nil => simp at hv
  | cons u t ih =>
    have hun : ¬ u ∈ t := (List.nodup_cons.mp hnd).1
    have htnd : t.Nodup := (List.nodup_cons.mp hnd).2
    by_cases huv : u = v
    · subst huv
      have hvt : ¬ u ∈ t := hun
      rw [List.filter_cons_of_pos (by simp [hnv]),
        List.filter_cons_of_neg (by simp)]
      simp only [List.map_cons, List.sum_cons]
      have hcong : t.filter (fun w => !(decide (w ∈ visited))) =
          t.filter (fun w => !(decide (w ∈ u :: visited))) := by
        apply List.filter_congr
        intro w hw
        have hwv : ¬ w = u := fun h => hvt (h ▸ hw)
        simp [List.mem_cons, hwv]
      rw [hcong]
    · have hvt : v ∈ t := by
        rcases List.mem_cons.mp hv with h | h
        · exact absurd h.symm huv
        · exact h
      by_cases hu : u ∈ visited
      · rw [List.filter_cons_of_neg (by simp [hu]),
          List.filter_cons_of_neg (by simp [List.mem_cons, huv, hu])]
        exact ih hvt htnd
      · rw [List.filter_cons_of_pos (by simp [hu]),
          List.filter_cons_of_pos (by simp [List.mem_cons, huv, hu])]
        simp only [List.map_cons, List.sum_cons]
        rw [ih hvt htnd]
        omega

theorem reaches_mem_V {nbr : Nat → Option (List Nat)} {V : List Nat}
    (hcl : ∀ v ∈ V, ∃ cs, nbr v = some cs ∧ ∀ w ∈ cs, w ∈ V)
    {u x : Nat} (hu : u ∈ V) (h : Reaches nbr u x) : x ∈ V := by
  induction h with
  | refl => exact hu
  | tail hab hAdj ih =>
    obtain ⟨cs, hn, hcs⟩ := hcl _ ih
    rcases hAdj with ⟨cs', hn', hw⟩
    rw [hn] at hn'
    exact hcs _ ((Option.some.inj hn') ▸ hw)

set_option maxHeartbeats 1000000 in
/-- Soundness of the worklist loop: under the loop invariants and with fuel
at least the potential, the loop terminates and its visit list consists of
the already-visited vertices together with everything reachable from the
pending frontier. -/
theorem dfsLoop_sound (nbr : Nat → Option (List Nat)) (V : List Nat)
    (hV : V.Nodup)
    (hcl : ∀ v ∈ V, ∃ cs, nbr v = some cs ∧ ∀ w ∈ cs, w ∈ V) :
    ∀ fuel visited stack toVisit,
    (∀ v ∈ visited, v ∈ V) →
    (∀ v ∈ toVisit, v ∈ V) →
    (∀ x, x ∈ stack ↔ x ∈ visited) →
    (∀ v ∈ visited, ∀ w, Adj nbr v w → w ∈ visited ∨ w ∈ toVisit) →
    (∀ t1 x t2, toVisit = t1 ++ x :: t2 → x ∈ visited →
      ∀ w, Adj nbr x w → w ∈ visited ∨ w ∈ t1) →
    dfsPhi nbr V visited toVisit ≤ fuel →
    ∃ L, dfsLoop nbr fuel visited stack toVisit = some L ∧
      (∀ x, x ∈ L ↔ x ∈ visited ∨ ∃ u ∈ toVisit, Reaches nbr u x) := by
  intro fuel
  induction fuel with
  | zero =>
    intro visited stack toVisit hVis hTo hStack hCl hPos hPhi
    cases toVisit with
    | nil =>
      refine ⟨stack, rfl, ?_⟩
      intro x
      simp [hStack x]
    | cons v rest =>
      exfalso
      have : 1 ≤ dfsPhi nbr V visited (v :: rest) := by
        rw [dfsPhi]
        simp only [List.length_cons]
        omega
      omega
  | succ n ih =>
    intro visited stack toVisit hVis hTo hStack hCl hPos hPhi
    cases toVisit with
    | nil =>
      refine ⟨stack, rfl, ?_⟩
      intro x
      simp [hStack x]
    | cons v rest =>
      have hvV : v ∈ V := hTo v (by simp)
      obtain ⟨cs, hnbr, hcsV⟩ := hcl v hvV
      have hAdjv : ∀ w, Adj nbr v w ↔ w ∈ cs := by
        intro w
        constructor
        · rintro ⟨cs', h', hw⟩
          rw [hnbr] at h'
          exact (Option.some.inj h') ▸ hw
        · intro hw
          exact ⟨cs, hnbr, hw⟩
      have hstep : dfsLoop nbr (n + 1) visited stack (v :: rest) =
          dfsLoop nbr n (v :: visited) (stack ++ [v])
            ((cs.filter (fun w => !(decide (w ∈ v :: visited)))).reverse
              ++ rest) := by
        rw [dfsLoop]
        simp [hnbr]
      have hPmem : ∀ w,
          w ∈ (cs.filter (fun w => !(decide (w ∈ v :: visited)))).reverse ↔
          (w ∈ cs ∧ ¬ w ∈ v :: visited) := by
        intro w
        rw [List.mem_reverse, List.mem_filter]
        simp
      have hVis' : ∀ x ∈ v :: visited, x ∈ V := by
        intro x hx
        rcases List.mem_cons.mp hx with h | h
        · exact h ▸ hvV
        · exact hVis x h
      have hTo' : ∀ x ∈ (cs.filter
          (fun w => !(decide (w ∈ v :: visited)))).reverse ++ rest,
          x ∈ V := by
        intro x hx
        rcases List.mem_append.mp hx with h | h
        · exact hcsV x ((hPmem x).mp h).1
        · exact hTo x (List.mem_cons_of_mem _ h)
      have hStack' : ∀ x, x ∈ stack ++ [v] ↔ x ∈ v :: visited := by
        intro x
        simp [hStack x, or_comm]
      have hCl' : ∀ x ∈ v :: visited, ∀ w, Adj nbr x w →
          w ∈ v :: visited ∨ w ∈ (cs.filter
            (fun w => !(decide (w ∈ v :: visited)))).reverse ++ rest := by
        intro x hx w hAdj
        rcases List.mem_cons.mp hx with hxv | hxv
        · subst hxv
          have hwcs : w ∈ cs := (hAdjv w).mp hAdj
          by_cases hwv : w ∈ x :: visited
          · exact Or.inl hwv
          · exact Or.inr (List.mem_append_left _ ((hPmem w).mpr ⟨hwcs, hwv⟩))
        · rcases hCl x hxv w hAdj with h | h
          · exact Or.inl (List.mem_cons_of_mem _ h)
          · rcases List.mem_cons.mp h with h | h
            · exact Or.inl (h ▸ List.mem_cons_self _ _)
            · exact Or.inr (List.mem_append_right _ h)
      have hPos' : ∀ t1 x t2,
          (cs.filter (fun w => !(decide (w ∈ v :: visited)))).reverse ++ rest
            = t1 ++ x :: t2 →
          x ∈ v :: visited → ∀ w, Adj nbr x w →
          w ∈ v :: visited ∨ w ∈ t1 := by
        intro t1 x t2 hdec hx w hAdj
        rcases List.append_eq_append_iff.mp hdec with ⟨a', ha1, ha2⟩ |
          ⟨c', hc1, hc2⟩
        · rcases List.mem_cons.mp hx with hxv | hxv
          · subst hxv
            have hwcs : w ∈ cs := (hAdjv w).mp hAdj
            by_cases hwv : w ∈ x :: visited
            · exact Or.inl hwv
            · refine Or.inr ?_
              rw [ha1]
              exact List.mem_append_left _ ((hPmem w).mpr ⟨hwcs, hwv⟩)
          · have hold : v :: rest = (v :: a') ++ x :: t2 := by
              rw [List.cons_append, ha2]
            rcases hPos (v :: a') x t2 hold hxv w hAdj with h | h
            · exact Or.inl (List.mem_cons_of_mem _ h)
            · rcases List.mem_cons.mp h with h | h
              · exact Or.inl (h ▸ List.mem_cons_self _ _)
              · rw [ha1]
                exact Or.inr (List.mem_append_right _ h)
        · cases c' with
          | nil =>
            simp only [List.nil_append] at hc2
            rcases List.mem_cons.mp hx with hxv | hxv
            · subst hxv
              have hwcs : w ∈ cs := (hAdjv w).mp hAdj
              by_cases hwv : w ∈ x :: visited
              · exact Or.inl hwv
              · refine Or.inr ?_
                have ht1 : t1 = (cs.filter
                    (fun w => !(decide (w ∈ x :: visited)))).reverse := by
                  simpa using hc1.symm
                rw [ht1]
                exact (hPmem w).mpr ⟨hwcs, hwv⟩
            · have hold : v :: rest = [v] ++ x :: t2 := by
                rw [List.singleton_append, hc2]
              rcases hPos [v] x t2 hold hxv w hAdj with h | h
              · exact Or.inl (List.mem_cons_of_mem _ h)
              · rcases List.mem_singleton.mp h with h
                exact Or.inl (h ▸ List.mem_cons_self _ _)
          | cons y c'' =>
            exfalso
            have hxy : x = y := by
              have := hc2
              rw [List.cons_append] at this
              exact (List.cons.inj this).1
            have hxP : x ∈ (cs.filter
                (fun w => !(decide (w ∈ v :: visited)))).reverse := by
              rw [hc1, hxy]
              exact List.mem_append_right _ (List.mem_cons_self _ _)
            exact ((hPmem x).mp hxP).2 hx
      have hnlen : nbrLen nbr v = cs.length := by
        rw [nbrLen, hnbr]
        rfl
      have hPhi' : dfsPhi nbr V (v :: visited)
          ((cs.filter (fun w => !(decide (w ∈ v :: visited)))).reverse
            ++ rest) ≤ n := by
        by_cases hvv : v ∈ visited
        · have hcsvis : ∀ w ∈ cs, w ∈ visited := by
            intro w hw
            rcases hPos [] v rest (by simp) hvv w ((hAdjv w).mpr hw)
              with h | h
            · exact h
            · simp at h
          have hPnil : cs.filter
              (fun w => !(decide (w ∈ v :: visited))) = [] := by
            apply List.filter_eq_nil_iff.mpr
            intro w hw
            simp [List.mem_cons]
            exact fun _ => hcsvis w hw
          rw [hPnil]
          simp only [List.reverse_nil, List.nil_append]
          have hsub : List.Sublist
              (V.filter (fun w => !(decide (w ∈ v :: visited))))
              (V.filter (fun w => !(decide (w ∈ visited)))) := by
            apply List.monotone_filter_right
            intro a ha
            simp at ha ⊢
            exact ha.2
          have hsum : ((V.filter (fun w =>
              !(decide (w ∈ v :: visited)))).map
                (fun w => 1 + nbrLen nbr w)).sum ≤
              ((V.filter (fun w => !(decide (w ∈ visited)))).map
                (fun w => 1 + nbrLen nbr w)).sum :=
            sublist_sum_le (hsub.map _)
          rw [dfsPhi] at hPhi ⊢
          simp only [List.length_cons] at hPhi
          omega
        · have hsplit := sum_unvisited_split nbr V visited v hvV hvv hV
          have hlenP : (cs.filter
              (fun w => !(decide (w ∈ v :: visited)))).reverse.length ≤
              cs.length := by
            rw [List.length_reverse]
            exact List.length_filter_le _ _
          rw [dfsPhi] at hPhi ⊢
          simp only [List.length_cons, List.length_append] at hPhi ⊢
          rw [hsplit, hnlen] at hPhi
          omega
      obtain ⟨L, hL, hLiff⟩ := ih (v :: visited) (stack ++ [v]) _
        hVis' hTo' hStack' hCl' hPos' hPhi'
      refine ⟨L, by rw [hstep]; exact hL, ?_⟩
      have hS'closed : ∀ y z,
          (y ∈ v :: visited ∨ ∃ u ∈ (cs.filter
            (fun w => !(decide (w ∈ v :: visited)))).reverse ++ rest,
            Reaches nbr u y) →
          Adj nbr y z →
          (z ∈ v :: visited ∨ ∃ u ∈ (cs.filter
            (fun w => !(decide (w ∈ v :: visited)))).reverse ++ rest,
            Reaches nbr u z) := by
        rintro y z (hy | ⟨u, hu, hr⟩) hAdj
        · rcases hCl' y hy z hAdj with h | h
          · exact Or.inl h
          · exact Or.inr ⟨z, h, Relation.ReflTransGen.refl⟩
        · exact Or.inr ⟨u, hu, hr.tail hAdj⟩
      have hreach_in : ∀ x, Reaches nbr v x →
          (x ∈ v :: visited ∨ ∃ u ∈ (cs.filter
            (fun w => !(decide (w ∈ v :: visited)))).reverse ++ rest,
            Reaches nbr u x) := by
        intro x hr
        induction hr with
        | refl => exact Or.inl (List.mem_cons_self _ _)
        | tail hab hmc ihr => exact hS'closed _ _ ihr hmc
      intro x
      rw [hLiff x]
      constructor
      · rintro (hx | ⟨u, hu, hr⟩)
        · rcases List.mem_cons.mp hx with h | h
          · exact Or.inr ⟨v, List.mem_cons_self _ _, h ▸
              Relation.ReflTransGen.refl⟩
          · exact Or.inl h
        · rcases List.mem_append.mp hu with h | h
          · have hucs : u ∈ cs := ((hPmem u).mp h).1
            exact Or.inr ⟨v, List.mem_cons_self _ _,
              Relation.ReflTransGen.head ((hAdjv u).mpr hucs) hr⟩
          · exact Or.inr ⟨u, List.mem_cons_of_mem _ h, hr⟩
      · rintro (hx | ⟨u, hu, hr⟩)
        · exact Or.inl (List.mem_cons_of_mem _ hx)
        · rcases List.mem_cons.mp hu with h | h
          · exact hreach_in x (h ▸ hr)
          · exact Or.inr ⟨u, List.mem_append_right _ h, hr⟩

theorem mapM_alook_some {m : List (Nat × Nat)} :
    ∀ {es : List Nat}, (∀ e ∈ es, (alook m e).isSome = true) →
    es.mapM (alook m) = some (es.map (fun e => (alook m e).getD 0)) := by
  intro es
  induction es with
  | nil => intro _; rfl
  | cons e t ih =>
    intro h
    rw [List.mapM_cons]
    rcases Option.isSome_iff_exists.mp (h e (by simp)) with ⟨r, hr⟩
    rw [hr, ih (fun e' he' => h e' (by simp [he']))]
    simp [hr]

theorem children_eq {g : ObjectGraph} (hWF : WF g) {v : Nat}
    (hv : v ∈ g.vertices) :
    children? g v = some ((outListD g v).map (headD g)) := by
  rw [children?, wf_out_some hWF hv]
  show (outListD g v).mapM (alook g.head) = _
  rw [mapM_alook_some (fun e he => (wf_head_of_out hWF hv he).1)]
  rfl

theorem parents_eq {g : ObjectGraph} (hWF : WF g) {v : Nat}
    (hv : v ∈ g.vertices) :
    parents? g v = some ((inListD g v).map (tailD g)) := by
  rw [parents?, wf_in_some hWF hv]
  show (inListD g v).mapM (alook g.tail) = _
  rw [mapM_alook_some (fun e he => (wf_tail_of_in hWF hv he).1)]
  rfl

theorem children_closed {g : ObjectGraph} (hWF : WF g) :
    ∀ v ∈ g.vertices, ∃ cs, children? g v = some cs ∧
      ∀ w ∈ cs, w ∈ g.vertices := by
  intro v hv
  refine ⟨_, children_eq hWF hv, ?_⟩
  intro w hw
  rcases List.mem_map.mp hw with ⟨e, he, rfl⟩
  exact (wf_head_of_out hWF hv he).2

theorem parents_closed {g : ObjectGraph} (hWF : WF g) :
    ∀ v ∈ g.vertices, ∃ cs, parents? g v = some cs ∧
      ∀ w ∈ cs, w ∈ g.vertices := by
  intro v hv
  refine ⟨_, parents_eq hWF hv, ?_⟩
  intro w hw
  rcases List.mem_map.mp hw with ⟨e, he, rfl⟩
  exact (wf_tail_of_in hWF hv he).2

theorem children_none {g : ObjectGraph} (hWF : WF g) {v : Nat}
    (hv : ¬ v ∈ g.vertices) : children? g v = none := by
  have : alook g.out_edges v = none := by
    rw [alook_eq_none_iff, hWF.2.1]
    exact hv
  rw [children?, this]
  rfl

theorem parents_none {g : ObjectGraph} (hWF : WF g) {v : Nat}
    (hv : ¬ v ∈ g.vertices) : parents? g v = none := by
  have : alook g.in_edges v = none := by
    rw [alook_eq_none_iff, hWF.2.2.1]
    exact hv
  rw [parents?, this]
  rfl

/-- The worklist loop from a single start vertex of a closed neighbour
structure: it terminates within `dfsFuel` and visits exactly the reachable
vertices. -/
theorem dfsLoop_main (nbr : Nat → Option (List Nat)) (V : List Nat)
    (hV : V.Nodup)
    (hcl : ∀ v ∈ V, ∃ cs, nbr v = some cs ∧ ∀ w ∈ cs, w ∈ V)
    (start : Nat) (hstart : start ∈ V) :
    ∃ L, dfsLoop nbr (dfsFuel nbr V) [] [] [start] = some L ∧
      (∀ x, x ∈ L ↔ Reaches nbr start x) ∧ (∀ x ∈ L, x ∈ V) := by
  have hPhi : dfsPhi nbr V [] [start] ≤ dfsFuel nbr V := by
    rw [dfsPhi, dfsFuel]
    have : V.filter (fun w => !(decide (w ∈ ([] : List Nat)))) = V := by
      apply List.filter_eq_self.mpr
      intro a _
      simp
    rw [this]
    simp
  obtain ⟨L, hL, hiff⟩ := dfsLoop_sound nbr V hV hcl (dfsFuel nbr V)
    [] [] [start]
    (by simp)
    (by
      intro v hv
      rw [List.mem_singleton.mp hv]
      exact hstart)
    (by simp)
    (by simp)
    (by
      intro t1 x t2 hdec hx
      simp at hx)
    hPhi
  refine ⟨L, hL, ?_, ?_⟩
  · intro x
    rw [hiff x]
    constructor
    · rintro (h | ⟨u, hu, hr⟩)
      · simp at h
      · rw [List.mem_singleton.mp hu] at hr
        exact hr
    · intro hr
      exact Or.inr ⟨start, List.mem_singleton_self _, hr⟩
  · intro x hx
    rcases (hiff x).mp hx with h | ⟨u, hu, hr⟩
    · simp at h
    · exact reaches_mem_V hcl (List.mem_singleton.mp hu ▸ hstart) hr

theorem dfsLoop_start_missing {nbr : Nat → Option (List Nat)} {start : Nat}
    (hnone : nbr start = none) (visited stack : List Nat) :
    ∀ fuel, 1 ≤ fuel → dfsLoop nbr fuel visited stack [start] = none := by
  intro fuel hfuel
  cases fuel with
  | zero => omega
  | succ n =>
    rw [dfsLoop]
    simp [hnone]

/-! ### Claim-level facts about `descendants` and `ancestors` -/

/-- C2: for a start vertex of a well-formed graph, `descendants` succeeds
and returns a subgraph whose vertex set is exactly the set of vertices
reachable from the start via zero or more `children` steps; symmetrically
for `ancestors` with `parents` steps. -/
theorem closure_correctness (g : ObjectGraph) (start : Nat) (hWF : WF g)
    (hs : start ∈ g.vertices) :
    (∃ h, descendants g start = some h ∧
      ∀ v, v ∈ h.vertices ↔ Reaches (children? g) start v) ∧
    (∃ h, ancestors g start = some h ∧
      ∀ v, v ∈ h.vertices ↔ Reaches (parents? g) start v) := by
  constructor
  · obtain ⟨L, hL, hiffL, hLV⟩ := dfsLoop_main (children? g) g.vertices
      hWF.1 (children_closed hWF) start hs
    obtain ⟨h, heq, hver, _⟩ := csov_char g L hWF hLV
    refine ⟨h, ?_, ?_⟩
    · rw [descendants, descendantsList, hL]
      exact heq
    · intro v
      rw [hver, initVerts_mem, hiffL]
  · obtain ⟨L, hL, hiffL, hLV⟩ := dfsLoop_main (parents? g) g.vertices
      hWF.1 (parents_closed hWF) start hs
    obtain ⟨h, heq, hver, _⟩ := csov_char g L hWF hLV
    refine ⟨h, ?_, ?_⟩
    · rw [ancestors, ancestorsList, hL]
      exact heq
    · intro v
      rw [hver, initVerts_mem, hiffL]

/-- C7: calling `descendants` or `ancestors` with a start vertex not in
the graph fails (the missing-key lookup of the start's neighbours is the
Python `KeyError`, embedded as `none`) instead of returning an empty or
any other subgraph. -/
theorem start_vertex_not_found (g : ObjectGraph) (start : Nat) (hWF : WF g)
    (hs : ¬ start ∈ g.vertices) :
    descendants g start = none ∧ ancestors g start = none := by
  constructor
  · have h1 : descendantsList g start = none := by
      rw [descendantsList]
      exact dfsLoop_start_missing (children_none hWF hs) [] [] _
        (by rw [dfsFuel]; omega)
    rw [descendants, h1]
    rfl
  · have h1 : ancestorsList g start = none := by
      rw [ancestorsList]
      exact dfsLoop_start_missing (parents_none hWF hs) [] [] _
        (by rw [dfsFuel]; omega)
    rw [ancestors, h1]
    rfl

/-- C6 (amended): the traversal marks a vertex visited when it is popped
from the LIFO frontier, not when it is queued, so the visit list may
contain a vertex more than once; its underlying set is nevertheless
exactly the set of reachable vertices, and the returned subgraph holds
each visited vertex exactly once. -/
theorem visit_list_semantics (g : ObjectGraph) (start : Nat) (hWF : WF g)
    (hs : start ∈ g.vertices) :
    ∃ L h, descendantsList g start = some L ∧
      descendants g start = some h ∧
      (∀ x, x ∈ L ↔ Reaches (children? g) start x) ∧
      h.vertices.Nodup ∧
      (∀ x, x ∈ h.vertices ↔ x ∈ L) := by
  obtain ⟨L, hL, hiffL, hLV⟩ := dfsLoop_main (children? g) g.vertices
    hWF.1 (children_closed hWF) start hs
  have hdl : descendantsList g start = some L := by
    rw [descendantsList, hL]
  obtain ⟨h, heq, hver, _⟩ := csov_char g L hWF hLV
  refine ⟨L, h, hdl, ?_, hiffL, ?_, ?_⟩
  · rw [descendants, hdl]
    exact heq
  · rw [hver]
    exact initVerts_nodup L
  · intro x
    rw [hver, initVerts_mem]

/-! ### Concrete example graphs -/

/-- Expansion callback of the spec §8 example: `A→B, B→C, C→A, C→D`
with `A,B,C,D` as `0,1,2,3`. -/
def exExpandA : Nat → List Nat := fun v =>
  if v = 0 then [1] else if v = 1 then [2] else if v = 2 then [0, 3]
  else []

/-- The spec §8 example graph. -/
def exA : ObjectGraph := from_objects exExpandA [0, 1, 2, 3]

/-- Expansion callback with a vertex (`1`) reachable from the seed `0`
but not itself a seed. -/
def exExpandB : Nat → List Nat := fun v => if v = 0 then [1] else []

/-- A graph on vertices `0,1,2` with edges `0→1`, `0→2`, `2→1`, on which
the traversal frontier receives vertex `1` twice. -/
def exExpandC : Nat → List Nat := fun v =>
  if v = 0 then [1, 2] else if v = 2 then [1] else []

/-- The double-queue example graph. -/
def exC : ObjectGraph := from_objects exExpandC [0, 1, 2]

/-- C6 counterexample: on `exC`, vertex `1` is queued (and later popped)
twice before the frontier empties, so the visit list repeats it — the
claim's "no vertex is queued after it has already been queued" and
"visited at most once" fail. -/
theorem visit_list_duplicate_cex :
    descendantsList exC 0 = some [0, 2, 1, 1] ∧
    ¬ ([0, 2, 1, 1] : List Nat).Nodup := by
  constructor
  · decide
  · decide

/-- C4 counterexample: `_from_objects` performs no closure — with seed
collection `[0]` and an expansion callback returning `[1]` on `0`, the
vertex `1` is reachable from the seed via the callback but absent from the
constructed graph. -/
theorem from_objects_no_closure_cex :
    1 ∈ exExpandB 0 ∧
    (from_objects exExpandB [0]).vertices = [0] ∧
    ¬ 1 ∈ (from_objects exExpandB [0]).vertices := by
  refine ⟨by decide, by decide, by decide⟩

theorem buildEdge_keys (vs : List Nat) (r : Nat) :
    ∀ (l : List Nat) (st : Nat × SubAcc),
    ((l.foldl (buildEdge vs r) st).2.out_edges).map Prod.fst =
      st.2.out_edges.map Prod.fst := by
  intro l
  induction l with
  | nil => intro st; rfl
  | cons x t ih =>
    intro st
    rw [List.foldl_cons, ih]
    rw [buildEdge]
    by_cases hx : x ∈ vs
    · rw [if_pos hx]
      exact keys_aupd _ _ _
    · rw [if_neg hx]

theorem foldl_buildEdge_keys (vs : List Nat) (expand : Nat → List Nat) :
    ∀ (l : List Nat) (st : Nat × SubAcc),
    ((l.foldl (fun st r => (expand r).foldl (buildEdge vs r) st)
      st).2.out_edges).map Prod.fst = st.2.out_edges.map Prod.fst := by
  intro l
  induction l with
  | nil => intro st; rfl
  | cons x t ih =>
    intro st
    rw [List.foldl_cons, ih, buildEdge_keys]

/-- C4 (amended): construction from a seed collection adds exactly the
seed vertices — the vertex set is the deduplicated seed collection in
insertion order (in particular every seed vertex is present and no
merely-reachable vertex is added), and every vertex has an out-edge
entry. -/
theorem from_objects_seed_vertices (expand : Nat → List Nat)
    (objects : List Nat) :
    (from_objects expand objects).vertices = initVerts objects ∧
    (∀ v, v ∈ (from_objects expand objects).vertices ↔ v ∈ objects) ∧
    (from_objects expand objects).vertices.Nodup ∧
    (from_objects expand objects).out_edges.map Prod.fst =
      (from_objects expand objects).vertices := by
  refine ⟨rfl, ?_, initVerts_nodup objects, ?_⟩
  · intro v
    exact initVerts_mem objects v
  · calc (from_objects expand objects).out_edges.map Prod.fst
        = (((initVerts objects).foldl
            (fun st r => (expand r).foldl
              (buildEdge (initVerts objects) r) st)
            (0, ⟨initMap objects, initMap objects, [],
              []⟩)).2.out_edges).map Prod.fst := rfl
      _ = (initMap objects).map Prod.fst :=
            foldl_buildEdge_keys (initVerts objects) expand
              (initVerts objects)
              (0, ⟨initMap objects, initMap objects, [], []⟩)
      _ = initVerts objects := keys_initMap objects
      _ = (from_objects expand objects).vertices := rfl

/-- C5 counterexample: on the spec's example graph (vertices `0..3`),
requesting the complete subgraph on `[7]` fails with a missing-key lookup
instead of returning a graph in which `7` is an isolated vertex. -/
theorem subgraph_extraneous_cex :
    complete_subgraph_on_vertices exA [7] = none := by
  decide

/-! ### Witnesses -/

theorem closure_correctness_witness :
    WF exA ∧ 0 ∈ exA.vertices ∧
    ((∃ h, descendants exA 0 = some h ∧
      ∀ v, v ∈ h.vertices ↔ Reaches (children? exA) 0 v) ∧
     (∃ h, ancestors exA 0 = some h ∧
      ∀ v, v ∈ h.vertices ↔ Reaches (parents? exA) 0 v)) :=
  ⟨by decide, by decide, closure_correctness exA 0 (by decide) (by decide)⟩

theorem subgraph_edge_fidelity_witness :
    WF exA ∧ (∀ x ∈ ([0, 1] : List Nat), x ∈ exA.vertices) ∧
    (∃ h, complete_subgraph_on_vertices exA [0, 1] = some h ∧
      (∀ v, v ∈ h.vertices ↔ v ∈ ([0, 1] : List Nat)) ∧
      (∀ v ∈ h.vertices, outListD h v =
        (outListD exA v).filter
          (fun e => decide (headD exA e ∈ ([0, 1] : List Nat)))) ∧
      (∀ e, e ∈ allOut h →
        alook h.head e = alook exA.head e ∧
        alook h.tail e = alook exA.tail e ∧
        e ∈ allOut exA ∧ tailD exA e ∈ ([0, 1] : List Nat) ∧
        headD exA e ∈ ([0, 1] : List Nat)) ∧
      (∀ e, e ∈ allOut exA → tailD exA e ∈ ([0, 1] : List Nat) →
        headD exA e ∈ ([0, 1] : List Nat) → e ∈ allOut h)) :=
  ⟨by decide, by decide,
    subgraph_edge_fidelity exA [0, 1] (by decide) (by decide)⟩

theorem subgraph_identity_witness :
    WF exA ∧
    (∃ h, complete_subgraph_on_vertices exA exA.vertices = some h ∧
      h.vertices = exA.vertices ∧
      (∀ v ∈ exA.vertices, outListD h v = outListD exA v) ∧
      allOut h = allOut exA ∧
      (∀ e, e ∈ allOut exA →
        alook h.head e = alook exA.head e ∧
        alook h.tail e = alook exA.tail e)) :=
  ⟨by decide, subgraph_identity exA (by decide)⟩

theorem subgraph_dedup_witness :
    WF exA ∧ (∀ x ∈ ([0, 0, 1] : List Nat), x ∈ exA.vertices) ∧
    (∃ h, complete_subgraph_on_vertices exA [0, 0, 1] = some h ∧
      h.vertices.Nodup ∧
      (∀ v, v ∈ h.vertices ↔ v ∈ ([0, 0, 1] : List Nat)) ∧
      h.out_edges.map Prod.fst = h.vertices ∧
      h.in_edges.map Prod.fst = h.vertices ∧
      (allOut h).Nodup ∧
      (allIn h).Nodup ∧
      (∀ e, e ∈ allOut h ↔ e ∈ allIn h)) :=
  ⟨by decide, by decide, subgraph_dedup exA [0, 0, 1] (by decide) (by decide)⟩

theorem subgraph_extraneous_fails_witness :
    WF exA ∧ (∃ x ∈ ([7] : List Nat), ¬ x ∈ exA.vertices) ∧
    complete_subgraph_on_vertices exA [7] = none :=
  ⟨by decide, by decide,
    subgraph_extraneous_fails exA [7] (by decide) (by decide)⟩

theorem visit_list_semantics_witness :
    WF exC ∧ 0 ∈ exC.vertices ∧
    (∃ L h, descendantsList exC 0 = some L ∧
      descendants exC 0 = some h ∧
      (∀ x, x ∈ L ↔ Reaches (children? exC) 0 x) ∧
      h.vertices.Nodup ∧
      (∀ x, x ∈ h.vertices ↔ x ∈ L)) :=
  ⟨by decide, by decide, visit_list_semantics exC 0 (by decide) (by decide)⟩

theorem start_vertex_not_found_witness :
    WF exA ∧ ¬ 9 ∈ exA.vertices ∧
    (descendants exA 9 = none ∧ ancestors exA 9 = none) :=
  ⟨by decide, by decide,
    start_vertex_not_found exA 9 (by decide) (by decide)⟩

/-! ### `strongly_connected_components` (`i_directed_graph.py`)

The iterative path-based (Gabow) algorithm.  The Python `to_do` list holds
tagged operations `('VISIT'|'EDGE'|'POSTVISIT', id(v), v)`; with identity
keys the payload is just the vertex.  The head of the embedded lists is
the top of the corresponding Python stack (its last element). -/

inductive SccOp : Type
  | VISIT : SccOp
  | EDGE : SccOp
  | POSTVISIT : SccOp
  deriving DecidableEq, Repr

/-- The mutable state of `strongly_connected_components` outside `to_do`:
the finished components, the identified set, the path stack, the discovery
index map and the boundary stack. -/
structure SccState : Type where
  sccs : List (List Nat)
  identified : List Nat
  stack : List Nat
  index : List (Nat × Nat)
  boundaries : List Nat
  deriving DecidableEq, Repr

/-- The `while index[id_v] < boundaries[-1]: boundaries.pop()` loop.
Peeking an empty boundary stack is a Python `IndexError`, embedded as
`none` (proved unreachable on the states the algorithm reaches). -/
def popWhileGt (iw : Nat) : List Nat → Option (List Nat)
  | [] => none
  | b :: bs => if iw < b then popWhileGt iw bs else some (b :: bs)

/-- The inner `while to_do:` loop (fuel-indexed). -/
def sccLoop (g : ObjectGraph) :
    Nat → SccState → List (SccOp × Nat) → Option SccState
  | _, st, [] => some st
  | 0, _, _ :: _ => none
  | fuel + 1, st, (op, v) :: rest =>
    match op with
    | SccOp.VISIT => do
        let cs ← children? g v
        sccLoop g fuel
          { st with index := aset st.index v st.stack.length,
                    stack := st.stack ++ [v],
                    boundaries := st.stack.length :: st.boundaries }
          ((cs.map (fun w => (SccOp.EDGE, w))) ++
            (SccOp.POSTVISIT, v) :: rest)
    | SccOp.EDGE =>
        if (alook st.index v).isSome = false then
          sccLoop g fuel st ((SccOp.VISIT, v) :: rest)
        else if v ∈ st.identified then
          sccLoop g fuel st rest
        else do
          let iv ← alook st.index v
          let bs ← popWhileGt iv st.boundaries
          sccLoop g fuel { st with boundaries := bs } rest
    | SccOp.POSTVISIT => do
        let iv ← alook st.index v
        let b ← st.boundaries.head?
        if b = iv then
          sccLoop g fuel
            { st with sccs := st.sccs ++ [st.stack.drop iv],
                      identified := st.identified ++ st.stack.drop iv,
                      stack := st.stack.take iv,
                      boundaries := st.boundaries.tail } rest
        else
          sccLoop g fuel st rest

/-- The outer `for v in self.vertices:` loop. -/
def sccOuter (g : ObjectGraph) (fuel : Nat) :
    List Nat → SccState → Option SccState
  | [], st => some st
  | v :: vs, st =>
      if (alook st.index v).isSome = true then sccOuter g fuel vs st
      else do
        let st' ← sccLoop g fuel st [(SccOp.VISIT, v)]
        sccOuter g fuel vs st'

/-- Fuel sufficient for any single inner run (proved below). -/
def sccFuel (g : ObjectGraph) : Nat :=
  2 + g.vertices.length * (2 * (allOut g).length + 2)

/-- `IDirectedGraph.strongly_connected_components`, including the final
`map(self.complete_subgraph_on_vertices, sccs)`. -/
def strongly_connected_components (g : ObjectGraph) :
    Option (List ObjectGraph) := do
  let st ← sccOuter g (sccFuel g) g.vertices ⟨[], [], [], [], []⟩
  st.sccs.mapM (complete_subgraph_on_vertices g)

/-- The children list of a vertex of a well-formed graph (the value
wrapped by `children?`). -/
def childL (g : ObjectGraph) (v : Nat) : List Nat :=
  (outListD g v).map (headD g)

/-- Rendering of the pending recursion frames into `to_do` entries: for
each frame, its pending `EDGE` operations followed by its `POSTVISIT`. -/
def renderF : List (Nat × List Nat) → List (SccOp × Nat)
  | [] => []
  | (v, es) :: fs =>
      (es.map (fun w => (SccOp.EDGE, w))) ++
        (SccOp.POSTVISIT, v) :: renderF fs

/-- Discovery index of a vertex (as a plain number; only used on
discovered vertices). -/
def idxD (st : SccState) (v : Nat) : Nat :=
  (alook st.index v).getD 0

/-- `b` is the base of the boundary segment containing position `p`: the
largest boundary not exceeding `p`. -/
def isBase (st : SccState) (b p : Nat) : Prop :=
  b ∈ st.boundaries ∧ b ≤ p ∧ ∀ b' ∈ st.boundaries, b' ≤ p → b' ≤ b

theorem children_eq_childL {g : ObjectGraph} (hWF : WF g) {v : Nat}
    (hv : v ∈ g.vertices) : children? g v = some (childL g v) :=
  children_eq hWF hv

theorem childL_subset {g : ObjectGraph} (hWF : WF g) {v : Nat}
    (hv : v ∈ g.vertices) : ∀ w ∈ childL g v, w ∈ g.vertices := by
  intro w hw
  rcases List.mem_map.mp hw with ⟨e, he, rfl⟩
  exact (wf_head_of_out hWF hv he).2

theorem adj_iff_childL {g : ObjectGraph} (hWF : WF g) {v : Nat}
    (hv : v ∈ g.vertices) (w : Nat) :
    Adj (children? g) v w ↔ w ∈ childL g v := by
  constructor
  · rintro ⟨cs, hcs, hw⟩
    rw [children_eq_childL hWF hv] at hcs
    exact (Option.some.inj hcs) ▸ hw
  · intro hw
    exact ⟨childL g v, children_eq_childL hWF hv, hw⟩

theorem childL_len_le {g : ObjectGraph} (hWF : WF g) {v : Nat}
    (hv : v ∈ g.vertices) : (childL g v).length ≤ (allOut g).length := by
  rw [childL, List.length_map]
  have : List.Sublist (outListD g v) (allOut g) :=
    List.sublist_flatten_of_mem (List.mem_map_of_mem (outListD g) hv)
  exact this.length_le

theorem mapM_eq_some_map {α β : Type} (f : α → Option β) (d : β)
    (l : List α) (h : ∀ x ∈ l, (f x).isSome = true) :
    l.mapM f = some (l.map (fun x => (f x).getD d)) := by
  induction l with
  | nil => rfl
  | cons x t ih =>
    rw [List.mapM_cons]
    rcases Option.isSome_iff_exists.mp (h x (by simp)) with ⟨r, hr⟩
    rw [hr, ih (fun x' hx' => h x' (by simp [hx']))]
    simp [hr]

theorem popWhileGt_spec {iw : Nat} :
    ∀ {bs : List Nat}, (∃ b ∈ bs, b ≤ iw) →
    ∃ hd tl, popWhileGt iw bs = some (hd :: tl) ∧
      (∃ dr, bs = dr ++ hd :: tl ∧ ∀ b ∈ dr, iw < b) ∧ hd ≤ iw := by
  intro bs
  induction bs with
  | nil =>
    rintro ⟨b, hb, _⟩
    simp at hb
  | cons b bs ih =>
    intro hex
    by_cases hgt : iw < b
    · have hex' : ∃ b' ∈ bs, b' ≤ iw := by
        rcases hex with ⟨b', hb', hle⟩
        rcases List.mem_cons.mp hb' with h | h
        · omega
        · exact ⟨b', h, hle⟩
      obtain ⟨hd, tl, heq, ⟨dr, hdec, hdr⟩, hle⟩ := ih hex'
      refine ⟨hd, tl, ?_, ⟨b :: dr, ?_, ?_⟩, hle⟩
      · rw [popWhileGt, if_pos hgt]
        exact heq
      · rw [hdec, List.cons_append]
      · intro x hx
        rcases List.mem_cons.mp hx with h | h
        · omega
        · exact hdr x h
    · refine ⟨b, bs, ?_, ⟨[], by simp, by simp⟩, by omega⟩
      rw [popWhileGt, if_neg hgt]

theorem length_filter_undisc_aset (V : List Nat) (idx : List (Nat × Nat))
    (w p : Nat) (hw : w ∈ V) (hnd : V.Nodup)
    (hun : (alook idx w).isSome = false) :
    (V.filter (fun v => !(alook idx v).isSome)).length =
    1 + (V.filter (fun v => !(alook (aset idx w p) v).isSome)).length := by
  induction V with
  | nil => simp at hw
  | cons u t ih =>
    have hun' : ¬ u ∈ t := (List.nodup_cons.mp hnd).1
    have htnd : t.Nodup := (List.nodup_cons.mp hnd).2
    by_cases huw : u = w
    · subst huw
      have hwt : ¬ u ∈ t := hun'
      rw [List.filter_cons_of_pos (by simp [hun]),
        List.filter_cons_of_neg (by simp [alook_aset_self])]
      rw [List.length_cons]
      have hcong : t.filter (fun v => !(alook idx v).isSome) =
          t.filter (fun v => !(alook (aset idx u p) v).isSome) := by
        apply List.filter_congr
        intro v hv
        have hvw : v ≠ u := fun h => hwt (h ▸ hv)
        rw [alook_aset_ne _ _ hvw]
      rw [hcong]
      omega
    · have hwt : w ∈ t := by
        rcases List.mem_cons.mp hw with h | h
        · exact absurd h.symm huw
        · exact h
      have hcond : alook (aset idx w p) u = alook idx u :=
        alook_aset_ne _ _ huw
      by_cases hu : (alook idx u).isSome = true
      · rw [List.filter_cons_of_neg (by simp [hu]),
          List.filter_cons_of_neg (by simp [hcond, hu])]
        exact ih hwt htnd
      · rw [List.filter_cons_of_pos (by simp [hu]),
          List.filter_cons_of_pos (by simp [hcond]; simpa using hu)]
        rw [List.length_cons, List.length_cons]
        rw [ih hwt htnd]
        omega

/-- The measure weight of a pending operation. -/
def opW : SccOp → Nat
  | SccOp.VISIT => 1
  | SccOp.EDGE => 2
  | SccOp.POSTVISIT => 1

/-- Machine potential: weighted pending operations plus a budget for each
undiscovered vertex. -/
def sccPhi (g : ObjectGraph) (st : SccState)
    (toDo : List (SccOp × Nat)) : Nat :=
  (toDo.map (fun p => opW p.1)).sum +
    (g.vertices.filter (fun v => !(alook st.index v).isSome)).length *
      (2 * (allOut g).length + 2)

/-- Established property of a processed edge `u → w`: the target has been
discovered; identified sources have identified targets; and for a live
source and live target no boundary separates the target's segment from the
source (the merge performed when the edge was processed). -/
def SccP (g : ObjectGraph) (st : SccState) (u w : Nat) : Prop :=
  (alook st.index w).isSome = true ∧
  (u ∈ st.identified → w ∈ st.identified) ∧
  (u ∈ st.stack → w ∈ st.stack →
    ∀ b ∈ st.boundaries, ¬ (idxD st w < b ∧ b ≤ idxD st u))

/-- The pending `to_do` entries corresponding to an optional leading
`VISIT` operation. -/
def leadList : Option Nat → List (SccOp × Nat)
  | none => []
  | some w => [(SccOp.VISIT, w)]

/-- The full invariant of the iterative Gabow machine.  `frames` is the
defunctionalised recursion stack (active vertex first, root last), each
with its pending suffix of children; `lead` an optional vertex whose
`VISIT` is next. -/
structure SccInv (g : ObjectGraph) (st : SccState)
    (frames : List (Nat × List Nat)) (lead : Option Nat) : Prop where
  stackV : ∀ v ∈ st.stack, v ∈ g.vertices
  identV : ∀ v ∈ st.identified, v ∈ g.vertices
  stackNodup : st.stack.Nodup
  stackIdx : ∀ (i v : Nat), st.stack[i]? = some v → alook st.index v = some i
  idxDom : ∀ v, (alook st.index v).isSome = true ↔
    (v ∈ st.identified ∨ v ∈ st.stack)
  identNotStack : ∀ v ∈ st.identified, ¬ v ∈ st.stack
  bndDec : st.boundaries.Pairwise (· > ·)
  bndLt : ∀ b ∈ st.boundaries, b < st.stack.length
  identFlat : st.identified = st.sccs.flatten
  identNodup : st.identified.Nodup
  sccsExact : ∀ c ∈ st.sccs, c ≠ [] ∧ ∀ u ∈ c, ∀ w,
    (w ∈ c ↔ (Reaches (children? g) u w ∧ Reaches (children? g) w u))
  identClosed : ∀ u ∈ st.identified, ∀ w ∈ childL g u, w ∈ st.identified
  reachUp : ∀ (i j u v : Nat), i ≤ j → st.stack[i]? = some u →
    st.stack[j]? = some v → Reaches (children? g) u v
  segReach : ∀ (p b u v : Nat), isBase st b p → st.stack[p]? = some u →
    st.stack[b]? = some v → Reaches (children? g) u v
  framesStack : ∀ f ∈ frames, f.1 ∈ st.stack
  framesSuffix : ∀ f ∈ frames, ∃ pre, childL g f.1 = pre ++ f.2
  framesDec : (frames.map (fun f => idxD st f.1)).Pairwise (· > ·)
  bndLe : ∀ f1, frames.head? = some f1 → ∀ b ∈ st.boundaries,
    b ≤ idxD st f1.1
  bndGap : frames.Chain' (fun f f' => ∀ b ∈ st.boundaries,
    ¬ (idxD st f'.1 < b ∧ b < idxD st f.1))
  bndBot : frames ≠ [] → st.boundaries.getLast? = some 0
  framesBot : ∀ fn, frames.getLast? = some fn → idxD st fn.1 = 0
  leadC : ∀ w, lead = some w → (alook st.index w).isSome = false ∧
    (frames = [] → st.stack = [] ∧ st.boundaries = [] ∧ w ∈ g.vertices) ∧
    (∀ f1, frames.head? = some f1 → w ∈ childL g f1.1)
  runEmpty : lead = none → frames = [] →
    st.stack = [] ∧ st.boundaries = []
  procFrames : ∀ f ∈ frames, ∀ pre, childL g f.1 = pre ++ f.2 →
    ∀ w ∈ pre, (∀ x, lead = some x → ¬ w = x) → SccP g st f.1 w
  procDone : ∀ u, (alook st.index u).isSome = true →
    (∀ f ∈ frames, ¬ f.1 = u) →
    ∀ w ∈ childL g u, (∀ x, lead = some x → ¬ w = x) → SccP g st u w

theorem live_at {st : SccState}
    (hIdx : ∀ (i v : Nat), st.stack[i]? = some v → alook st.index v = some i)
    {v : Nat} (hv : v ∈ st.stack) :
    alook st.index v = some (idxD st v) ∧
    st.stack[idxD st v]? = some v ∧ idxD st v < st.stack.length := by
  rcases List.mem_iff_getElem?.mp hv with ⟨i, hi⟩
  have hlook := hIdx i v hi
  have hid : idxD st v = i := by rw [idxD, hlook]; rfl
  rw [hid]
  refine ⟨hlook, hi, ?_⟩
  rcases List.getElem?_eq_some.mp hi with ⟨h, _⟩
  exact h

theorem exists_max_le : ∀ (l : List Nat) (p : Nat), (∃ x ∈ l, x ≤ p) →
    ∃ b ∈ l, b ≤ p ∧ ∀ b' ∈ l, b' ≤ p → b' ≤ b := by
  intro l
  induction l with
  | nil =>
    rintro p ⟨x, hx, _⟩
    simp at hx
  | cons a t ih =>
    rintro p ⟨x, hx, hxp⟩
    by_cases hex : ∃ y ∈ t, y ≤ p
    · obtain ⟨b, hb, hbp, hmax⟩ := ih p hex
      by_cases hab : a ≤ p
      · by_cases hab2 : a ≤ b
        · refine ⟨b, by simp [hb], hbp, ?_⟩
          intro b' hb' hb'p
          rcases List.mem_cons.mp hb' with h | h
          · omega
          · exact hmax b' h hb'p
        · refine ⟨a, by simp, hab, ?_⟩
          intro b' hb' hb'p
          rcases List.mem_cons.mp hb' with h | h
          · omega
          · have := hmax b' h hb'p
            omega
      · refine ⟨b, by simp [hb], hbp, ?_⟩
        intro b' hb' hb'p
        rcases List.mem_cons.mp hb' with h | h
        · omega
        · exact hmax b' h hb'p
    · have hxa : x = a := by
        rcases List.mem_cons.mp hx with h | h
        · exact h
        · exact absurd ⟨x, h, hxp⟩ hex
      refine ⟨a, by simp, hxa ▸ hxp, ?_⟩
      intro b' hb' hb'p
      rcases List.mem_cons.mp hb' with h | h
      · omega
      · exact absurd ⟨b', h, hb'p⟩ hex

theorem exists_base {st : SccState} (h0 : (0 : Nat) ∈ st.boundaries)
    (p : Nat) : ∃ b, isBase st b p := by
  obtain ⟨b, hb, hbp, hmax⟩ :=
    exists_max_le st.boundaries p ⟨0, h0, Nat.zero_le p⟩
  exact ⟨b, hb, hbp, hmax⟩

/-- The state transformation of a `VISIT` operation. -/
def visitSt (st : SccState) (w : Nat) : SccState :=
  { st with index := aset st.index w st.stack.length,
            stack := st.stack ++ [w],
            boundaries := st.stack.length :: st.boundaries }

theorem chain'_imp_mem {α : Type} {R S : α → α → Prop} :
    ∀ {l : List α}, l.Chain' R →
      (∀ a ∈ l, ∀ b ∈ l, R a b → S a b) → l.Chain' S := by
  intro l
  induction l with
  | nil => intro _ _; exact List.chain'_nil
  | cons x t ih =>
    intro hc h
    cases t with
    | nil => exact List.chain'_singleton x
    | cons y s =>
      rw [List.chain'_cons] at hc ⊢
      refine ⟨h x (by simp) y (by simp) hc.1, ?_⟩
      exact ih hc.2 (fun a ha b hb hr =>
        h a (List.mem_cons_of_mem _ ha) b (List.mem_cons_of_mem _ hb) hr)

theorem SccP_visit_lift {g : ObjectGraph} {st : SccState}
    {frames : List (Nat × List Nat)} {w : Nat}
    (hInv : SccInv g st frames (some w)) {u w' : Nat}
    (hune : ¬ u = w) (hw'ne : ¬ w' = w) (hP : SccP g st u w') :
    SccP g (visitSt st w) u w' := by
  obtain ⟨hd, hid, hb⟩ := hP
  refine ⟨?_, hid, ?_⟩
  · rw [show (visitSt st w).index = aset st.index w st.stack.length from rfl,
      alook_aset_ne _ _ hw'ne]
    exact hd
  · intro hu hw'' b hbmem
    have hus : u ∈ st.stack := by
      rcases (by simpa [visitSt] using hu : u ∈ st.stack ∨ u = w) with h | h
      · exact h
      · exact absurd h hune
    have hw's : w' ∈ st.stack := by
      rcases (by simpa [visitSt] using hw'' : w' ∈ st.stack ∨ w' = w)
        with h | h
      · exact h
      · exact absurd h hw'ne
    have hiu : idxD (visitSt st w) u = idxD st u := by
      rw [idxD, idxD,
        show (visitSt st w).index = aset st.index w st.stack.length from rfl,
        alook_aset_ne _ _ hune]
    have hiw' : idxD (visitSt st w) w' = idxD st w' := by
      rw [idxD, idxD,
        show (visitSt st w).index = aset st.index w st.stack.length from rfl,
        alook_aset_ne _ _ hw'ne]
    rw [hiu, hiw']
    rcases (by simpa [visitSt] using hbmem :
        b = st.stack.length ∨ b ∈ st.boundaries) with hbn | hbo
    · have : idxD st u < st.stack.length :=
        (live_at hInv.stackIdx hus).2.2
      omega
    · exact hb hus hw's b hbo

set_option maxHeartbeats 2000000 in
/-- Invariant preservation of the `VISIT` step. -/
theorem scc_step_visit {g : ObjectGraph} (hWF : WF g) {st : SccState}
    {frames : List (Nat × List Nat)} {w : Nat}
    (hInv : SccInv g st frames (some w)) :
    w ∈ g.vertices ∧
    SccInv g (visitSt st w) ((w, childL g w) :: frames) none := by
  obtain ⟨hund, hroot, hchild⟩ := hInv.leadC w rfl
  have hwV : w ∈ g.vertices := by
    cases frames with
    | nil => exact (hroot rfl).2.2
    | cons f1 fs =>
      exact childL_subset hWF
        (hInv.stackV f1.1 (hInv.framesStack f1 (by simp)))
        w (hchild f1 rfl)
  have hwns : ¬ w ∈ st.stack := by
    intro h
    have := (hInv.idxDom w).mpr (Or.inr h)
    rw [hund] at this
    simp at this
  have hwni : ¬ w ∈ st.identified := by
    intro h
    have := (hInv.idxDom w).mpr (Or.inl h)
    rw [hund] at this
    simp at this
  have hidx' : (visitSt st w).index = aset st.index w st.stack.length := rfl
  have hstack' : (visitSt st w).stack = st.stack ++ [w] := rfl
  have hbnd' : (visitSt st w).boundaries =
      st.stack.length :: st.boundaries := rfl
  have hSelf : alook (visitSt st w).index w = some st.stack.length := by
    rw [hidx']
    exact alook_aset_self _ _ _
  have hNe : ∀ v, ¬ v = w →
      alook (visitSt st w).index v = alook st.index v := by
    intro v hv
    rw [hidx']
    exact alook_aset_ne _ _ hv
  have hidxD_ne : ∀ v, ¬ v = w → idxD (visitSt st w) v = idxD st v := by
    intro v hv
    rw [idxD, idxD, hNe v hv]
  have hidxD_w : idxD (visitSt st w) w = st.stack.length := by
    rw [idxD, hSelf]
    rfl
  have hget_lt : ∀ i, i < st.stack.length →
      (visitSt st w).stack[i]? = st.stack[i]? := by
    intro i hi
    rw [hstack']
    exact List.getElem?_append_left hi
  have hget_n : (visitSt st w).stack[st.stack.length]? = some w := by
    rw [hstack']
    exact List.getElem?_concat_length _ _
  have hget_cases : ∀ (i v : Nat), (visitSt st w).stack[i]? = some v →
      (i < st.stack.length ∧ st.stack[i]? = some v) ∨
      (i = st.stack.length ∧ v = w) := by
    intro i v hiv
    by_cases hi : i < st.stack.length
    · left
      refine ⟨hi, ?_⟩
      rw [← hget_lt i hi]
      exact hiv
    · by_cases hin : i = st.stack.length
      · subst hin
        rw [hget_n] at hiv
        exact Or.inr ⟨rfl, (Option.some.inj hiv).symm⟩
      · exfalso
        have : (visitSt st w).stack[i]? = none := by
          apply List.getElem?_eq_none
          rw [hstack']
          simp
          omega
        rw [this] at hiv
        simp at hiv
  have hframeNe : ∀ f ∈ frames, ¬ f.1 = w := by
    intro f hf h
    exact hwns (h ▸ hInv.framesStack f hf)
  have hframePos : ∀ f ∈ frames, idxD st f.1 < st.stack.length := by
    intro f hf
    exact (live_at hInv.stackIdx (hInv.framesStack f hf)).2.2
  -- reachability to the new vertex from anything on the old stack
  have hreach_new : ∀ (i u : Nat), st.stack[i]? = some u →
      Reaches (children? g) u w := by
    intro i u hiu
    cases frames with
    | nil =>
      exfalso
      have hse : st.stack = [] := (hroot rfl).1
      rw [hse] at hiu
      simp at hiu
    | cons f1 fs =>
      have hv1s : f1.1 ∈ st.stack := hInv.framesStack f1 (by simp)
      obtain ⟨hlook1, hget1, hlt1⟩ := live_at hInv.stackIdx hv1s
      have hadj : Adj (children? g) f1.1 w :=
        (adj_iff_childL hWF (hInv.stackV f1.1 hv1s) w).mpr (hchild f1 rfl)
      have hiu_lt : i < st.stack.length := by
        rcases List.getElem?_eq_some.mp hiu with ⟨h, _⟩
        exact h
      have hru : Reaches (children? g) u f1.1 := by
        by_cases hip : i ≤ idxD st f1.1
        · exact hInv.reachUp i (idxD st f1.1) u f1.1 hip hiu hget1
        · have h0mem : (0 : Nat) ∈ st.boundaries :=
            List.mem_of_mem_getLast? (hInv.bndBot (by simp))
          obtain ⟨b, hbase⟩ := exists_base h0mem i
          have hble : b ≤ idxD st f1.1 := hInv.bndLe f1 rfl b hbase.1
          have hblt : b < st.stack.length := hInv.bndLt b hbase.1
          have hvb : st.stack[b]? = some st.stack[b] :=
            List.getElem?_eq_getElem hblt
          have h1 : Reaches (children? g) u st.stack[b] :=
            hInv.segReach i b u _ hbase hiu hvb
          have h2 : Reaches (children? g) st.stack[b] f1.1 :=
            hInv.reachUp b (idxD st f1.1) _ f1.1 hble hvb hget1
          exact h1.trans h2
      exact hru.tail hadj
  refine ⟨hwV, ?_⟩
  refine
    { stackV := ?_, identV := hInv.identV, stackNodup := ?_,
      stackIdx := ?_, idxDom := ?_, identNotStack := ?_, bndDec := ?_,
      bndLt := ?_, identFlat := hInv.identFlat,
      identNodup := hInv.identNodup, sccsExact := hInv.sccsExact,
      identClosed := hInv.identClosed, reachUp := ?_, segReach := ?_,
      framesStack := ?_, framesSuffix := ?_, framesDec := ?_,
      bndLe := ?_, bndGap := ?_, bndBot := ?_, framesBot := ?_,
      leadC := ?_, runEmpty := ?_, procFrames := ?_, procDone := ?_ }
  · intro v hv
    rcases (by simpa [visitSt] using hv : v ∈ st.stack ∨ v = w) with h | h
    · exact hInv.stackV v h
    · exact h ▸ hwV
  · rw [hstack', List.nodup_append]
    exact ⟨hInv.stackNodup, List.nodup_singleton w,
      fun a ha hb => hwns ((List.mem_singleton.mp hb) ▸ ha)⟩
  · intro i v hiv
    rcases hget_cases i v hiv with ⟨hi, hv⟩ | ⟨hi, hv⟩
    · have := hInv.stackIdx i v hv
      have hvw : ¬ v = w := by
        intro h
        exact hwns (h ▸ (List.mem_iff_getElem?.mpr ⟨i, hv⟩))
      rw [hNe v hvw]
      exact this
    · subst hi
      rw [hv, hSelf]
  · intro v
    by_cases hv : v = w
    · subst hv
      constructor
      · intro _
        refine Or.inr ?_
        rw [hstack']
        simp
      · intro _
        rw [hSelf]
        rfl
    · rw [hNe v hv, hInv.idxDom v]
      constructor
      · rintro (h | h)
        · exact Or.inl h
        · refine Or.inr ?_
          rw [hstack']
          simp [h]
      · rintro (h | h)
        · exact Or.inl h
        · rcases (by simpa [visitSt] using h : v ∈ st.stack ∨ v = w)
            with h' | h'
          · exact Or.inr h'
          · exact absurd h' hv
  · intro v hv
    intro hmem
    rcases (by simpa [visitSt] using hmem : v ∈ st.stack ∨ v = w)
      with h | h
    · exact hInv.identNotStack v hv h
    · exact hwni (h ▸ hv)
  · rw [hbnd', List.pairwise_cons]
    exact ⟨fun b hb => hInv.bndLt b hb, hInv.bndDec⟩
  · intro b hb
    rcases (by simpa [visitSt] using hb :
        b = st.stack.length ∨ b ∈ st.boundaries) with h | h
    · rw [hstack']
      simp
      omega
    · have := hInv.bndLt b h
      rw [hstack']
      simp
      omega
  · -- reachUp
    intro i j u v hij hiu hjv
    rcases hget_cases j v hjv with ⟨hj, hv⟩ | ⟨hj, hv⟩
    · have hi : i < st.stack.length := by omega
      rw [hget_lt i hi] at hiu
      exact hInv.reachUp i j u v hij hiu hv
    · subst hj
      rcases hget_cases i u hiu with ⟨hi, hu⟩ | ⟨hi, hu⟩
      · exact hv ▸ hreach_new i u hu
      · rw [hv, hu]
        exact Relation.ReflTransGen.refl
  · -- segReach
    intro p b u v hbase hpu hbv
    rcases hget_cases p u hpu with ⟨hp, hu⟩ | ⟨hp, hu⟩
    · have hbp : b ≤ p := hbase.2.1
      have hbs : b ∈ st.boundaries := by
        rcases (by simpa [visitSt] using hbase.1 :
            b = st.stack.length ∨ b ∈ st.boundaries) with h | h
        · omega
        · exact h
      have hbb : b < st.stack.length := by omega
      rw [hget_lt b hbb] at hbv
      refine hInv.segReach p b u v ⟨hbs, hbp, ?_⟩ hu hbv
      intro b' hb' hb'p
      refine hbase.2.2 b' ?_ hb'p
      rw [hbnd']
      simp [hb']
    · subst hp
      have hbn : b = st.stack.length := by
        have h1 : b ≤ st.stack.length := hbase.2.1
        have h2 : st.stack.length ≤ b := by
          refine hbase.2.2 st.stack.length ?_ (le_refl _)
          rw [hbnd']
          simp
        omega
      subst hbn
      rw [hget_n] at hbv
      rw [hu, ← Option.some.inj hbv]
      exact Relation.ReflTransGen.refl
  · -- framesStack
    intro f hf
    rcases List.mem_cons.mp hf with h | h
    · rw [h, hstack']
      simp
    · rw [hstack']
      exact List.mem_append_left _ (hInv.framesStack f h)
  · -- framesSuffix
    intro f hf
    rcases List.mem_cons.mp hf with h | h
    · refine ⟨[], ?_⟩
      rw [h]
      rfl
    · exact hInv.framesSuffix f h
  · -- framesDec
    rw [List.map_cons, List.pairwise_cons]
    have hmapeq : frames.map (fun f => idxD (visitSt st w) f.1) =
        frames.map (fun f => idxD st f.1) :=
      List.map_congr_left (fun f hf => hidxD_ne f.1 (hframeNe f hf))
    constructor
    · intro x hx
      rw [hmapeq] at hx
      rcases List.mem_map.mp hx with ⟨f, hf, rfl⟩
      rw [hidxD_w]
      exact hframePos f hf
    · rw [hmapeq]
      exact hInv.framesDec
  · -- bndLe
    intro f1 hf1 b hb
    have : f1 = (w, childL g w) := by
      simp at hf1
      exact hf1.symm
    rw [this]
    rw [hidxD_w]
    rcases (by simpa [visitSt] using hb :
        b = st.stack.length ∨ b ∈ st.boundaries) with h | h
    · omega
    · have := hInv.bndLt b h
      omega
  · -- bndGap
    cases frames with
    | nil => exact List.chain'_singleton _
    | cons f1 fs =>
      rw [List.chain'_cons]
      constructor
      · intro b hb
        rcases (by simpa [visitSt] using hb :
            b = st.stack.length ∨ b ∈ st.boundaries) with h | h
        · rw [hidxD_w]
          omega
        · have hle := hInv.bndLe f1 rfl b h
          rw [hidxD_ne f1.1 (hframeNe f1 (by simp))]
          omega
      · have hold := hInv.bndGap
        refine chain'_imp_mem hold ?_
        intro a ha b hb hr
        intro bd hbd
        rcases (by simpa [visitSt] using hbd :
            bd = st.stack.length ∨ bd ∈ st.boundaries) with h | h
        · rw [hidxD_ne a.1 (hframeNe a ha)]
          have := hframePos a ha
          omega
        · rw [hidxD_ne a.1 (hframeNe a ha),
            hidxD_ne b.1 (hframeNe b hb)]
          exact hr bd h
  · -- bndBot
    intro _
    rw [hbnd']
    cases hfr : frames with
    | nil =>
      have hse : st.stack = [] := (hroot hfr).1
      have hbe : st.boundaries = [] := (hroot hfr).2.1
      rw [hbe, hse]
      rfl
    | cons f1 fs =>
      have := hInv.bndBot (by rw [hfr]; simp)
      cases hbb : st.boundaries with
      | nil => rw [hbb] at this; simp at this
      | cons b bs =>
        rw [hbb] at this
        rw [List.getLast?_cons_cons]
        exact this
  · -- framesBot
    intro fn hfn
    cases hfr : frames with
    | nil =>
      rw [hfr] at hfn
      simp at hfn
      have hse : st.stack = [] := (hroot hfr).1
      rw [← hfn, hidxD_w, hse]
      rfl
    | cons f1 fs =>
      rw [hfr] at hfn
      rw [List.getLast?_cons_cons] at hfn
      have hfn_mem : fn ∈ frames := by
        rw [hfr]
        exact List.mem_of_mem_getLast? (Option.mem_def.mpr hfn)
      rw [hidxD_ne fn.1 (hframeNe fn hfn_mem)]
      refine hInv.framesBot fn ?_
      rw [hfr]
      exact hfn
  · intro w' h
    exact Option.noConfusion h
  · intro _ h
    exact List.noConfusion h
  · -- procFrames
    intro f hf pre hpre w' hw' hguard
    rcases List.mem_cons.mp hf with h | h
    · exfalso
      have hpre' : childL g w = pre ++ childL g w := by
        have := hpre
        rw [h] at this
        exact this
      have hpre0 : pre = [] := by
        have hlen := congrArg List.length hpre'
        rw [List.length_append] at hlen
        have : pre.length = 0 := by omega
        exact List.eq_nil_of_length_eq_zero this
      rw [hpre0] at hw'
      simp at hw'
    · by_cases hww' : w' = w
      · subst hww'
        have hfs : f.1 ∈ st.stack := hInv.framesStack f h
        refine ⟨by rw [hSelf]; rfl, ?_, ?_⟩
        · intro hfi
          exact absurd hfs (hInv.identNotStack f.1 hfi)
        · intro _ _ b hb
          rw [hidxD_w, hidxD_ne f.1 (hframeNe f h)]
          have hpos : idxD st f.1 < st.stack.length := hframePos f h
          rcases (by simpa [visitSt] using hb :
              b = st.stack.length ∨ b ∈ st.boundaries) with hh | hh
          · omega
          · have := hInv.bndLt b hh
            omega
      · have hP := hInv.procFrames f h pre hpre w' hw'
          (fun x hx => by
            rw [Option.some.inj hx] at hww'
            exact hww')
        exact SccP_visit_lift hInv (hframeNe f h) hww' hP
  · -- procDone
    intro u hu hnf w' hw' hguard
    have hune : ¬ u = w := by
      intro h
      exact (hnf (w, childL g w) (by simp)) h.symm
    rw [hNe u hune] at hu
    have hnf' : ∀ f ∈ frames, ¬ f.1 = u :=
      fun f hf => hnf f (List.mem_cons_of_mem _ hf)
    by_cases hww' : w' = w
    · subst hww'
      refine ⟨by rw [hSelf]; rfl, ?_, ?_⟩
      · intro hui
        exact absurd (hInv.identClosed u hui w' hw') hwni
      · intro hus _ b hb
        have hus' : u ∈ st.stack := by
          rcases (by simpa [visitSt] using hus : u ∈ st.stack ∨ u = w')
            with hh | hh
          · exact hh
          · exact absurd hh hune
        rw [hidxD_w, hidxD_ne u hune]
        have hpos : idxD st u < st.stack.length :=
          (live_at hInv.stackIdx hus').2.2
        rcases (by simpa [visitSt] using hb :
            b = st.stack.length ∨ b ∈ st.boundaries) with hh | hh
        · omega
        · have := hInv.bndLt b hh
          omega
    · have hP := hInv.procDone u hu hnf' w' hw'
        (fun x hx => by
          rw [Option.some.inj hx] at hww'
          exact hww')
      exact SccP_visit_lift hInv hune hww' hP

/-- Shared frame bookkeeping for the three `EDGE` transitions: the state
invariant fields that only see the frame vertices are transported from
`(v, e :: es) :: fs` to `(v, es) :: fs`. -/
theorem frames_shrink_aux {g : ObjectGraph} {st : SccState} {v e : Nat}
    {es : List Nat} {fs : List (Nat × List Nat)}
    (hInv : SccInv g st ((v, e :: es) :: fs) none) :
    (∀ f ∈ (v, es) :: fs, f.1 ∈ st.stack) ∧
    (∀ f ∈ (v, es) :: fs, ∃ pre, childL g f.1 = pre ++ f.2) ∧
    (((v, es) :: fs).map (fun f => idxD st f.1)).Pairwise (· > ·) ∧
    (((v, es) :: fs).Chain' (fun f f' => ∀ b ∈ st.boundaries,
      ¬ (idxD st f'.1 < b ∧ b < idxD st f.1))) ∧
    (∀ fn, ((v, es) :: fs).getLast? = some fn → idxD st fn.1 = 0) ∧
    e ∈ childL g v ∧
    (∃ pre, childL g v = pre ++ e :: es) := by
  obtain ⟨pre0, hpre0⟩ := hInv.framesSuffix (v, e :: es) (by simp)
  refine ⟨?_, ?_, ?_, ?_, ?_, ?_, ⟨pre0, hpre0⟩⟩
  · intro f hf
    rcases List.mem_cons.mp hf with h | h
    · rw [h]
      exact hInv.framesStack (v, e :: es) (by simp)
    · exact hInv.framesStack f (List.mem_cons_of_mem _ h)
  · intro f hf
    rcases List.mem_cons.mp hf with h | h
    · exact ⟨pre0 ++ [e], by rw [h, hpre0]; simp⟩
    · exact hInv.framesSuffix f (List.mem_cons_of_mem _ h)
  · have := hInv.framesDec
    rw [List.map_cons] at this ⊢
    exact this
  · have hold := hInv.bndGap
    cases fs with
    | nil => exact List.chain'_singleton _
    | cons f2 fs' =>
      rw [List.chain'_cons] at hold ⊢
      exact hold
  · intro fn hfn
    cases fs with
    | nil =>
      simp at hfn
      have := hInv.framesBot (v, e :: es) (by simp)
      rw [← hfn]
      exact this
    | cons f2 fs' =>
      rw [List.getLast?_cons_cons] at hfn
      refine hInv.framesBot fn ?_
      rw [List.getLast?_cons_cons]
      exact hfn
  · rw [hpre0]
    simp

/-- Invariant preservation of the `EDGE` step for an undiscovered target:
the edge moves to the processed prefix and a leading `VISIT` appears. -/
theorem scc_step_edge_unvisited {g : ObjectGraph} {st : SccState}
    {v e : Nat} {es : List Nat} {fs : List (Nat × List Nat)}
    (hInv : SccInv g st ((v, e :: es) :: fs) none)
    (he : (alook st.index e).isSome = false) :
    SccInv g st ((v, es) :: fs) (some e) := by
  obtain ⟨hstk, hsfx, hdec, hgap, hbot, hechild, pre0, hpre0⟩ :=
    frames_shrink_aux hInv
  refine
    { stackV := hInv.stackV, identV := hInv.identV,
      stackNodup := hInv.stackNodup, stackIdx := hInv.stackIdx,
      idxDom := hInv.idxDom, identNotStack := hInv.identNotStack,
      bndDec := hInv.bndDec, bndLt := hInv.bndLt,
      identFlat := hInv.identFlat, identNodup := hInv.identNodup,
      sccsExact := hInv.sccsExact, identClosed := hInv.identClosed,
      reachUp := hInv.reachUp, segReach := hInv.segReach,
      framesStack := hstk, framesSuffix := hsfx, framesDec := hdec,
      bndLe := ?_, bndGap := hgap, bndBot := ?_, framesBot := hbot,
      leadC := ?_, runEmpty := ?_, procFrames := ?_, procDone := ?_ }
  · intro f1 hf1 b hb
    simp at hf1
    rw [← hf1]
    exact hInv.bndLe (v, e :: es) rfl b hb
  · intro _
    exact hInv.bndBot (by simp)
  · intro w hw
    refine ⟨(Option.some.inj hw) ▸ he, ?_, ?_⟩
    · intro h
      exact absurd h (by simp)
    · intro f1 hf1
      simp at hf1
      rw [← hf1]
      exact (Option.some.inj hw) ▸ hechild
  · intro h
    exact Option.noConfusion h
  · intro f hf pre hpre w hw hguard
    rcases List.mem_cons.mp hf with h | h
    · have hfv : f = (v, es) := h
      subst hfv
      have hpre_eq : pre = pre0 ++ [e] := by
        have h1 : pre ++ es = (pre0 ++ [e]) ++ es := by
          rw [List.append_assoc]
          simp only [List.singleton_append]
          rw [← hpre, ← hpre0]
        exact List.append_cancel_right h1
      rw [hpre_eq] at hw
      rcases List.mem_append.mp hw with h' | h'
      · exact hInv.procFrames (v, e :: es) (by simp) pre0 hpre0 w h'
          (fun x hx => Option.noConfusion hx)
      · exfalso
        rw [List.mem_singleton.mp h'] at hguard
        exact hguard e rfl rfl
    · exact hInv.procFrames f (List.mem_cons_of_mem _ h) pre hpre w hw
        (fun x hx => Option.noConfusion hx)
  · intro u hu hnf w hw hguard
    refine hInv.procDone u hu ?_ w hw (fun x hx => Option.noConfusion hx)
    intro f hf
    rcases List.mem_cons.mp hf with h | h
    · rw [h]
      exact hnf (v, es) (by simp)
    · exact hnf f (List.mem_cons_of_mem _ h)

/-- `SccP` survives shrinking the boundary stack to a subset (the other
state components unchanged). -/
theorem SccP_shrink {g : ObjectGraph} {st : SccState} {bs : List Nat}
    (hsub : ∀ b ∈ bs, b ∈ st.boundaries) {u w : Nat}
    (hP : SccP g st u w) :
    SccP g { st with boundaries := bs } u w :=
  ⟨hP.1, hP.2.1, fun hu hw b hb => hP.2.2 hu hw b (hsub b hb)⟩

/-- Invariant preservation of the `EDGE` step for a live (discovered,
unidentified) target: the boundary stack is popped down to the target's
segment, merging the segments on the cycle just closed. -/
theorem scc_step_edge_live {g : ObjectGraph} (hWF : WF g) {st : SccState}
    {v e : Nat} {es : List Nat} {fs : List (Nat × List Nat)}
    (hInv : SccInv g st ((v, e :: es) :: fs) none)
    (hds : (alook st.index e).isSome = true) (hni : ¬ e ∈ st.identified) :
    ∃ bs, alook st.index e = some (idxD st e) ∧
      popWhileGt (idxD st e) st.boundaries = some bs ∧
      SccInv g { st with boundaries := bs } ((v, es) :: fs) none := by
  obtain ⟨hstk, hsfx, hdec, hgap, hbot, hechild, pre0, hpre0⟩ :=
    frames_shrink_aux hInv
  have hve : e ∈ st.stack := by
    rcases (hInv.idxDom e).mp hds with h | h
    · exact absurd h hni
    · exact h
  obtain ⟨helook, hepos, helt⟩ := live_at hInv.stackIdx hve
  have hvstk : v ∈ st.stack := hInv.framesStack (v, e :: es) (by simp)
  obtain ⟨hvlook, hvpos, hvlt⟩ := live_at hInv.stackIdx hvstk
  have hbot0 : st.boundaries.getLast? = some 0 := hInv.bndBot (by simp)
  have h0mem : (0 : Nat) ∈ st.boundaries :=
    List.mem_of_mem_getLast? (Option.mem_def.mpr hbot0)
  obtain ⟨hd, tl, heq, ⟨dr, hdecomp, hdr⟩, hdle⟩ :=
    @popWhileGt_spec (idxD st e) st.boundaries ⟨0, h0mem, Nat.zero_le _⟩
  have hbsmem : ∀ b ∈ hd :: tl, b ∈ st.boundaries := by
    intro b hb
    rw [hdecomp]
    exact List.mem_append_right dr hb
  have hbspair : (hd :: tl).Pairwise (· > ·) := by
    refine hInv.bndDec.sublist ?_
    rw [hdecomp]
    exact List.sublist_append_right dr (hd :: tl)
  have hble : ∀ b ∈ hd :: tl, b ≤ idxD st e := by
    intro b hb
    rcases List.mem_cons.mp hb with h | h
    · omega
    · have := (List.pairwise_cons.mp hbspair).1 b h
      omega
  refine ⟨hd :: tl, helook, heq, ?_⟩
  refine
    { stackV := hInv.stackV, identV := hInv.identV,
      stackNodup := hInv.stackNodup, stackIdx := hInv.stackIdx,
      idxDom := hInv.idxDom, identNotStack := hInv.identNotStack,
      bndDec := hbspair,
      bndLt := fun b hb => hInv.bndLt b (hbsmem b hb),
      identFlat := hInv.identFlat, identNodup := hInv.identNodup,
      sccsExact := hInv.sccsExact, identClosed := hInv.identClosed,
      reachUp := hInv.reachUp, segReach := ?_,
      framesStack := hstk, framesSuffix := hsfx, framesDec := hdec,
      bndLe := ?_, bndGap := ?_, bndBot := ?_, framesBot := hbot,
      leadC := ?_, runEmpty := ?_, procFrames := ?_, procDone := ?_ }
  · intro p b u u' hbase hp hb
    obtain ⟨hbmem', hbp, hbmax⟩ := hbase
    obtain ⟨β, hβmem, hβp, hβmax⟩ := exists_base h0mem p
    by_cases hβle : β ≤ idxD st e
    · have hβbs : β ∈ hd :: tl := by
        rw [hdecomp] at hβmem
        rcases List.mem_append.mp hβmem with h | h
        · exact absurd hβle (by have := hdr β h; omega)
        · exact h
      have hbβ : b = β := by
        have h1 : b ≤ β := hβmax b (hbsmem b hbmem') hbp
        have h2 : β ≤ b := hbmax β hβbs hβp
        omega
      refine hInv.segReach p β u u' ⟨hβmem, hβp, hβmax⟩ hp ?_
      rw [← hbβ]
      exact hb
    · have hβgt : idxD st e < β := by omega
      have hhdp : hd ≤ p := by omega
      have hbhd : b = hd := by
        have h1 : hd ≤ b := hbmax hd (by simp) hhdp
        rcases List.mem_cons.mp hbmem' with h | h
        · omega
        · have := (List.pairwise_cons.mp hbspair).1 b h
          omega
      obtain ⟨vβ, hvβ⟩ : ∃ x, st.stack[β]? = some x :=
        ⟨st.stack.get ⟨β, hInv.bndLt β hβmem⟩, List.getElem?_eq_getElem _⟩
      have R1 : Reaches (children? g) u vβ :=
        hInv.segReach p β u vβ ⟨hβmem, hβp, hβmax⟩ hp hvβ
      have hβv : β ≤ idxD st v :=
        hInv.bndLe (v, e :: es) rfl β hβmem
      have R2 : Reaches (children? g) vβ v :=
        hInv.reachUp β (idxD st v) vβ v hβv hvβ hvpos
      have R3 : Adj (children? g) v e :=
        ⟨childL g v, children_eq_childL hWF (hInv.stackV v hvstk), hechild⟩
      have hhdbase : isBase st hd (idxD st e) := by
        refine ⟨hbsmem hd (by simp), hdle, ?_⟩
        intro b' hb' hb'le
        rw [hdecomp] at hb'
        rcases List.mem_append.mp hb' with h | h
        · exact absurd hb'le (by have := hdr b' h; omega)
        · rcases List.mem_cons.mp h with h' | h'
          · omega
          · have := (List.pairwise_cons.mp hbspair).1 b' h'
            omega
      have R4 : Reaches (children? g) e u' := by
        refine hInv.segReach (idxD st e) hd e u' hhdbase hepos ?_
        rw [← hbhd]
        exact hb
      exact R1.trans (R2.trans (Relation.ReflTransGen.head R3 R4))
  · intro f1 hf1 b hb
    simp at hf1
    rw [← hf1]
    exact hInv.bndLe (v, e :: es) rfl b (hbsmem b hb)
  · exact hgap.imp (fun a b h bd hbd => h bd (hbsmem bd hbd))
  · intro _
    have : (dr ++ hd :: tl).getLast? = (hd :: tl).getLast? :=
      List.getLast?_append_cons dr hd tl
    rw [← this, ← hdecomp]
    exact hbot0
  · intro w hw
    exact Option.noConfusion hw
  · intro _ h
    exact List.noConfusion h
  · intro f hf pre hpre w hw hguard
    rcases List.mem_cons.mp hf with h | h
    · have hfv : f = (v, es) := h
      subst hfv
      have hpre_eq : pre = pre0 ++ [e] := by
        have h1 : pre ++ es = (pre0 ++ [e]) ++ es := by
          rw [List.append_assoc]
          simp only [List.singleton_append]
          rw [← hpre, ← hpre0]
        exact List.append_cancel_right h1
      rw [hpre_eq] at hw
      rcases List.mem_append.mp hw with h' | h'
      · exact SccP_shrink hbsmem
          (hInv.procFrames (v, e :: es) (by simp) pre0 hpre0 w h'
            (fun x hx => Option.noConfusion hx))
      · rw [List.mem_singleton.mp h']
        refine ⟨hds, ?_, ?_⟩
        · intro hvid
          exact absurd hvstk (hInv.identNotStack v hvid)
        · intro _ _ b hb
          have hb1 := hble b hb
          intro hcon
          have : idxD { st with boundaries := hd :: tl } e =
              idxD st e := rfl
          omega
    · exact SccP_shrink hbsmem
        (hInv.procFrames f (List.mem_cons_of_mem _ h) pre hpre w hw
          (fun x hx => Option.noConfusion hx))
  · intro u hu hnf w hw hguard
    refine SccP_shrink hbsmem
      (hInv.procDone u hu ?_ w hw (fun x hx => Option.noConfusion hx))
    intro f hf
    rcases List.mem_cons.mp hf with h | h
    · rw [h]
      exact hnf (v, es) (by simp)
    · exact hnf f (List.mem_cons_of_mem _ h)

/-- Invariant preservation of the `EDGE` step for an identified target:
nothing changes except the edge moving to the processed prefix. -/
theorem scc_step_edge_ident {g : ObjectGraph} {st : SccState}
    {v e : Nat} {es : List Nat} {fs : List (Nat × List Nat)}
    (hInv : SccInv g st ((v, e :: es) :: fs) none)
    (hei : e ∈ st.identified) :
    SccInv g st ((v, es) :: fs) none := by
  obtain ⟨hstk, hsfx, hdec, hgap, hbot, hechild, pre0, hpre0⟩ :=
    frames_shrink_aux hInv
  refine
    { stackV := hInv.stackV, identV := hInv.identV,
      stackNodup := hInv.stackNodup, stackIdx := hInv.stackIdx,
      idxDom := hInv.idxDom, identNotStack := hInv.identNotStack,
      bndDec := hInv.bndDec, bndLt := hInv.bndLt,
      identFlat := hInv.identFlat, identNodup := hInv.identNodup,
      sccsExact := hInv.sccsExact, identClosed := hInv.identClosed,
      reachUp := hInv.reachUp, segReach := hInv.segReach,
      framesStack := hstk, framesSuffix := hsfx, framesDec := hdec,
      bndLe := ?_, bndGap := hgap, bndBot := ?_, framesBot := hbot,
      leadC := ?_, runEmpty := ?_, procFrames := ?_, procDone := ?_ }
  · intro f1 hf1 b hb
    simp at hf1
    rw [← hf1]
    exact hInv.bndLe (v, e :: es) rfl b hb
  · intro _
    exact hInv.bndBot (by simp)
  · intro w hw
    exact Option.noConfusion hw
  · intro _ h
    exact List.noConfusion h
  · intro f hf pre hpre w hw hguard
    rcases List.mem_cons.mp hf with h | h
    · have hfv : f = (v, es) := h
      subst hfv
      have hpre_eq : pre = pre0 ++ [e] := by
        have h1 : pre ++ es = (pre0 ++ [e]) ++ es := by
          rw [List.append_assoc]
          simp only [List.singleton_append]
          rw [← hpre, ← hpre0]
        exact List.append_cancel_right h1
      rw [hpre_eq] at hw
      rcases List.mem_append.mp hw with h' | h'
      · exact hInv.procFrames (v, e :: es) (by simp) pre0 hpre0 w h'
          (fun x hx => Option.noConfusion hx)
      · rw [List.mem_singleton.mp h']
        refine ⟨(hInv.idxDom e).mpr (Or.inl hei), fun _ => hei, ?_⟩
        intro _ hes
        exact absurd hes (hInv.identNotStack e hei)
    · exact hInv.procFrames f (List.mem_cons_of_mem _ h) pre hpre w hw
        (fun x hx => Option.noConfusion hx)
  · intro u hu hnf w hw hguard
    refine hInv.procDone u hu ?_ w hw (fun x hx => Option.noConfusion hx)
    intro f hf
    rcases List.mem_cons.mp hf with h | h
    · rw [h]
      exact hnf (v, es) (by simp)
    · exact hnf f (List.mem_cons_of_mem _ h)

/-- Invariant preservation of the non-finalising `POSTVISIT` step: the
active vertex's segment extends below it, so its frame is simply popped. -/
theorem scc_step_post_skip {g : ObjectGraph} {st : SccState}
    {v : Nat} {fs : List (Nat × List Nat)}
    (hInv : SccInv g st ((v, []) :: fs) none)
    {b0 : Nat} (hb0 : st.boundaries.head? = some b0)
    (hne : ¬ b0 = idxD st v) :
    SccInv g st fs none := by
  have hb0mem : b0 ∈ st.boundaries :=
    List.mem_of_mem_head? (Option.mem_def.mpr hb0)
  have hb0v : b0 ≤ idxD st v := hInv.bndLe (v, []) rfl b0 hb0mem
  have hb0lt : b0 < idxD st v := by omega
  have hbhead : ∀ bd ∈ st.boundaries, bd ≤ b0 := by
    intro bd hbd
    cases hbnd : st.boundaries with
    | nil => rw [hbnd] at hbd; simp at hbd
    | cons c cs =>
      have hcb : c = b0 := by
        rw [hbnd] at hb0
        exact Option.some.inj hb0
      rw [hbnd] at hbd
      rcases List.mem_cons.mp hbd with h | h
      · omega
      · have hp := hInv.bndDec
        rw [hbnd, List.pairwise_cons] at hp
        have := hp.1 bd h
        omega
  refine
    { stackV := hInv.stackV, identV := hInv.identV,
      stackNodup := hInv.stackNodup, stackIdx := hInv.stackIdx,
      idxDom := hInv.idxDom, identNotStack := hInv.identNotStack,
      bndDec := hInv.bndDec, bndLt := hInv.bndLt,
      identFlat := hInv.identFlat, identNodup := hInv.identNodup,
      sccsExact := hInv.sccsExact, identClosed := hInv.identClosed,
      reachUp := hInv.reachUp, segReach := hInv.segReach,
      framesStack := fun f hf =>
        hInv.framesStack f (List.mem_cons_of_mem _ hf),
      framesSuffix := fun f hf =>
        hInv.framesSuffix f (List.mem_cons_of_mem _ hf),
      framesDec := ?_, bndLe := ?_, bndGap := ?_, bndBot := ?_,
      framesBot := ?_, leadC := ?_, runEmpty := ?_,
      procFrames := fun f hf pre hpre w hw _ =>
        hInv.procFrames f (List.mem_cons_of_mem _ hf) pre hpre w hw
          (fun x hx => Option.noConfusion hx),
      procDone := ?_ }
  · have h := hInv.framesDec
    rw [List.map_cons] at h
    exact (List.pairwise_cons.mp h).2
  · intro f2 hf2 bd hbd
    cases fs with
    | nil => simp at hf2
    | cons f2' fs' =>
      have hf2' : f2' = f2 := Option.some.inj hf2
      have hgap := hInv.bndGap
      rw [List.chain'_cons] at hgap
      have hg : ¬ (idxD st f2.1 < bd ∧ bd < idxD st v) :=
        hf2' ▸ hgap.1 bd hbd
      have hbdb0 := hbhead bd hbd
      by_cases hlt : idxD st f2.1 < bd
      · exact absurd ⟨hlt, by omega⟩ hg
      · omega
  · cases fs with
    | nil => exact List.chain'_nil
    | cons f2 fs' =>
      have hgap := hInv.bndGap
      rw [List.chain'_cons] at hgap
      exact hgap.2
  · intro _
    exact hInv.bndBot (by simp)
  · intro fn hfn
    cases fs with
    | nil => simp at hfn
    | cons f2 fs' =>
      refine hInv.framesBot fn ?_
      rw [List.getLast?_cons_cons]
      exact hfn
  · intro w hw
    exact Option.noConfusion hw
  · intro _ hfs
    exfalso
    subst hfs
    have h0 : idxD st v = 0 := hInv.framesBot (v, []) (by simp)
    omega
  · intro u hu hnf w hw _
    by_cases huv : u = v
    · subst huv
      exact hInv.procFrames (u, []) (by simp) (childL g u) (by simp) w hw
        (fun x hx => Option.noConfusion hx)
    · refine hInv.procDone u hu ?_ w hw (fun x hx => Option.noConfusion hx)
      intro f hf
      rcases List.mem_cons.mp hf with h | h
      · rw [h]
        exact fun hc => huv hc.symm
      · exact hnf f h

/-- Membership in a stack prefix, characterised by discovery position. -/
theorem mem_take_pos {st : SccState}
    (hIdx : ∀ (i v : Nat), st.stack[i]? = some v → alook st.index v = some i)
    (iv x : Nat) :
    x ∈ st.stack.take iv ↔ (x ∈ st.stack ∧ idxD st x < iv) := by
  constructor
  · intro hx
    rcases List.mem_iff_getElem?.mp hx with ⟨i, hi⟩
    have hilt : i < iv := by
      rcases List.getElem?_eq_some.mp hi with ⟨hl, _⟩
      rw [List.length_take] at hl
      omega
    rw [List.getElem?_take_of_lt hilt] at hi
    have hlook := hIdx i x hi
    have hid : idxD st x = i := by rw [idxD, hlook]; rfl
    exact ⟨List.mem_iff_getElem?.mpr ⟨i, hi⟩, by omega⟩
  · rintro ⟨hx, hlt⟩
    obtain ⟨_, hpos, _⟩ := live_at hIdx hx
    exact List.mem_iff_getElem?.mpr
      ⟨idxD st x, by rw [List.getElem?_take_of_lt hlt]; exact hpos⟩

/-- Membership in a stack suffix, characterised by discovery position. -/
theorem mem_drop_pos {st : SccState}
    (hIdx : ∀ (i v : Nat), st.stack[i]? = some v → alook st.index v = some i)
    (iv x : Nat) :
    x ∈ st.stack.drop iv ↔ (x ∈ st.stack ∧ iv ≤ idxD st x) := by
  constructor
  · intro hx
    rcases List.mem_iff_getElem?.mp hx with ⟨j, hj⟩
    rw [List.getElem?_drop] at hj
    have hlook := hIdx (iv + j) x hj
    have hid : idxD st x = iv + j := by rw [idxD, hlook]; rfl
    exact ⟨List.mem_iff_getElem?.mpr ⟨iv + j, hj⟩, by omega⟩
  · rintro ⟨hx, hle⟩
    obtain ⟨_, hpos, _⟩ := live_at hIdx hx
    refine List.mem_iff_getElem?.mpr ⟨idxD st x - iv, ?_⟩
    rw [List.getElem?_drop]
    have harith : iv + (idxD st x - iv) = idxD st x := by omega
    rw [harith]
    exact hpos

/-- The state transformation of a finalising `POSTVISIT` at stack
position `iv`: the segment above `iv` becomes a finished component. -/
def finSt (st : SccState) (iv : Nat) : SccState :=
  { st with sccs := st.sccs ++ [st.stack.drop iv],
            identified := st.identified ++ st.stack.drop iv,
            stack := st.stack.take iv,
            boundaries := st.boundaries.tail }

/-- `SccP` is transported across a finalising `POSTVISIT` whose boundary
is the top one. -/
theorem SccP_fin {g : ObjectGraph} {st : SccState}
    {frames : List (Nat × List Nat)} {lead : Option Nat}
    (hInv : SccInv g st frames lead) {iv : Nat}
    (hivb : iv ∈ st.boundaries) {u w : Nat} (hP : SccP g st u w) :
    SccP g (finSt st iv) u w := by
  obtain ⟨hd, hid, hb⟩ := hP
  refine ⟨hd, ?_, ?_⟩
  · intro hui
    rcases List.mem_append.mp hui with h | h
    · exact List.mem_append_left _ (hid h)
    · have hus : u ∈ st.stack := List.drop_subset _ _ h
      have huge : iv ≤ idxD st u :=
        ((mem_drop_pos hInv.stackIdx iv u).mp h).2
      rcases (hInv.idxDom w).mp hd with hw | hw
      · exact List.mem_append_left _ hw
      · have hnb := hb hus hw iv hivb
        have hwge : iv ≤ idxD st w := by
          by_contra hc
          exact hnb ⟨by omega, huge⟩
        exact List.mem_append_right _
          ((mem_drop_pos hInv.stackIdx iv w).mpr ⟨hw, hwge⟩)
  · intro hu hw b hbmem
    have hus : u ∈ st.stack := List.take_subset _ _ hu
    have hws : w ∈ st.stack := List.take_subset _ _ hw
    have hbold : b ∈ st.boundaries := List.mem_of_mem_tail hbmem
    exact hb hus hws b hbold

set_option maxHeartbeats 2000000 in
/-- Invariant preservation of the finalising `POSTVISIT` step: when the
active vertex sits exactly at the top boundary, the stack segment above it
is an exact strongly connected component and moves to the output list. -/
theorem scc_step_post_final {g : ObjectGraph} (hWF : WF g) {st : SccState}
    {v : Nat} {fs : List (Nat × List Nat)}
    (hInv : SccInv g st ((v, []) :: fs) none)
    {iv : Nat} (hiv : alook st.index v = some iv)
    (hb0 : st.boundaries.head? = some iv) :
    SccInv g (finSt st iv) fs none := by
  have hvstk : v ∈ st.stack := hInv.framesStack (v, []) (by simp)
  obtain ⟨hvlook, hvpos0, hvlt0⟩ := live_at hInv.stackIdx hvstk
  have hivd : iv = idxD st v := Option.some.inj (hiv.symm.trans hvlook)
  have hvpos : st.stack[iv]? = some v := by rw [hivd]; exact hvpos0
  have hvlt : iv < st.stack.length := by rw [hivd]; exact hvlt0
  obtain ⟨bt, hbnd⟩ : ∃ bt, st.boundaries = iv :: bt := by
    cases h : st.boundaries with
    | nil => rw [h] at hb0; exact Option.noConfusion hb0
    | cons c cs =>
      rw [h] at hb0
      exact ⟨cs, by rw [← Option.some.inj hb0]⟩
  have hivb : iv ∈ st.boundaries := by rw [hbnd]; simp
  have htail_lt : ∀ b ∈ bt, b < iv := by
    intro b hb
    have hp := hInv.bndDec
    rw [hbnd, List.pairwise_cons] at hp
    exact hp.1 b hb
  have hball : ∀ b ∈ st.boundaries, b ≤ iv := by
    intro b hb
    rw [hbnd] at hb
    rcases List.mem_cons.mp hb with h | h
    · omega
    · have := htail_lt b h
      omega
  have hfsl : ∀ f ∈ fs, idxD st f.1 < iv := by
    intro f hf
    have hp := hInv.framesDec
    rw [List.map_cons, List.pairwise_cons] at hp
    have h1 : idxD st v > idxD st f.1 :=
      hp.1 (idxD st f.1) (List.mem_map_of_mem _ hf)
    omega
  have hvS : v ∈ st.stack.drop iv :=
    (mem_drop_pos hInv.stackIdx iv v).mpr ⟨hvstk, by omega⟩
  have hSccP : ∀ u ∈ st.stack.drop iv, ∀ w ∈ childL g u,
      SccP g st u w := by
    intro u hu w hw
    have hus : u ∈ st.stack := List.drop_subset _ _ hu
    have huge : iv ≤ idxD st u :=
      ((mem_drop_pos hInv.stackIdx iv u).mp hu).2
    by_cases huv : u = v
    · subst huv
      exact hInv.procFrames (u, []) (by simp) (childL g u) (by simp) w hw
        (fun x hx => Option.noConfusion hx)
    · refine hInv.procDone u ((hInv.idxDom u).mpr (Or.inr hus)) ?_ w hw
        (fun x hx => Option.noConfusion hx)
      intro f hf
      rcases List.mem_cons.mp hf with h | h
      · rw [h]
        exact fun hc => huv hc.symm
      · intro hc
        have := hfsl f h
        rw [hc] at this
        omega
  have hStep : ∀ u w, (u ∈ st.identified ∨ u ∈ st.stack.drop iv) →
      w ∈ childL g u → (w ∈ st.identified ∨ w ∈ st.stack.drop iv) := by
    intro u w hu hw
    rcases hu with h | h
    · exact Or.inl (hInv.identClosed u h w hw)
    · have hP := hSccP u h w hw
      have huge : iv ≤ idxD st u :=
        ((mem_drop_pos hInv.stackIdx iv u).mp h).2
      rcases (hInv.idxDom w).mp hP.1 with hwid | hws
      · exact Or.inl hwid
      · have hnb := hP.2.2 (List.drop_subset _ _ h) hws iv hivb
        have hwge : iv ≤ idxD st w := by
          by_contra hc
          exact hnb ⟨by omega, huge⟩
        exact Or.inr ((mem_drop_pos hInv.stackIdx iv w).mpr ⟨hws, hwge⟩)
  have hReachSet : ∀ x, Reaches (children? g) v x →
      (x ∈ st.identified ∨ x ∈ st.stack.drop iv) := by
    intro x hx
    induction hx with
    | refl => exact Or.inr hvS
    | tail hab hAdj ih =>
      rename_i b c
      obtain ⟨cs, hcs, hc⟩ := hAdj
      have hbV : b ∈ g.vertices := by
        rcases ih with h | h
        · exact hInv.identV b h
        · exact hInv.stackV b (List.drop_subset _ _ h)
      have hcl : cs = childL g b := by
        have hc2 := children_eq_childL hWF hbV
        rw [hcs] at hc2
        exact Option.some.inj hc2
      exact hStep b c ih (hcl ▸ hc)
  have hIdPath : ∀ x y, x ∈ st.identified → Reaches (children? g) x y →
      y ∈ st.identified := by
    intro x y hx hxy
    induction hxy with
    | refl => exact hx
    | tail hab hAdj ih =>
      rename_i b c
      obtain ⟨cs, hcs, hc⟩ := hAdj
      have hbV : b ∈ g.vertices := hInv.identV b ih
      have hcl : cs = childL g b := by
        have hc2 := children_eq_childL hWF hbV
        rw [hcs] at hc2
        exact Option.some.inj hc2
      exact hInv.identClosed b ih c (hcl ▸ hc)
  have hMut : ∀ x ∈ st.stack.drop iv,
      Reaches (children? g) v x ∧ Reaches (children? g) x v := by
    intro x hx
    obtain ⟨hxs, hxge⟩ := (mem_drop_pos hInv.stackIdx iv x).mp hx
    obtain ⟨_, hxpos, _⟩ := live_at hInv.stackIdx hxs
    constructor
    · exact hInv.reachUp iv (idxD st x) v x hxge hvpos hxpos
    · refine hInv.segReach (idxD st x) iv x v ⟨hivb, hxge, ?_⟩ hxpos hvpos
      intro b' hb' _
      exact hball b' hb'
  have hSCC : ∀ x, x ∈ st.stack.drop iv ↔
      (Reaches (children? g) v x ∧ Reaches (children? g) x v) := by
    intro x
    constructor
    · exact hMut x
    · rintro ⟨hvx, hxv⟩
      rcases hReachSet x hvx with h | h
      · exact absurd hvstk (hInv.identNotStack v (hIdPath x v h hxv))
      · exact h
  have hTlen : (st.stack.take iv).length = iv := by
    rw [List.length_take]
    omega
  have hbfin : (finSt st iv).boundaries = bt := by
    show st.boundaries.tail = bt
    rw [hbnd]
    rfl
  have hsplit : ∀ x : Nat, x ∈ st.stack ↔
      x ∈ st.stack.take iv ∨ x ∈ st.stack.drop iv := by
    intro x
    constructor
    · intro hx
      by_cases h : idxD st x < iv
      · exact Or.inl ((mem_take_pos hInv.stackIdx iv x).mpr ⟨hx, h⟩)
      · exact Or.inr
          ((mem_drop_pos hInv.stackIdx iv x).mpr ⟨hx, by omega⟩)
    · intro hx
      rcases hx with h | h
      · exact List.take_subset _ _ h
      · exact List.drop_subset _ _ h
  refine
    { stackV := fun x hx => hInv.stackV x (List.take_subset _ _ hx),
      identV := ?_,
      stackNodup := hInv.stackNodup.sublist (List.take_sublist _ _),
      stackIdx := ?_, idxDom := ?_, identNotStack := ?_,
      bndDec := ?_, bndLt := ?_, identFlat := ?_, identNodup := ?_,
      sccsExact := ?_, identClosed := ?_, reachUp := ?_, segReach := ?_,
      framesStack := ?_,
      framesSuffix := fun f hf =>
        hInv.framesSuffix f (List.mem_cons_of_mem _ hf),
      framesDec := ?_, bndLe := ?_, bndGap := ?_, bndBot := ?_,
      framesBot := ?_, leadC := ?_, runEmpty := ?_,
      procFrames := ?_, procDone := ?_ }
  · intro x hx
    rcases List.mem_append.mp hx with h | h
    · exact hInv.identV x h
    · exact hInv.stackV x (List.drop_subset _ _ h)
  · intro i x hx
    have hx' : (st.stack.take iv)[i]? = some x := hx
    have hilt : i < iv := by
      rcases List.getElem?_eq_some.mp hx' with ⟨hl, _⟩
      rw [List.length_take] at hl
      omega
    rw [List.getElem?_take_of_lt hilt] at hx'
    exact hInv.stackIdx i x hx'
  · intro x
    constructor
    · intro hx
      rcases (hInv.idxDom x).mp hx with h | h
      · exact Or.inl (List.mem_append_left _ h)
      · rcases (hsplit x).mp h with h' | h'
        · exact Or.inr h'
        · exact Or.inl (List.mem_append_right _ h')
    · intro hx
      refine (hInv.idxDom x).mpr ?_
      rcases hx with h | h
      · rcases List.mem_append.mp h with h' | h'
        · exact Or.inl h'
        · exact Or.inr (List.drop_subset _ _ h')
      · exact Or.inr (List.take_subset _ _ h)
  · intro x hx hxT
    rcases List.mem_append.mp hx with h | h
    · exact hInv.identNotStack x h (List.take_subset _ _ hxT)
    · have h1 := ((mem_drop_pos hInv.stackIdx iv x).mp h).2
      have h2 := ((mem_take_pos hInv.stackIdx iv x).mp hxT).2
      omega
  · rw [hbfin]
    have hp := hInv.bndDec
    rw [hbnd, List.pairwise_cons] at hp
    exact hp.2
  · intro b hb
    rw [hbfin] at hb
    have := htail_lt b hb
    show b < (st.stack.take iv).length
    rw [hTlen]
    omega
  · show st.identified ++ st.stack.drop iv =
      (st.sccs ++ [st.stack.drop iv]).flatten
    rw [List.flatten_append, ← hInv.identFlat]
    simp
  · show (st.identified ++ st.stack.drop iv).Nodup
    refine List.Nodup.append hInv.identNodup
      (hInv.stackNodup.sublist (List.drop_sublist _ _)) ?_
    intro x hx hx'
    exact hInv.identNotStack x hx (List.drop_subset _ _ hx')
  · intro c hc
    rcases List.mem_append.mp hc with h | h
    · exact hInv.sccsExact c h
    · have hcS : c = st.stack.drop iv := List.mem_singleton.mp h
      subst hcS
      refine ⟨List.ne_nil_of_mem hvS, ?_⟩
      intro u hu w
      obtain ⟨hvu, huv⟩ := hMut u hu
      constructor
      · intro hw
        obtain ⟨hvw, hwv⟩ := hMut w hw
        exact ⟨huv.trans hvw, hwv.trans hvu⟩
      · rintro ⟨huw, hwu⟩
        exact (hSCC w).mpr ⟨hvu.trans huw, hwu.trans huv⟩
  · intro u hu w hw
    rcases List.mem_append.mp hu with h | h
    · exact List.mem_append_left _ (hInv.identClosed u h w hw)
    · rcases hStep u w (Or.inr h) hw with h' | h'
      · exact List.mem_append_left _ h'
      · exact List.mem_append_right _ h'
  · intro i j u u' hij hi hj
    have hi' : (st.stack.take iv)[i]? = some u := hi
    have hj' : (st.stack.take iv)[j]? = some u' := hj
    have hjlt : j < iv := by
      rcases List.getElem?_eq_some.mp hj' with ⟨hl, _⟩
      rw [List.length_take] at hl
      omega
    have hilt : i < iv := by omega
    rw [List.getElem?_take_of_lt hilt] at hi'
    rw [List.getElem?_take_of_lt hjlt] at hj'
    exact hInv.reachUp i j u u' hij hi' hj'
  · intro p b u u' hbase hp hb
    obtain ⟨hbm, hbp, hbmax⟩ := hbase
    have hp' : (st.stack.take iv)[p]? = some u := hp
    have hb' : (st.stack.take iv)[b]? = some u' := hb
    have hplt : p < iv := by
      rcases List.getElem?_eq_some.mp hp' with ⟨hl, _⟩
      rw [List.length_take] at hl
      omega
    have hblt : b < iv := by omega
    rw [List.getElem?_take_of_lt hplt] at hp'
    rw [List.getElem?_take_of_lt hblt] at hb'
    have hbm' : b ∈ bt := by rw [hbfin] at hbm; exact hbm
    refine hInv.segReach p b u u' ⟨?_, hbp, ?_⟩ hp' hb'
    · rw [hbnd]
      exact List.mem_cons_of_mem _ hbm'
    · intro b' hb'' hb'p
      rw [hbnd] at hb''
      rcases List.mem_cons.mp hb'' with h | h
      · omega
      · exact hbmax b' (by rw [hbfin]; exact h) hb'p
  · intro f hf
    have h1 : f.1 ∈ st.stack :=
      hInv.framesStack f (List.mem_cons_of_mem _ hf)
    have h2 : idxD st f.1 < iv := hfsl f hf
    exact (mem_take_pos hInv.stackIdx iv f.1).mpr ⟨h1, h2⟩
  · have h := hInv.framesDec
    rw [List.map_cons, List.pairwise_cons] at h
    exact h.2
  · intro f2 hf2 b hb
    rw [hbfin] at hb
    cases fs with
    | nil => simp at hf2
    | cons f2' fs' =>
      have hf2' : f2' = f2 := Option.some.inj hf2
      have hgap := hInv.bndGap
      rw [List.chain'_cons] at hgap
      have hg : ¬ (idxD st f2.1 < b ∧ b < idxD st v) :=
        hf2' ▸ hgap.1 b (by rw [hbnd]; exact List.mem_cons_of_mem _ hb)
      have hblt : b < iv := htail_lt b hb
      show b ≤ idxD st f2.1
      by_cases hlt : idxD st f2.1 < b
      · exact absurd ⟨hlt, by omega⟩ hg
      · omega
  · cases fs with
    | nil => exact List.chain'_nil
    | cons f2 fs' =>
      have hgap := hInv.bndGap
      rw [List.chain'_cons] at hgap
      refine hgap.2.imp ?_
      intro a b h bd hbd
      rw [hbfin] at hbd
      exact h bd (by rw [hbnd]; exact List.mem_cons_of_mem _ hbd)
  · intro hfs
    have h0 : st.boundaries.getLast? = some 0 := hInv.bndBot (by simp)
    cases fs with
    | nil => exact absurd rfl hfs
    | cons f2 fs' =>
      have hfn :=
        List.getLast?_eq_getLast (f2 :: fs') (by simp)
      have hidx0 : idxD st ((f2 :: fs').getLast (by simp)).1 = 0 := by
        refine hInv.framesBot _ ?_
        rw [List.getLast?_cons_cons]
        exact hfn
      have hmem : (f2 :: fs').getLast (by simp) ∈ f2 :: fs' :=
        List.getLast_mem _
      have hlt0 := hfsl _ hmem
      rw [hbfin]
      rw [hbnd] at h0
      cases bt with
      | nil =>
        simp at h0
        exact absurd h0 (by omega)
      | cons b1 bt' =>
        rw [List.getLast?_cons_cons] at h0
        exact h0
  · intro fn hfn
    cases fs with
    | nil => simp at hfn
    | cons f2 fs' =>
      show idxD st fn.1 = 0
      refine hInv.framesBot fn ?_
      rw [List.getLast?_cons_cons]
      exact hfn
  · intro w hw
    exact Option.noConfusion hw
  · intro _ hfs
    subst hfs
    have hiv0 : idxD st v = 0 := hInv.framesBot (v, []) (by simp)
    have hiv0' : iv = 0 := by omega
    constructor
    · show st.stack.take iv = []
      rw [hiv0']
      simp
    · rw [hbfin]
      cases hbt : bt with
      | nil => rfl
      | cons b1 bt' =>
        have := htail_lt b1 (by rw [hbt]; simp)
        exact absurd this (by omega)
  · intro f hf pre hpre w hw _
    exact SccP_fin hInv hivb
      (hInv.procFrames f (List.mem_cons_of_mem _ hf) pre hpre w hw
        (fun x hx => Option.noConfusion hx))
  · intro u hu hnf w hw _
    by_cases huv : u = v
    · subst huv
      exact SccP_fin hInv hivb
        (hInv.procFrames (u, []) (by simp) (childL g u) (by simp) w hw
          (fun x hx => Option.noConfusion hx))
    · refine SccP_fin hInv hivb
        (hInv.procDone u hu ?_ w hw (fun x hx => Option.noConfusion hx))
      intro f hf
      rcases List.mem_cons.mp hf with h | h
      · rw [h]
        exact fun hc => huv hc.symm
      · exact hnf f h

theorem opW_pos (o : SccOp) : 1 ≤ opW o := by
  cases o <;> decide

theorem sum_map_opW_edge (l : List Nat) :
    ((l.map (fun u => (SccOp.EDGE, u))).map (fun p => opW p.1)).sum =
    2 * l.length := by
  induction l with
  | nil => rfl
  | cons x t ih =>
    rw [List.map_cons, List.map_cons, List.sum_cons, ih, List.length_cons]
    show 2 + 2 * t.length = 2 * (t.length + 1)
    omega

/-- The machine potential strictly drops across a `VISIT` step. -/
theorem sccPhi_visit_lt {g : ObjectGraph} (hWF : WF g) {st : SccState}
    {w : Nat} (hwV : w ∈ g.vertices)
    (hwu : (alook st.index w).isSome = false)
    (rest : List (SccOp × Nat)) :
    sccPhi g (visitSt st w)
      (((childL g w).map (fun u => (SccOp.EDGE, u))) ++
        (SccOp.POSTVISIT, w) :: rest) <
    sccPhi g st ((SccOp.VISIT, w) :: rest) := by
  have hlen := childL_len_le hWF hwV
  have hcount : (g.vertices.filter
      (fun v => !(alook st.index v).isSome)).length =
      1 + (g.vertices.filter
        (fun v => !(alook (visitSt st w).index v).isSome)).length :=
    length_filter_undisc_aset g.vertices st.index w st.stack.length hwV
      hWF.1 hwu
  unfold sccPhi
  rw [List.map_append, List.sum_append, sum_map_opW_edge,
    List.map_cons, List.sum_cons, List.map_cons, List.sum_cons]
  show 2 * (childL g w).length +
      (1 + (rest.map (fun p => opW p.1)).sum) +
      (g.vertices.filter
        (fun v => !(alook (visitSt st w).index v).isSome)).length *
        (2 * (allOut g).length + 2) <
    1 + (rest.map (fun p => opW p.1)).sum +
      (g.vertices.filter
        (fun v => !(alook st.index v).isSome)).length *
        (2 * (allOut g).length + 2)
  rw [hcount, Nat.add_mul, Nat.one_mul]
  omega

/-- The machine potential strictly drops when the leading operation is
replaced by a cheaper one (discovery map unchanged). -/
theorem sccPhi_step_lt (g : ObjectGraph) (st st' : SccState)
    (hidx : st'.index = st.index) (o o' : SccOp × Nat)
    (rest : List (SccOp × Nat)) (h : opW o'.1 < opW o.1) :
    sccPhi g st' (o' :: rest) < sccPhi g st (o :: rest) := by
  unfold sccPhi
  rw [hidx, List.map_cons, List.sum_cons, List.map_cons, List.sum_cons]
  omega

/-- The machine potential strictly drops when the leading operation is
consumed (discovery map unchanged). -/
theorem sccPhi_tail_lt (g : ObjectGraph) (st st' : SccState)
    (hidx : st'.index = st.index) (o : SccOp × Nat)
    (rest : List (SccOp × Nat)) :
    sccPhi g st' rest < sccPhi g st (o :: rest) := by
  unfold sccPhi
  rw [hidx, List.map_cons, List.sum_cons]
  have := opW_pos o.1
  omega

theorem alook_aset_mono {m : List (Nat × Nat)} {k p x : Nat}
    (h : (alook m x).isSome = true) :
    (alook (aset m k p) x).isSome = true := by
  by_cases hxk : x = k
  · subst hxk
    rw [alook_aset_self]
    rfl
  · rw [alook_aset_ne _ _ hxk]
    exact h

/-- Unfolding of the inner loop at a `VISIT` operation. -/
theorem sccLoop_visit_eq (g : ObjectGraph) (n : Nat) (st : SccState)
    (v : Nat) (rest : List (SccOp × Nat)) :
    sccLoop g (n + 1) st ((SccOp.VISIT, v) :: rest) = (do
      let cs ← children? g v
      sccLoop g n (visitSt st v)
        ((cs.map (fun w => (SccOp.EDGE, w))) ++
          (SccOp.POSTVISIT, v) :: rest)) := rfl

/-- Unfolding of the inner loop at an `EDGE` operation. -/
theorem sccLoop_edge_eq (g : ObjectGraph) (n : Nat) (st : SccState)
    (e : Nat) (rest : List (SccOp × Nat)) :
    sccLoop g (n + 1) st ((SccOp.EDGE, e) :: rest) =
      if (alook st.index e).isSome = false then
        sccLoop g n st ((SccOp.VISIT, e) :: rest)
      else if e ∈ st.identified then
        sccLoop g n st rest
      else (do
        let iv ← alook st.index e
        let bs ← popWhileGt iv st.boundaries
        sccLoop g n { st with boundaries := bs } rest) := rfl

/-- Unfolding of the inner loop at a `POSTVISIT` operation. -/
theorem sccLoop_post_eq (g : ObjectGraph) (n : Nat) (st : SccState)
    (v : Nat) (rest : List (SccOp × Nat)) :
    sccLoop g (n + 1) st ((SccOp.POSTVISIT, v) :: rest) = (do
      let iv ← alook st.index v
      let b ← st.boundaries.head?
      if b = iv then sccLoop g n (finSt st iv) rest
      else sccLoop g n st rest) := rfl

set_option maxHeartbeats 4000000 in
/-- Soundness of the inner machine loop: from an invariant state with
fuel above the potential, the loop terminates in an invariant state with
no pending frames, discovery only growing, and the lead vertex
discovered. -/
theorem sccLoop_sound {g : ObjectGraph} (hWF : WF g) :
    ∀ (fuel : Nat) (st : SccState) (frames : List (Nat × List Nat))
      (lead : Option Nat), SccInv g st frames lead →
      sccPhi g st (leadList lead ++ renderF frames) < fuel →
      ∃ st', sccLoop g fuel st (leadList lead ++ renderF frames) =
          some st' ∧
        SccInv g st' [] none ∧
        (∀ x, (alook st.index x).isSome = true →
          (alook st'.index x).isSome = true) ∧
        (∀ x, lead = some x → (alook st'.index x).isSome = true) := by
  intro fuel
  induction fuel with
  | zero =>
    intro st frames lead hInv hPhi
    exact absurd hPhi (by omega)
  | succ n ih =>
    intro st frames lead hInv hPhi
    cases lead with
    | some w =>
      obtain ⟨hwV, hInv'⟩ := scc_step_visit hWF hInv
      have hcs : children? g w = some (childL g w) :=
        children_eq_childL hWF hwV
      have hwu : (alook st.index w).isSome = false := (hInv.leadC w rfl).1
      have hPhi0 : sccPhi g st ((SccOp.VISIT, w) :: renderF frames) <
          n + 1 := hPhi
      have hlt := sccPhi_visit_lt hWF hwV hwu (renderF frames)
      have hPhi' : sccPhi g (visitSt st w)
          (leadList none ++ renderF ((w, childL g w) :: frames)) < n := by
        have h3 : sccPhi g (visitSt st w)
            (leadList none ++ renderF ((w, childL g w) :: frames)) =
            sccPhi g (visitSt st w)
              (((childL g w).map (fun u => (SccOp.EDGE, u))) ++
                (SccOp.POSTVISIT, w) :: renderF frames) := rfl
        omega
      obtain ⟨st', heq, hfin, hmono, _⟩ :=
        ih (visitSt st w) ((w, childL g w) :: frames) none hInv' hPhi'
      refine ⟨st', ?_, hfin, ?_, ?_⟩
      · show sccLoop g (n + 1) st
          ((SccOp.VISIT, w) :: renderF frames) = some st'
        rw [sccLoop_visit_eq, hcs]
        exact heq
      · intro x hx
        exact hmono x (alook_aset_mono hx)
      · intro x hx
        have hxw : w = x := Option.some.inj hx
        subst hxw
        refine hmono w ?_
        show (alook (aset st.index w st.stack.length) w).isSome = true
        rw [alook_aset_self]
        rfl
    | none =>
      cases frames with
      | nil =>
        exact ⟨st, rfl, hInv, fun x h => h,
          fun x h => Option.noConfusion h⟩
      | cons f fs =>
        obtain ⟨v, es⟩ := f
        cases es with
        | cons e es' =>
          have hPhi0 : sccPhi g st
              ((SccOp.EDGE, e) :: renderF ((v, es') :: fs)) < n + 1 := hPhi
          by_cases hde : (alook st.index e).isSome = false
          · have hInv' := scc_step_edge_unvisited hInv hde
            have hlt := sccPhi_step_lt g st st rfl
              (SccOp.EDGE, e) (SccOp.VISIT, e)
              (renderF ((v, es') :: fs)) (by show (1 : Nat) < 2; omega)
            have hPhi' : sccPhi g st
                (leadList (some e) ++ renderF ((v, es') :: fs)) < n := by
              have h3 : sccPhi g st
                  (leadList (some e) ++ renderF ((v, es') :: fs)) =
                  sccPhi g st
                    ((SccOp.VISIT, e) :: renderF ((v, es') :: fs)) := rfl
              omega
            obtain ⟨st', heq, hfin, hmono, _⟩ :=
              ih st ((v, es') :: fs) (some e) hInv' hPhi'
            refine ⟨st', ?_, hfin, hmono,
              fun x h => Option.noConfusion h⟩
            show sccLoop g (n + 1) st
                ((SccOp.EDGE, e) :: renderF ((v, es') :: fs)) = some st'
            rw [sccLoop_edge_eq, if_pos hde]
            exact heq
          · have hds : (alook st.index e).isSome = true := by
              cases h : (alook st.index e).isSome with
              | false => exact absurd h hde
              | true => rfl
            by_cases hei : e ∈ st.identified
            · have hInv' := scc_step_edge_ident hInv hei
              have hlt := sccPhi_tail_lt g st st rfl
                (SccOp.EDGE, e) (renderF ((v, es') :: fs))
              have hPhi' : sccPhi g st
                  (leadList none ++ renderF ((v, es') :: fs)) < n := by
                have h3 : sccPhi g st
                    (leadList none ++ renderF ((v, es') :: fs)) =
                    sccPhi g st (renderF ((v, es') :: fs)) := rfl
                omega
              obtain ⟨st', heq, hfin, hmono, _⟩ :=
                ih st ((v, es') :: fs) none hInv' hPhi'
              refine ⟨st', ?_, hfin, hmono,
                fun x h => Option.noConfusion h⟩
              show sccLoop g (n + 1) st
                  ((SccOp.EDGE, e) :: renderF ((v, es') :: fs)) = some st'
              rw [sccLoop_edge_eq, if_neg (by simp [hds]), if_pos hei]
              exact heq
            · obtain ⟨bs, helook, hpop, hInv'⟩ :=
                scc_step_edge_live hWF hInv hds hei
              have hlt := sccPhi_tail_lt g st { st with boundaries := bs } rfl
                (SccOp.EDGE, e) (renderF ((v, es') :: fs))
              have hPhi' : sccPhi g { st with boundaries := bs }
                  (leadList none ++ renderF ((v, es') :: fs)) < n := by
                have h3 : sccPhi g { st with boundaries := bs }
                    (leadList none ++ renderF ((v, es') :: fs)) =
                    sccPhi g { st with boundaries := bs }
                      (renderF ((v, es') :: fs)) := rfl
                omega
              obtain ⟨st', heq, hfin, hmono, _⟩ :=
                ih { st with boundaries := bs } ((v, es') :: fs) none
                  hInv' hPhi'
              refine ⟨st', ?_, hfin, hmono,
                fun x h => Option.noConfusion h⟩
              show sccLoop g (n + 1) st
                  ((SccOp.EDGE, e) :: renderF ((v, es') :: fs)) = some st'
              rw [sccLoop_edge_eq, if_neg (by simp [hds]), if_neg hei,
                helook]
              show (popWhileGt (idxD st e) st.boundaries).bind
                  (fun bs2 => sccLoop g n { st with boundaries := bs2 }
                    (renderF ((v, es') :: fs))) = some st'
              rw [hpop]
              exact heq
        | nil =>
          have hPhi0 : sccPhi g st
              ((SccOp.POSTVISIT, v) :: renderF fs) < n + 1 := hPhi
          have hvstk : v ∈ st.stack := hInv.framesStack (v, []) (by simp)
          obtain ⟨hvlook, _, _⟩ := live_at hInv.stackIdx hvstk
          have hbne : st.boundaries ≠ [] := by
            intro hb
            have h0 := hInv.bndBot (by simp)
            rw [hb] at h0
            exact Option.noConfusion h0
          obtain ⟨b0, bt, hbnd⟩ : ∃ b0 bt, st.boundaries = b0 :: bt := by
            cases h : st.boundaries with
            | nil => exact absurd h hbne
            | cons c cs => exact ⟨c, cs, rfl⟩
          have hbhead : st.boundaries.head? = some b0 := by
            rw [hbnd]
            rfl
          by_cases hc : b0 = idxD st v
          · have hInv' := scc_step_post_final hWF hInv hvlook
              (by rw [hbhead, hc])
            have hlt := sccPhi_tail_lt g st (finSt st (idxD st v)) rfl
              (SccOp.POSTVISIT, v) (renderF fs)
            have hPhi' : sccPhi g (finSt st (idxD st v))
                (leadList none ++ renderF fs) < n := by
              have h3 : sccPhi g (finSt st (idxD st v))
                  (leadList none ++ renderF fs) =
                  sccPhi g (finSt st (idxD st v)) (renderF fs) := rfl
              omega
            obtain ⟨st', heq, hfin, hmono, _⟩ :=
              ih (finSt st (idxD st v)) fs none hInv' hPhi'
            refine ⟨st', ?_, hfin, hmono,
              fun x h => Option.noConfusion h⟩
            show sccLoop g (n + 1) st
                ((SccOp.POSTVISIT, v) :: renderF fs) = some st'
            rw [sccLoop_post_eq, hvlook]
            show (st.boundaries.head?).bind
                (fun b => if b = idxD st v then
                    sccLoop g n (finSt st (idxD st v)) (renderF fs)
                  else sccLoop g n st (renderF fs)) = some st'
            rw [hbhead]
            show (if b0 = idxD st v then
                sccLoop g n (finSt st (idxD st v)) (renderF fs)
              else sccLoop g n st (renderF fs)) = some st'
            rw [if_pos hc]
            exact heq
          · have hInv' := scc_step_post_skip hInv hbhead hc
            have hlt := sccPhi_tail_lt g st st rfl
              (SccOp.POSTVISIT, v) (renderF fs)
            have hPhi' : sccPhi g st (leadList none ++ renderF fs) <
                n := by
              have h3 : sccPhi g st (leadList none ++ renderF fs) =
                  sccPhi g st (renderF fs) := rfl
              omega
            obtain ⟨st', heq, hfin, hmono, _⟩ :=
              ih st fs none hInv' hPhi'
            refine ⟨st', ?_, hfin, hmono,
              fun x h => Option.noConfusion h⟩
            show sccLoop g (n + 1) st
                ((SccOp.POSTVISIT, v) :: renderF fs) = some st'
            rw [sccLoop_post_eq, hvlook]
            show (st.boundaries.head?).bind
                (fun b => if b = idxD st v then
                    sccLoop g n (finSt st (idxD st v)) (renderF fs)
                  else sccLoop g n st (renderF fs)) = some st'
            rw [hbhead]
            show (if b0 = idxD st v then
                sccLoop g n (finSt st (idxD st v)) (renderF fs)
              else sccLoop g n st (renderF fs)) = some st'
            rw [if_neg hc]
            exact heq

/-- The invariant holds in the machine's initial state. -/
theorem sccInv_init (g : ObjectGraph) :
    SccInv g ⟨[], [], [], [], []⟩ [] none := by
  refine
    { stackV := by simp, identV := by simp, stackNodup := List.nodup_nil,
      stackIdx := fun i v h => by simp at h,
      idxDom := fun v => by
        constructor
        · intro h
          simp [alook] at h
        · intro h
          rcases h with h | h <;> simp at h,
      identNotStack := by simp,
      bndDec := List.Pairwise.nil, bndLt := by simp,
      identFlat := rfl, identNodup := List.nodup_nil,
      sccsExact := by simp, identClosed := by simp,
      reachUp := fun i j u v _ h => by simp at h,
      segReach := fun p b u v hb => by
        exact absurd hb.1 (by simp),
      framesStack := by simp, framesSuffix := by simp,
      framesDec := List.Pairwise.nil,
      bndLe := fun f1 h => by simp at h,
      bndGap := List.chain'_nil,
      bndBot := fun h => absurd rfl h,
      framesBot := fun fn h => by simp at h,
      leadC := fun w h => Option.noConfusion h,
      runEmpty := fun _ _ => ⟨rfl, rfl⟩,
      procFrames := by simp,
      procDone := fun u hu => by simp [alook] at hu }

/-- An undiscovered vertex can be promoted to the lead of a fresh run. -/
theorem sccInv_lead {g : ObjectGraph} {st : SccState}
    (hInv : SccInv g st [] none) {v : Nat} (hvV : v ∈ g.vertices)
    (hvu : (alook st.index v).isSome = false) :
    SccInv g st [] (some v) := by
  obtain ⟨hst, hbd⟩ := hInv.runEmpty rfl rfl
  refine
    { stackV := hInv.stackV, identV := hInv.identV,
      stackNodup := hInv.stackNodup, stackIdx := hInv.stackIdx,
      idxDom := hInv.idxDom, identNotStack := hInv.identNotStack,
      bndDec := hInv.bndDec, bndLt := hInv.bndLt,
      identFlat := hInv.identFlat, identNodup := hInv.identNodup,
      sccsExact := hInv.sccsExact, identClosed := hInv.identClosed,
      reachUp := hInv.reachUp, segReach := hInv.segReach,
      framesStack := by simp, framesSuffix := by simp,
      framesDec := List.Pairwise.nil,
      bndLe := fun f1 h => by simp at h,
      bndGap := List.chain'_nil,
      bndBot := fun h => absurd rfl h,
      framesBot := fun fn h => by simp at h,
      leadC := ?_,
      runEmpty := fun h => Option.noConfusion h,
      procFrames := by simp,
      procDone := ?_ }
  · intro w hw
    have hwv : v = w := Option.some.inj hw
    subst hwv
    exact ⟨hvu, fun _ => ⟨hst, hbd, hvV⟩, fun f1 h => by simp at h⟩
  · intro u hu hnf w hw hguard
    exact hInv.procDone u hu (by simp) w hw
      (fun x hx => Option.noConfusion hx)

/-- The starting potential of a run fits below the chosen fuel. -/
theorem sccPhi_start_lt (g : ObjectGraph) (st : SccState) (v : Nat) :
    sccPhi g st [(SccOp.VISIT, v)] < sccFuel g := by
  have hU : (g.vertices.filter
      (fun u => !(alook st.index u).isSome)).length ≤
      g.vertices.length := List.length_filter_le _ _
  have hmul := Nat.mul_le_mul_right (2 * (allOut g).length + 2) hU
  unfold sccPhi sccFuel
  rw [List.map_cons, List.map_nil, List.sum_cons, List.sum_nil]
  show 1 + 0 + _ < _
  omega

/-- Soundness of the outer `for v in self.vertices:` loop. -/
theorem sccOuter_sound {g : ObjectGraph} (hWF : WF g) :
    ∀ (V : List Nat) (st : SccState),
      (∀ v ∈ V, v ∈ g.vertices) → SccInv g st [] none →
      ∃ st', sccOuter g (sccFuel g) V st = some st' ∧
        SccInv g st' [] none ∧
        (∀ x, (alook st.index x).isSome = true →
          (alook st'.index x).isSome = true) ∧
        (∀ v ∈ V, (alook st'.index v).isSome = true) := by
  intro V
  induction V with
  | nil =>
    intro st _ hInv
    exact ⟨st, rfl, hInv, fun x h => h, by simp⟩
  | cons v vs ih =>
    intro st hV hInv
    by_cases hd : (alook st.index v).isSome = true
    · obtain ⟨st', heq, hInv', hmono, hall⟩ :=
        ih st (fun u hu => hV u (List.mem_cons_of_mem _ hu)) hInv
      refine ⟨st', ?_, hInv', hmono, ?_⟩
      · show (if (alook st.index v).isSome = true then
            sccOuter g (sccFuel g) vs st
          else do
            let st1 ← sccLoop g (sccFuel g) st [(SccOp.VISIT, v)]
            sccOuter g (sccFuel g) vs st1) = some st'
        rw [if_pos hd]
        exact heq
      · intro u hu
        rcases List.mem_cons.mp hu with h | h
        · rw [h]
          exact hmono v hd
        · exact hall u h
    · have hvu : (alook st.index v).isSome = false := by
        cases h : (alook st.index v).isSome with
        | false => rfl
        | true => exact absurd h hd
      have hlead : SccInv g st [] (some v) :=
        sccInv_lead hInv (hV v (by simp)) hvu
      have hPhi : sccPhi g st (leadList (some v) ++ renderF []) <
          sccFuel g := sccPhi_start_lt g st v
      obtain ⟨st1, heq1, hInv1, hmono1, hleadd⟩ :=
        sccLoop_sound hWF (sccFuel g) st [] (some v) hlead hPhi
      obtain ⟨st', heq2, hInv', hmono2, hall⟩ :=
        ih st1 (fun u hu => hV u (List.mem_cons_of_mem _ hu)) hInv1
      refine ⟨st', ?_, hInv',
        fun x hx => hmono2 x (hmono1 x hx), ?_⟩
      · show (if (alook st.index v).isSome = true then
            sccOuter g (sccFuel g) vs st
          else do
            let st1 ← sccLoop g (sccFuel g) st [(SccOp.VISIT, v)]
            sccOuter g (sccFuel g) vs st1) = some st'
        rw [if_neg (by rw [hvu]; exact fun h => Bool.noConfusion h)]
        have heq1' : sccLoop g (sccFuel g) st [(SccOp.VISIT, v)] =
            some st1 := heq1
        rw [heq1']
        exact heq2
      · intro u hu
        rcases List.mem_cons.mp hu with h | h
        · rw [h]
          exact hmono2 v (hleadd v rfl)
        · exact hall u h

/-- On a duplicate-free collection of graph vertices, the subgraph
construction succeeds and keeps exactly that vertex list. -/
theorem csov_vertices {g : ObjectGraph} (hWF : WF g) {c : List Nat}
    (hnd : c.Nodup) (hsub : ∀ x ∈ c, x ∈ g.vertices) :
    ∃ h, complete_subgraph_on_vertices g c = some h ∧ h.vertices = c := by
  obtain ⟨h, hh, hv, _⟩ := csov_char g c hWF hsub
  exact ⟨h, hh, by rw [hv, initVerts_of_nodup c hnd]⟩

/-- The final `map(self.complete_subgraph_on_vertices, sccs)` succeeds
and returns subgraphs carrying exactly the component vertex lists. -/
theorem mapM_csov_sound {g : ObjectGraph} (hWF : WF g) :
    ∀ L : List (List Nat),
      (∀ c ∈ L, c.Nodup ∧ ∀ x ∈ c, x ∈ g.vertices) →
      ∃ gs, L.mapM (complete_subgraph_on_vertices g) = some gs ∧
        gs.map (fun h => h.vertices) = L := by
  intro L
  induction L with
  | nil => exact fun _ => ⟨[], rfl, rfl⟩
  | cons c t ih =>
    intro hL
    obtain ⟨hnd, hsub⟩ := hL c (by simp)
    obtain ⟨h, hh, hv⟩ := csov_vertices hWF hnd hsub
    obtain ⟨gs, hgs, hmap⟩ :=
      ih (fun c' hc' => hL c' (List.mem_cons_of_mem _ hc'))
    refine ⟨h :: gs, ?_, ?_⟩
    · rw [List.mapM_cons, hh, hgs]
      rfl
    · rw [List.map_cons, hv, hmap]

/-- C1: on every well-formed graph, `strongly_connected_components`
succeeds and returns subgraphs whose vertex sets are non-empty and
pairwise disjoint and together contain every vertex of the graph exactly
once; two vertices of the same returned component always reach each other
via children steps, and whenever a vertex of one returned component and a
vertex of another reach each other both ways, the two components are the
same one — so for genuinely different components at least one direction
of reachability fails. -/
theorem scc_partition (g : ObjectGraph) (hWF : WF g) :
    ∃ gs : List ObjectGraph,
      strongly_connected_components g = some gs ∧
      (∀ h ∈ gs, h.vertices ≠ []) ∧
      (gs.map (fun h => h.vertices)).flatten.Nodup ∧
      (∀ v, v ∈ (gs.map (fun h => h.vertices)).flatten ↔
        v ∈ g.vertices) ∧
      (∀ h ∈ gs, ∀ u ∈ h.vertices, ∀ w ∈ h.vertices,
        Reaches (children? g) u w ∧ Reaches (children? g) w u) ∧
      (∀ h1 ∈ gs, ∀ h2 ∈ gs, ∀ u ∈ h1.vertices, ∀ w ∈ h2.vertices,
        Reaches (children? g) u w → Reaches (children? g) w u →
        h1.vertices = h2.vertices) := by
  obtain ⟨st', houter, hInv, _, hall⟩ :=
    sccOuter_sound hWF g.vertices ⟨[], [], [], [], []⟩
      (fun v hv => hv) (sccInv_init g)
  obtain ⟨hst, _⟩ := hInv.runEmpty rfl rfl
  have hflat : st'.identified = st'.sccs.flatten := hInv.identFlat
  have hndflat : st'.sccs.flatten.Nodup := hflat ▸ hInv.identNodup
  have hsub : ∀ c ∈ st'.sccs, ∀ x ∈ c, x ∈ g.vertices := by
    intro c hc x hx
    refine hInv.identV x ?_
    rw [hflat]
    exact List.mem_flatten.mpr ⟨c, hc, hx⟩
  have hnd : ∀ c ∈ st'.sccs, c.Nodup :=
    fun c hc => (List.nodup_flatten.mp hndflat).1 c hc
  obtain ⟨gs, hmapm, hmap⟩ := mapM_csov_sound hWF st'.sccs
    (fun c hc => ⟨hnd c hc, hsub c hc⟩)
  have hvin : ∀ h ∈ gs, h.vertices ∈ st'.sccs := by
    intro h hh
    rw [← hmap]
    exact List.mem_map_of_mem _ hh
  refine ⟨gs, ?_, ?_, ?_, ?_, ?_, ?_⟩
  · show (sccOuter g (sccFuel g) g.vertices ⟨[], [], [], [], []⟩).bind
        (fun st => st.sccs.mapM (complete_subgraph_on_vertices g)) =
      some gs
    rw [houter]
    exact hmapm
  · exact fun h hh => (hInv.sccsExact _ (hvin h hh)).1
  · rw [hmap]
    exact hndflat
  · intro v
    rw [hmap]
    constructor
    · intro hv
      exact hInv.identV v (by rw [hflat]; exact hv)
    · intro hv
      have hd := hall v hv
      rcases (hInv.idxDom v).mp hd with h | h
      · rw [← hflat]
        exact h
      · rw [hst] at h
        simp at h
  · intro h hh u hu w hw
    exact ((hInv.sccsExact _ (hvin h hh)).2 u hu w).mp hw
  · intro h1 hh1 h2 hh2 u hu w hw hr1 hr2
    have hw1 : w ∈ h1.vertices :=
      ((hInv.sccsExact _ (hvin h1 hh1)).2 u hu w).mpr ⟨hr1, hr2⟩
    by_contra hne
    have hpd : st'.sccs.Pairwise List.Disjoint :=
      (List.nodup_flatten.mp hndflat).2
    have hdisj : List.Disjoint h1.vertices h2.vertices :=
      hpd.forall (fun a b hd => hd.symm) (hvin h1 hh1) (hvin h2 hh2) hne
    exact hdisj hw1 hw

/-- Witness: the SCC partition theorem applied to the concrete graph
`exA`, whose well-formedness is established by evaluation. -/
theorem scc_partition_witness :
    WF exA ∧
    (∃ gs : List ObjectGraph,
      strongly_connected_components exA = some gs ∧
      (∀ h ∈ gs, h.vertices ≠ []) ∧
      (gs.map (fun h => h.vertices)).flatten.Nodup ∧
      (∀ v, v ∈ (gs.map (fun h => h.vertices)).flatten ↔
        v ∈ exA.vertices) ∧
      (∀ h ∈ gs, ∀ u ∈ h.vertices, ∀ w ∈ h.vertices,
        Reaches (children? exA) u w ∧ Reaches (children? exA) w u) ∧
      (∀ h1 ∈ gs, ∀ h2 ∈ gs, ∀ u ∈ h1.vertices, ∀ w ∈ h2.vertices,
        Reaches (children? exA) u w → Reaches (children? exA) w u →
        h1.vertices = h2.vertices)) :=
  ⟨by decide, scc_partition exA (by decide)⟩

end Refcycle
